import Mathlib

/-!
Verification of the virtual filesystem core and its path utilities.

The development shallowly embeds two source modules:
* `vpath` — pure path-string utilities (`normalizeSlashes`, `getRootLength`,
  `getNormalizedParts`, `normalize`, `combine`, `resolve`, `parse`, `format`,
  `basename`, `dirname`, `relative`, `isAbsolute`), modelled over `List Char`;
* `vfs` — the in-memory virtual filesystem (`VirtualFileSystemEntry`,
  `VirtualDirectory`, `VirtualFile`, symlinks, `traversePath`, `addFile`,
  `clone`, `makeReadOnly`, `findTarget`), modelled as a heap of numbered
  nodes with explicit state passing; lazy materialization uses fuel.

JavaScript strings are modelled as `List Char`; the source's `Intl` collator
branch of `compareStrings` is environment-dependent, so the model follows the
documented non-`Intl` fallback (ordinal comparison after upper-casing when
`ignoreCase`), which agrees with the collator on equality of the names used
throughout.  The JS regular expression for root prefixes is translated
operationally, including the lazy (`.*?`) quantifier semantics and the fact
that `.` does not match line terminators.
-/

namespace VPath

/-- JavaScript strings, modelled as lists of characters. -/
abbrev Str := List Char

/-- Coerce a Lean string literal into the model's string type. -/
def str (s : String) : Str := s.data

/-- `normalizeSlashes`: `path.replace(/\\/g, "/")`. -/
def normalizeSlashes (p : Str) : Str :=
  p.map (fun c => if c = '\\' then '/' else c)

/-- JS line terminators, which `.` in a regular expression does not match. -/
def isLineTerm (c : Char) : Bool :=
  c = '\n' || c = '\r' || c.val = 0x2028 || c.val = 0x2029

/-- Operational model of the lazy regex fragment `.*?\/`: the number of
characters consumed (including the slash) when matching laziest-first, or
`none` when no match is possible (`.` cannot cross a line terminator). -/
def lazyDotSlash : Str → Option Nat
  | [] => none
  | c :: cs =>
    if c = '/' then some 1
    else if isLineTerm c then none
    else (lazyDotSlash cs).map (· + 1)

/-- The part of `rootRegExp` headed by `^\/(\/(.*?\/(.*?\/)?)?)?`, i.e. the
length matched on a path that starts with a slash. -/
def slashRoot : Str → Nat
  | '/' :: '/' :: rest =>
    2 + (match lazyDotSlash rest with
      | none => 0
      | some i => i + (match lazyDotSlash (rest.drop i) with
        | none => 0
        | some j => j))
  | _ => 1

/-- JS `\w`: `[A-Za-z0-9_]`. -/
def isWordChar (c : Char) : Bool :=
  ('A' ≤ c && c ≤ 'Z') || ('a' ≤ c && c ≤ 'z') || ('0' ≤ c && c ≤ '9') || c = '_'

/-- JS `[a-zA-Z]`. -/
def isAsciiLetter (c : Char) : Bool :=
  ('A' ≤ c && c ≤ 'Z') || ('a' ≤ c && c ≤ 'z')

/-- The alternative `^\w+:\/{2}[^/]*\/?` of `rootRegExp` (0 when it fails). -/
def schemeRoot (p : Str) : Nat :=
  let w := p.takeWhile isWordChar
  if w.isEmpty then 0
  else
    match p.drop w.length with
    | ':' :: '/' :: '/' :: rest =>
      let h := rest.takeWhile (· ≠ '/')
      w.length + 3 + h.length + (if (rest.drop h.length).isEmpty then 0 else 1)
    | _ => 0

/-- `getRootLength`: length of the match of
`/^\/(\/(.*?\/(.*?\/)?)?)?|^[a-zA-Z]:\/?|^\w+:\/{2}[^/]*\/?/`
(JS alternation tries the alternatives left to right). -/
def getRootLength (p : Str) : Nat :=
  match p with
  | '/' :: _ => slashRoot p
  | c :: ':' :: rest =>
    if isAsciiLetter c then 2 + (if rest.head? = some '/' then 1 else 0)
    else schemeRoot p
  | _ => schemeRoot p

/-- `isAbsolute`: `getRootLength(normalizeSlashes(path)) === 0`
(translated exactly as written in the source). -/
def isAbsolute (p : Str) : Bool :=
  getRootLength (normalizeSlashes p) = 0

/-- `"str".split("/")`. -/
def splitSlash : Str → List Str
  | [] => [[]]
  | c :: cs =>
    match splitSlash cs with
    | [] => [[c]]
    | p :: ps => if c = '/' then [] :: p :: ps else (c :: p) :: ps

/-- The loop body of `getNormalizedParts`, with the accumulator kept in
reverse order (`acc.head?` is the JS `normalized[normalized.length - 1]`). -/
def normPartsAux : List Str → List Str → List Str
  | acc, [] => acc.reverse
  | acc, p :: ps =>
    if p = str "." then normPartsAux acc ps
    else if p = str ".." && !acc.isEmpty && acc.head? ≠ some (str "..") then
      normPartsAux acc.tail ps
    else if p.isEmpty then normPartsAux acc ps
    else normPartsAux (p :: acc) ps

/-- `getNormalizedParts(normalizedSlashedPath, rootLength)`. -/
def getNormalizedParts (p : Str) (rootLength : Nat) : List Str :=
  normPartsAux [] (splitSlash (p.drop rootLength))

/-- `parts.join("/")`. -/
def joinSlash : List Str → Str
  | [] => []
  | [p] => p
  | p :: ps => p ++ '/' :: joinSlash ps

/-- `normalize`. -/
def normalize (p : Str) : Str :=
  let p := normalizeSlashes p
  let rootLength := getRootLength p
  let root := p.take rootLength
  let normalized := getNormalizedParts p rootLength
  if !normalized.isEmpty then
    let joinedParts := root ++ joinSlash normalized
    if p.getLast? = some '/' then joinedParts ++ ['/'] else joinedParts
  else root

/-- `combinePaths(path1, path2)`. -/
def combinePaths (p1 p2 : Str) : Str :=
  if p1.isEmpty then p2
  else if p2.isEmpty then p1
  else if getRootLength p2 ≠ 0 then p2
  else if p1.getLast? = some '/' then p1 ++ p2
  else p1 ++ '/' :: p2

/-- `combine(path, ...paths)`. -/
def combine (p : Str) (ps : List Str) : Str :=
  ps.foldl (fun acc n => combinePaths acc (normalizeSlashes n)) (normalizeSlashes p)

/-- `resolve(path, ...paths)`. -/
def resolve (p : Str) (ps : List Str) : Str :=
  normalize (combine p ps)

/-- `parse(path)`: root string followed by normalized components. -/
def parse (p : Str) : List Str :=
  let p := normalizeSlashes p
  let rootLength := getRootLength p
  p.take rootLength :: getNormalizedParts p rootLength

/-- `format(components)`: `components[0] + components.slice(1).join("/")`
(note: the first component is concatenated without a separator). -/
def format (cs : List Str) : Str :=
  match cs with
  | [] => []
  | c :: rest => c ++ joinSlash rest

/-- Index just past the last `'/'` of `p`, or `0` when there is none
(JS `path.lastIndexOf("/") + 1`). -/
def lastSlashEnd (p : Str) : Nat :=
  match p.reverse.findIdx? (· = '/') with
  | some k => p.length - k
  | none => 0

/-- `basename(path)`. -/
def basename (p : Str) : Str :=
  let p := normalizeSlashes p
  p.drop (max (getRootLength p) (lastSlashEnd p))

/-- `dirname(path)`: `substr(0, Math.max(getRootLength(path), lastIndexOf("/")))`
(`lastIndexOf` is `-1` when absent, so the max is then the root length). -/
def dirname (p : Str) : Str :=
  let p := normalizeSlashes p
  let lastIdx := lastSlashEnd p
  p.take (max (getRootLength p) (if lastIdx = 0 then 0 else lastIdx - 1))

/-- Ordinal (code-point) comparison of JS strings. -/
def lexLt : Str → Str → Bool
  | [], [] => false
  | [], _ :: _ => true
  | _ :: _, [] => false
  | a :: as, b :: bs =>
    if a.val < b.val then true
    else if b.val < a.val then false
    else lexLt as bs

/-- `compareStrings(a, b, ignoreCase)` (non-`Intl` fallback: upper-case both
strings when `ignoreCase`, then ordinal comparison). -/
def compareStrings (a b : Str) (ignoreCase : Bool) : Int :=
  if a = b then 0
  else
    let a := if ignoreCase then a.map Char.toUpper else a
    let b := if ignoreCase then b.map Char.toUpper else b
    if lexLt a b then -1 else if lexLt b a then 1 else 0

/-- The scan of `relative` that finds the first differing component index. -/
def commonStart (fromC toC : List Str) (ignoreCase : Bool) : Nat :=
  match fromC, toC with
  | f :: fs, t :: ts =>
    if compareStrings f t ignoreCase ≠ 0 then 0
    else commonStart fs ts ignoreCase + 1
  | _, _ => 0

/-- `relative(from, to, ignoreCase)`; `Except.error` models a thrown `Error`. -/
def relative (fromP toP : Str) (ignoreCase : Bool) : Except String Str :=
  if !isAbsolute fromP then .error "Path not absolute: from"
  else if !isAbsolute toP then .error "Path not absolute: to"
  else
    let fromComponents := parse fromP
    let toComponents := parse toP
    let start := commonStart fromComponents toComponents ignoreCase
    let components := toComponents.drop start
    let components := List.replicate (fromComponents.length - start) (str "..") ++ components
    .ok (format components)

end VPath

namespace VFS

open VPath

/-!
Heap model of `vfs.ts`.  Every `VirtualFileSystemEntry` object is a node in a
heap addressed by a numeric id (object identity = id); object fields become
node fields, and every operation threads the heap explicitly.  Recursions
that are not structural (shadow materialization, symlink chains) take fuel;
`Res.outOfFuel` marks exhaustion and never occurs at the fuel bounds proved
below.
-/

/-- The external `FileSystemResolver` interface: `getEntries` yields file and
directory names for a directory node, `getContent` yields a file's content. -/
structure Resolver where
  getEntries : Nat → List Str × List Str
  getContent : Nat → Option Str

/-- Class-specific state of an entry:
* `fsRoot`   — `VirtualFileSystem` (its own `currentDirectory`,
  `useCaseSensitiveFileNames`, lazily created `_root`);
* `dir`      — `VirtualDirectory` (`_entries`, `_resolver`, `_shadowRoot`);
* `dirLink`  — `VirtualDirectorySymlink` (inherited `_entries` — its own
  resolver/shadow are never set — plus `_target`);
* `file`     — `VirtualFile` (`_content`, `_resolver`, `_shadowRoot`);
* `fileLink` — `VirtualFileSymlink` (`_target`; the inherited content fields
  stay unused because both content accessors are overridden). -/
inductive NodeData where
  | fsRoot (currentDirectory : Str) (caseSensitive : Bool) (root : Option Nat)
  | dir (entries : Option (List Nat)) (resolver : Option Resolver) (shadowRoot : Option Nat)
  | dirLink (entries : Option (List Nat)) (target : Str)
  | file (content : Option Str) (resolver : Option (Nat → Option Str)) (shadowRoot : Option Nat)
  | fileLink (target : Str)

/-- The fields shared by every `VirtualFileSystemEntry`. -/
structure Node where
  name : Str
  parent : Nat
  fileSystem : Nat
  readOnly : Bool
  data : NodeData

/-- The heap: node `i` is `heap[i]`; allocation appends. -/
structure State where
  heap : List Node

/-- Result of an operation: a value with the updated heap, the thrown
"Cannot modify a frozen entry." error, a model-level type confusion that the
source cannot reach through its API (`stuck`), or fuel exhaustion. -/
inductive Res (α : Type) where
  | ok (st : State) (val : α)
  | frozen
  | stuck
  | outOfFuel
deriving Inhabited

/-- Overwrite the node at `i`. -/
def setNode (st : State) (i : Nat) (n : Node) : State :=
  { heap := st.heap.set i n }

/-- Allocate a fresh node. -/
def alloc (st : State) (n : Node) : State × Nat :=
  ({ heap := st.heap ++ [n] }, st.heap.length)

/-- `entry instanceof VirtualDirectory` (true for directory symlinks too). -/
def isDirInstance (st : State) (i : Nat) : Bool :=
  match st.heap[i]? with
  | some n =>
    match n.data with
    | .dir _ _ _ => true
    | .dirLink _ _ => true
    | _ => false
  | none => false

/-- `entry instanceof VirtualFile` (true for file symlinks too). -/
def isFileInstance (st : State) (i : Nat) : Bool :=
  match st.heap[i]? with
  | some n =>
    match n.data with
    | .file _ _ _ => true
    | .fileLink _ => true
    | _ => false
  | none => false

/-- `entry instanceof VirtualFileSymlink || entry instanceof VirtualDirectorySymlink`. -/
def isLinkInstance (st : State) (i : Nat) : Bool :=
  match st.heap[i]? with
  | some n =>
    match n.data with
    | .dirLink _ _ => true
    | .fileLink _ => true
    | _ => false
  | none => false

/-- The `target` field of a symlink node (`[]` on non-symlinks). -/
def targetOf (st : State) (i : Nat) : Str :=
  match st.heap[i]? with
  | some n =>
    match n.data with
    | .dirLink _ t => t
    | .fileLink t => t
    | _ => []
  | none => []

/-- The case-sensitivity flag of the filesystem that owns node `i`. -/
def caseFlagOf (st : State) (i : Nat) : Option Bool :=
  match st.heap[i]? with
  | some n =>
    match st.heap[n.fileSystem]? with
    | some m =>
      match m.data with
      | .fsRoot _ cs _ => some cs
      | _ => none
    | none => none
  | none => none

/-- `VirtualFileSystem.sameName(a, b)`.  The source passes
`useCaseSensitiveFileNames` as the `ignoreCase` argument of
`compareStrings`, so a case-sensitive filesystem compares ignoring case —
translated exactly as written. -/
def sameNameW (flag : Bool) (a b : Str) : Bool :=
  compareStrings a b flag = 0

/-- The `private get root()` accessor of `VirtualFileSystem`: creates the
root directory on first access, freezing it when the filesystem is frozen. -/
def getRoot (st : State) (fs : Nat) : Res Nat :=
  match st.heap[fs]? with
  | some n =>
    match n.data with
    | .fsRoot _ _ (some r) => .ok st r
    | .fsRoot cwd cs none =>
      let (st1, r) := alloc st
        { name := [], parent := fs, fileSystem := fs, readOnly := n.readOnly,
          data := .dir none none none }
      .ok (setNode st1 fs { n with data := .fsRoot cwd cs (some r) }) r
    | _ => .stuck
  | none => .stuck

/-- `entry.clone(parent)` for entries inside a shadow materialization: a
directory or file clone shadows the original, symlink clones copy the
target path.  (`VirtualFileSystem` never occurs in an entry list.) -/
def cloneEntry (st : State) (parentId fsId : Nat) (orig : Nat) : Option (State × Nat) :=
  match st.heap[orig]? with
  | some n =>
    match n.data with
    | .dir _ _ _ =>
      some (alloc st { name := n.name, parent := parentId, fileSystem := fsId,
                       readOnly := false, data := .dir none none (some orig) })
    | .dirLink _ t =>
      some (alloc st { name := n.name, parent := parentId, fileSystem := fsId,
                       readOnly := false, data := .dirLink none t })
    | .file _ _ _ =>
      some (alloc st { name := n.name, parent := parentId, fileSystem := fsId,
                       readOnly := false, data := .file none none (some orig) })
    | .fileLink t =>
      some (alloc st { name := n.name, parent := parentId, fileSystem := fsId,
                       readOnly := false, data := .fileLink t })
    | .fsRoot _ _ _ => none
  | none => none

/-- Allocate the children produced by a resolver: directories first, then
files, each inheriting the container's frozen flag (lines 334-346). -/
def resolverChildren (st : State) (d fsId : Nat) (ro : Bool) (r : Resolver)
    (dirs files : List Str) : State × List Nat :=
  let step1 := dirs.foldl (fun (acc : State × List Nat) nm =>
    let (st, l) := acc
    let (st, c) := alloc st
      { name := nm, parent := d, fileSystem := fsId,
        readOnly := ro, data := .dir none (some r) none }
    (st, l ++ [c])) (st, [])
  files.foldl (fun (acc : State × List Nat) nm =>
    let (st, l) := acc
    let (st, c) := alloc st
      { name := nm, parent := d, fileSystem := fsId,
        readOnly := ro, data := .file none (some r.getContent) none }
    (st, l ++ [c])) step1

/-- Clone each shadow child into the materializing container (lines 347-353). -/
def shadowChildren (st : State) (d fsId : Nat) (ro : Bool) :
    List Nat → Option (State × List Nat)
  | [] => some (st, [])
  | e :: es =>
    match cloneEntry st d fsId e with
    | some (st1, c) =>
      let st2 :=
        if ro then
          match st1.heap[c]? with
          | some cn => setNode st1 c { cn with readOnly := true }
          | none => st1
        else st1
      match shadowChildren st2 d fsId ro es with
      | some (st3, cs) => some (st3, c :: cs)
      | none => none
    | none => none

/-- The `private get entries()` accessor of `VirtualDirectory` (also used,
with both sources absent, by `VirtualDirectorySymlink` through inheritance):
materializes the child list at most once, from the resolver or from the
shadow root, clearing both sources first (lines 327-356). -/
def materialize : Nat → State → Nat → Res (List Nat)
  | 0, _, _ => .outOfFuel
  | fuel + 1, st, d =>
    match st.heap[d]? with
    | some n =>
      match n.data with
      | .dir (some l) _ _ => .ok st l
      | .dirLink (some l) _ => .ok st l
      | .dirLink none t =>
        .ok (setNode st d { n with data := .dirLink (some []) t }) []
      | .dir none resolver shadow =>
        let st1 := setNode st d { n with data := .dir (some []) none none }
        match resolver with
        | some r =>
          let (files, dirs) := r.getEntries d
          let (st2, l) := resolverChildren st1 d n.fileSystem n.readOnly r dirs files
          match st2.heap[d]? with
          | some n2 => .ok (setNode st2 d { n2 with data := .dir (some l) none none }) l
          | none => .stuck
        | none =>
          match shadow with
          | some s =>
            match materialize fuel st1 s with
            | .ok st2 se =>
              match shadowChildren st2 d n.fileSystem n.readOnly se with
              | some (st3, l) =>
                match st3.heap[d]? with
                | some n3 => .ok (setNode st3 d { n3 with data := .dir (some l) none none }) l
                | none => .stuck
              | none => .stuck
            | e => e
          | none => .ok st1 []
      | _ => .stuck
    | none => .stuck

/-- `getFileSystemEntry(name)`: linear scan of the materialized children,
comparing names with the owning filesystem's `sameName` (lines 99-106). -/
def lookupEntry (fuel : Nat) (st : State) (d : Nat) (name : Str) : Res (Option Nat) :=
  match caseFlagOf st d with
  | some flag =>
    match materialize fuel st d with
    | .ok st1 l =>
      .ok st1 (l.find? (fun e =>
        match st1.heap[e]? with
        | some ne => sameNameW flag ne.name name
        | none => false))
    | .frozen => .frozen
    | .stuck => .stuck
    | .outOfFuel => .outOfFuel
  | none => .stuck

/-- The component loop of `traversePath` (lines 243-255, without
`followSymlinks`, which no internal caller passes): descend through
directory-kind entries, return a file-kind entry immediately, fail with
no entry otherwise. -/
def traverseFold (fuel : Nat) : State → Nat → List Str → Res (Option Nat)
  | st, d, [] => .ok st (some d)
  | st, d, c :: cs =>
    match lookupEntry fuel st d c with
    | .ok st1 e? =>
      match e? with
      | some e =>
        if isDirInstance st1 e then traverseFold fuel st1 e cs
        else if isFileInstance st1 e then .ok st1 (some e)
        else .ok st1 none
      | none => .ok st1 none
    | .frozen => .frozen
    | .stuck => .stuck
    | .outOfFuel => .outOfFuel

/-- `VirtualFileSystem.traversePath(path)`: resolve against the current
directory, parse into components, walk from the root. -/
def traversePath (fuel : Nat) (st : State) (fs : Nat) (path : Str) : Res (Option Nat) :=
  match st.heap[fs]? with
  | some n =>
    match n.data with
    | .fsRoot cwd _ _ =>
      match getRoot st fs with
      | .ok st1 r => traverseFold fuel st1 r (parse (resolve cwd [path]))
      | .frozen => .frozen
      | .stuck => .stuck
      | .outOfFuel => .outOfFuel
    | _ => .stuck
  | none => .stuck

/-- `findTarget(vfs, target, set?)` (lines 596-605): follow the symlink
chain with a visited set (object identity = node id), reporting no entry on
a cycle or an unresolved path. -/
def findTarget (fuel : Nat) (st : State) (fs : Nat) (target : Str)
    (visited : List Nat) : Res (Option Nat) :=
  match fuel with
  | 0 => .outOfFuel
  | fuel + 1 =>
    match traversePath fuel st fs target with
    | .ok st1 e? =>
      match e? with
      | some e =>
        if isLinkInstance st1 e then
          if e ∈ visited then .ok st1 none
          else findTarget fuel st1 fs (targetOf st1 e) (e :: visited)
        else .ok st1 (some e)
      | none => .ok st1 none
    | .frozen => .frozen
    | .stuck => .stuck
    | .outOfFuel => .outOfFuel

/-- `VirtualDirectorySymlink.targetDirectory`: resolve the target and keep
it only when it is a `VirtualDirectory` (lines 479-482). -/
def targetDirectory (fuel : Nat) (st : State) (s : Nat) : Res (Option Nat) :=
  match st.heap[s]? with
  | some n =>
    match n.data with
    | .dirLink _ t =>
      match findTarget fuel st n.fileSystem t [] with
      | .ok st1 (some e) => .ok st1 (if isDirInstance st1 e then some e else none)
      | .ok st1 none => .ok st1 none
      | .frozen => .frozen
      | .stuck => .stuck
      | .outOfFuel => .outOfFuel
    | _ => .stuck
  | none => .stuck

/-- `VirtualFileSymlink.targetFile` (lines 574-577). -/
def targetFile (fuel : Nat) (st : State) (s : Nat) : Res (Option Nat) :=
  match st.heap[s]? with
  | some n =>
    match n.data with
    | .fileLink t =>
      match findTarget fuel st n.fileSystem t [] with
      | .ok st1 (some e) => .ok st1 (if isFileInstance st1 e then some e else none)
      | .ok st1 none => .ok st1 none
      | .frozen => .frozen
      | .stuck => .stuck
      | .outOfFuel => .outOfFuel
    | _ => .stuck
  | none => .stuck

/-- `VirtualDirectorySymlink.isBroken` (lines 475-477). -/
def isBrokenDirLink (fuel : Nat) (st : State) (s : Nat) : Res Bool :=
  match targetDirectory fuel st s with
  | .ok st1 e? => .ok st1 e?.isNone
  | .frozen => .frozen
  | .stuck => .stuck
  | .outOfFuel => .outOfFuel

/-- `VirtualFileSymlink.isBroken` (lines 570-572). -/
def isBrokenFileLink (fuel : Nat) (st : State) (s : Nat) : Res Bool :=
  match targetFile fuel st s with
  | .ok st1 e? => .ok st1 e?.isNone
  | .frozen => .frozen
  | .stuck => .stuck
  | .outOfFuel => .outOfFuel

/-- `getFileSystemEntries()` (non-recursive listing) on a directory-kind
container: returns its own materialized children (lines 80-97; note that
`VirtualDirectorySymlink` does not override it). -/
def getFileSystemEntries (fuel : Nat) (st : State) (d : Nat) : Res (List Nat) :=
  materialize fuel st d

/-- Append a child to an already materialized container's entry list
(`this.entries.push(entry)`). -/
def pushEntry (st : State) (d c : Nat) : Res Unit :=
  match st.heap[d]? with
  | some n =>
    match n.data with
    | .dir (some l) r s => .ok (setNode st d { n with data := .dir (some (l ++ [c])) r s }) ()
    | .dirLink (some l) t => .ok (setNode st d { n with data := .dirLink (some (l ++ [c])) t }) ()
    | _ => .stuck
  | none => .stuck

/-- `VirtualDirectory.addDirectory(name, resolver?)` (lines 358-366):
frozen check, then find-or-create; an existing non-directory entry yields
no result. -/
def dirAddDirectoryPlain (fuel : Nat) (st : State) (d : Nat) (name : Str)
    (resolver : Option Resolver) : Res (Option Nat) :=
  match st.heap[d]? with
  | some n =>
    if n.readOnly then .frozen
    else
      match lookupEntry fuel st d name with
      | .ok st1 (some e) => .ok st1 (if isDirInstance st1 e then some e else none)
      | .ok st1 none =>
        let (st2, c) := alloc st1
          { name := name, parent := d, fileSystem := n.fileSystem,
            readOnly := false, data := .dir none resolver none }
        match pushEntry st2 d c with
        | .ok st3 _ => .ok st3 (some c)
        | .frozen => .frozen
        | .stuck => .stuck
        | .outOfFuel => .outOfFuel
      | .frozen => .frozen
      | .stuck => .stuck
      | .outOfFuel => .outOfFuel
  | none => .stuck

/-- `addDirectory` with the `VirtualDirectorySymlink` override (lines
484-487): a symlink delegates to its resolved target directory, with no
frozen check of its own, and is a no-op when broken. -/
def dirAddDirectory (fuel : Nat) (st : State) (d : Nat) (name : Str)
    (resolver : Option Resolver) : Res (Option Nat) :=
  match st.heap[d]? with
  | some n =>
    match n.data with
    | .dirLink _ _ =>
      match targetDirectory fuel st d with
      | .ok st1 (some t) => dirAddDirectoryPlain fuel st1 t name resolver
      | .ok st1 none => .ok st1 none
      | .frozen => .frozen
      | .stuck => .stuck
      | .outOfFuel => .outOfFuel
    | .dir _ _ _ => dirAddDirectoryPlain fuel st d name resolver
    | _ => .stuck
  | none => .stuck

/-- The `content` argument of `addFile`: a literal string or a resolver
callback (`FileSystemResolver["getContent"]`). -/
abbrev ContentArg := Option (Str ⊕ (Nat → Option Str))

/-- The `VirtualFile` constructor's content fields:
`_content` when the argument is a string, `_resolver` when a function. -/
def contentFields (c : ContentArg) : Option Str × Option (Nat → Option Str) :=
  match c with
  | some (.inl s) => (some s, none)
  | some (.inr f) => (none, some f)
  | none => (none, none)

/-- `VirtualDirectory.addFile(name, content?)` (lines 368-376). -/
def dirAddFilePlain (fuel : Nat) (st : State) (d : Nat) (name : Str)
    (content : ContentArg) : Res (Option Nat) :=
  match st.heap[d]? with
  | some n =>
    if n.readOnly then .frozen
    else
      match lookupEntry fuel st d name with
      | .ok st1 (some e) => .ok st1 (if isFileInstance st1 e then some e else none)
      | .ok st1 none =>
        let (st2, c) := alloc st1
          { name := name, parent := d, fileSystem := n.fileSystem,
            readOnly := false,
            data := .file (contentFields content).1 (contentFields content).2 none }
        match pushEntry st2 d c with
        | .ok st3 _ => .ok st3 (some c)
        | .frozen => .frozen
        | .stuck => .stuck
        | .outOfFuel => .outOfFuel
      | .frozen => .frozen
      | .stuck => .stuck
      | .outOfFuel => .outOfFuel
  | none => .stuck

/-- `addFile` with the `VirtualDirectorySymlink` override (lines 489-492). -/
def dirAddFile (fuel : Nat) (st : State) (d : Nat) (name : Str)
    (content : ContentArg) : Res (Option Nat) :=
  match st.heap[d]? with
  | some n =>
    match n.data with
    | .dirLink _ _ =>
      match targetDirectory fuel st d with
      | .ok st1 (some t) => dirAddFilePlain fuel st1 t name content
      | .ok st1 none => .ok st1 none
      | .frozen => .frozen
      | .stuck => .stuck
      | .outOfFuel => .outOfFuel
    | .dir _ _ _ => dirAddFilePlain fuel st d name content
    | _ => .stuck
  | none => .stuck

/-- Find the index of the first child matching `sameName(name, entry.name)`
and the given kind test (the splice loops of lines 417-439). -/
def findRemovalIndex (st : State) (flag : Bool) (name : Str) (dirKind : Bool) :
    List Nat → Option Nat
  | [] => none
  | e :: es =>
    let hit :=
      match st.heap[e]? with
      | some ne =>
        sameNameW flag name ne.name &&
          (if dirKind then isDirInstance st e else isFileInstance st e)
      | none => false
    if hit then some 0 else (findRemovalIndex st flag name dirKind es).map (· + 1)

/-- `VirtualDirectory.removeDirectory(name)` (lines 417-427). -/
def dirRemoveDirectoryPlain (fuel : Nat) (st : State) (d : Nat) (name : Str) : Res Bool :=
  match st.heap[d]?, caseFlagOf st d with
  | some n, some flag =>
    if n.readOnly then .frozen
    else
      match materialize fuel st d with
      | .ok st1 l =>
        match findRemovalIndex st1 flag name true l with
        | some i =>
          match st1.heap[d]? with
          | some n1 =>
            match n1.data with
            | .dir (some l1) r s =>
              .ok (setNode st1 d { n1 with data := .dir (some (l1.eraseIdx i)) r s }) true
            | .dirLink (some l1) t =>
              .ok (setNode st1 d { n1 with data := .dirLink (some (l1.eraseIdx i)) t }) true
            | _ => .stuck
          | none => .stuck
        | none => .ok st1 false
      | .frozen => .frozen
      | .stuck => .stuck
      | .outOfFuel => .outOfFuel
  | _, _ => .stuck

/-- `removeDirectory` with the symlink override (lines 494-497). -/
def dirRemoveDirectory (fuel : Nat) (st : State) (d : Nat) (name : Str) : Res Bool :=
  match st.heap[d]? with
  | some n =>
    match n.data with
    | .dirLink _ _ =>
      match targetDirectory fuel st d with
      | .ok st1 (some t) => dirRemoveDirectoryPlain fuel st1 t name
      | .ok st1 none => .ok st1 false
      | .frozen => .frozen
      | .stuck => .stuck
      | .outOfFuel => .outOfFuel
    | .dir _ _ _ => dirRemoveDirectoryPlain fuel st d name
    | _ => .stuck
  | none => .stuck

/-- `VirtualDirectory.removeFile(name)` (lines 429-439). -/
def dirRemoveFilePlain (fuel : Nat) (st : State) (d : Nat) (name : Str) : Res Bool :=
  match st.heap[d]?, caseFlagOf st d with
  | some n, some flag =>
    if n.readOnly then .frozen
    else
      match materialize fuel st d with
      | .ok st1 l =>
        match findRemovalIndex st1 flag name false l with
        | some i =>
          match st1.heap[d]? with
          | some n1 =>
            match n1.data with
            | .dir (some l1) r s =>
              .ok (setNode st1 d { n1 with data := .dir (some (l1.eraseIdx i)) r s }) true
            | .dirLink (some l1) t =>
              .ok (setNode st1 d { n1 with data := .dirLink (some (l1.eraseIdx i)) t }) true
            | _ => .stuck
          | none => .stuck
        | none => .ok st1 false
      | .frozen => .frozen
      | .stuck => .stuck
      | .outOfFuel => .outOfFuel
  | _, _ => .stuck

/-- `removeFile` with the symlink override (lines 499-502). -/
def dirRemoveFile (fuel : Nat) (st : State) (d : Nat) (name : Str) : Res Bool :=
  match st.heap[d]? with
  | some n =>
    match n.data with
    | .dirLink _ _ =>
      match targetDirectory fuel st d with
      | .ok st1 (some t) => dirRemoveFilePlain fuel st1 t name
      | .ok st1 none => .ok st1 false
      | .frozen => .frozen
      | .stuck => .stuck
      | .outOfFuel => .outOfFuel
    | .dir _ _ _ => dirRemoveFilePlain fuel st d name
    | _ => .stuck
  | none => .stuck

/-- `VirtualFile.content` getter (lines 521-535): materialize at most once
from the resolver or the shadow file, clearing both sources. -/
def fileContentPlain : Nat → State → Nat → Res (Option Str)
  | 0, _, _ => .outOfFuel
  | fuel + 1, st, f =>
    match st.heap[f]? with
    | some n =>
      match n.data with
      | .file (some c) _ _ => .ok st (some c)
      | .file none resolver shadow =>
        match resolver with
        | some r =>
          .ok (setNode st f { n with data := .file (r f) none none }) (r f)
        | none =>
          match shadow with
          | some s =>
            match fileContentPlain fuel (setNode st f { n with data := .file none none none }) s with
            | .ok st1 c =>
              match st1.heap[f]? with
              | some n1 => .ok (setNode st1 f { n1 with data := .file c none none }) c
              | none => .stuck
            | .frozen => .frozen
            | .stuck => .stuck
            | .outOfFuel => .outOfFuel
          | none => .ok (setNode st f { n with data := .file none none none }) none
      | _ => .stuck
    | none => .stuck

/-- `content` getter with the `VirtualFileSymlink` override (lines 579-582):
delegate to the resolved target file, or yield nothing when broken. -/
def fileContent (fuel : Nat) (st : State) (f : Nat) : Res (Option Str) :=
  match st.heap[f]? with
  | some n =>
    match n.data with
    | .fileLink _ =>
      match targetFile fuel st f with
      | .ok st1 (some t) => fileContentPlain fuel st1 t
      | .ok st1 none => .ok st1 none
      | .frozen => .frozen
      | .stuck => .stuck
      | .outOfFuel => .outOfFuel
    | .file _ _ _ => fileContentPlain fuel st f
    | _ => .stuck
  | none => .stuck

/-- `VirtualFile.content` setter (lines 537-541): frozen check, clear the
resolver, store the value (the shadow reference is not cleared). -/
def setFileContentPlain (st : State) (f : Nat) (v : Option Str) : Res Unit :=
  match st.heap[f]? with
  | some n =>
    match n.data with
    | .file _ _ shadow =>
      if n.readOnly then .frozen
      else .ok (setNode st f { n with data := .file v none shadow }) ()
    | _ => .stuck
  | none => .stuck

/-- `content` setter with the `VirtualFileSymlink` override (lines 584-587):
write through to the resolved target, or do nothing when broken. -/
def setFileContent (fuel : Nat) (st : State) (f : Nat) (v : Option Str) : Res Unit :=
  match st.heap[f]? with
  | some n =>
    match n.data with
    | .fileLink _ =>
      match targetFile fuel st f with
      | .ok st1 (some t) => setFileContentPlain st1 t v
      | .ok st1 none => .ok st1 ()
      | .frozen => .frozen
      | .stuck => .stuck
      | .outOfFuel => .outOfFuel
    | .file _ _ _ => setFileContentPlain st f v
    | _ => .stuck
  | none => .stuck

/-- `makeReadOnly()` (lines 66-68): sets the entry's own flag.  Note that
the source never calls `makeReadOnlyCore`, so the freeze does not recurse
into already materialized children. -/
def makeReadOnly (st : State) (i : Nat) : Res Unit :=
  match st.heap[i]? with
  | some n => .ok (setNode st i { n with readOnly := true }) ()
  | none => .stuck

/-- The component loop of `VirtualFileSystem.addDirectory` (lines 174-180):
`directory = directory.addDirectory(component, resolver)`, stopping early
when a step yields no directory. -/
def addDirFold (fuel : Nat) : State → Nat → List Str → Option Resolver → Res (Option Nat)
  | st, d, [], _ => .ok st (some d)
  | st, d, c :: cs, resolver =>
    match dirAddDirectory fuel st d c resolver with
    | .ok st1 (some d1) => addDirFold fuel st1 d1 cs resolver
    | .ok st1 none => .ok st1 none
    | .frozen => .frozen
    | .stuck => .stuck
    | .outOfFuel => .outOfFuel

/-- `VirtualFileSystem.addDirectory(path, resolver?)` (lines 171-182). -/
def fsAddDirectory (fuel : Nat) (st : State) (fs : Nat) (path : Str)
    (resolver : Option Resolver) : Res (Option Nat) :=
  match st.heap[fs]? with
  | some n =>
    match n.data with
    | .fsRoot cwd _ _ =>
      if n.readOnly then .frozen
      else
        match getRoot st fs with
        | .ok st1 r => addDirFold fuel st1 r (parse (resolve cwd [path])) resolver
        | .frozen => .frozen
        | .stuck => .stuck
        | .outOfFuel => .outOfFuel
    | _ => .stuck
  | none => .stuck

/-- `VirtualFileSystem.addFile(path, content?)` (lines 184-191): ensure the
parent directory (note: the file name is the basename of the *given* path,
the directory is the dirname of the *resolved* path), then add the file. -/
def fsAddFile (fuel : Nat) (st : State) (fs : Nat) (path : Str)
    (content : ContentArg) : Res (Option Nat) :=
  match st.heap[fs]? with
  | some n =>
    match n.data with
    | .fsRoot cwd _ _ =>
      if n.readOnly then .frozen
      else
        let absolutePath := resolve cwd [path]
        let fileName := basename path
        let directoryPath := dirname absolutePath
        match fsAddDirectory fuel st fs directoryPath none with
        | .ok st1 (some d) => dirAddFile fuel st1 d fileName content
        | .ok st1 none => .ok st1 none
        | .frozen => .frozen
        | .stuck => .stuck
        | .outOfFuel => .outOfFuel
    | _ => .stuck
  | none => .stuck

/-- `VirtualFileSystem.removeFile(path)` (lines 215-226). -/
def fsRemoveFile (fuel : Nat) (st : State) (fs : Nat) (path : Str) : Res Bool :=
  match st.heap[fs]? with
  | some n =>
    match n.data with
    | .fsRoot _ _ _ =>
      if n.readOnly then .frozen
      else
        let dirPart := dirname path
        let basePart := basename path
        if dirPart.isEmpty then
          match getRoot st fs with
          | .ok st1 r => dirRemoveFile fuel st1 r basePart
          | .frozen => .frozen
          | .stuck => .stuck
          | .outOfFuel => .outOfFuel
        else
          match traversePath fuel st fs dirPart with
          | .ok st1 (some container) =>
            if isDirInstance st1 container then dirRemoveFile fuel st1 container basePart
            else .ok st1 false
          | .ok st1 none => .ok st1 false
          | .frozen => .frozen
          | .stuck => .stuck
          | .outOfFuel => .outOfFuel
    | _ => .stuck
  | none => .stuck

/-- `VirtualFileSystem.clone()` (lines 300-304): a fresh filesystem whose
root is a shadow clone of this filesystem's root. -/
def fsClone (st : State) (fs : Nat) : Res Nat :=
  match st.heap[fs]? with
  | some n =>
    match n.data with
    | .fsRoot cwd cs _ =>
      let (st1, fs2) := alloc st
        { name := [], parent := 0, fileSystem := 0, readOnly := false,
          data := .fsRoot (normalizeSlashes cwd) cs none }
      let st1 := setNode st1 fs2
        { name := [], parent := fs2, fileSystem := fs2, readOnly := false,
          data := .fsRoot (normalizeSlashes cwd) cs none }
      match getRoot st1 fs with
      | .ok st2 r =>
        let rootName := match st2.heap[r]? with
          | some rn => rn.name
          | none => []
        let (st3, rc) := alloc st2
          { name := rootName, parent := fs2, fileSystem := fs2, readOnly := false,
            data := .dir none none (some r) }
        match st3.heap[fs2]? with
        | some n2 => .ok (setNode st3 fs2 { n2 with data := .fsRoot (normalizeSlashes cwd) cs (some rc) }) fs2
        | none => .stuck
      | .frozen => .frozen
      | .stuck => .stuck
      | .outOfFuel => .outOfFuel
    | _ => .stuck
  | none => .stuck

/-- The empty heap. -/
def emptyState : State := { heap := [] }

/-- `new VirtualFileSystem(currentDirectory, useCaseSensitiveFileNames)`:
the filesystem entry is its own parent and owning filesystem, and the
constructor normalizes backslashes in the current directory (lines 136-140). -/
def createFileSystem (st : State) (currentDirectory : Str) (caseSensitive : Bool) :
    State × Nat :=
  let (st1, fs) := alloc st
    { name := [], parent := 0, fileSystem := 0, readOnly := false,
      data := .fsRoot (normalizeSlashes currentDirectory) caseSensitive none }
  (setNode st1 fs
    { name := [], parent := fs, fileSystem := fs, readOnly := false,
      data := .fsRoot (normalizeSlashes currentDirectory) caseSensitive none }, fs)

/-- The value of a successful operation. -/
def Res.val? {α : Type} : Res α → Option α
  | .ok _ v => some v
  | _ => none

/-- The state after a successful operation (the empty heap otherwise). -/
def Res.stateD {α : Type} : Res α → State
  | .ok st _ => st
  | _ => emptyState

/-- Did the operation throw the "Cannot modify a frozen entry." error? -/
def Res.isFrozenErr {α : Type} : Res α → Bool
  | .frozen => true
  | _ => false

/-- Did the operation run out of fuel (a model artifact, never the source)? -/
def Res.isOutOfFuel {α : Type} : Res α → Bool
  | .outOfFuel => true
  | _ => false

/-- The entry id produced by a lookup-style operation (0 otherwise). -/
def idOf (r : Res (Option Nat)) : Nat :=
  match r with
  | .ok _ (some i) => i
  | _ => 0

/-- The `readOnly` flag of a node. -/
def readOnlyOf (st : State) (i : Nat) : Option Bool :=
  (st.heap[i]?).map (·.readOnly)

/-- States whose directories and files carry no resolver and no shadow root:
materialization is then a pure marker flip and allocates nothing. -/
def nodeSourceFree (n : Node) : Bool :=
  match n.data with
  | .dir _ r s => r.isNone && s.isNone
  | .file _ r s => r.isNone && s.isNone
  | _ => true

def SourceFree (st : State) : Prop :=
  ∀ n ∈ st.heap, nodeSourceFree n = true

instance : DecidablePred SourceFree := fun st =>
  List.decidableBAll _ st.heap

/-- The number of symlink nodes not yet in the visited set: the decreasing
measure of `findTarget`. -/
def linkMeasure (st : State) (visited : List Nat) : Nat :=
  ((List.range st.heap.length).filter
    (fun i => isLinkInstance st i && !visited.contains i)).length

/-- Node-level symlink test. -/
def nodeIsLink (n : Node) : Bool :=
  match n.data with
  | .dirLink _ _ => true
  | .fileLink _ => true
  | _ => false

/-- Node-level symlink target. -/
def nodeTarget (n : Node) : Str :=
  match n.data with
  | .dirLink _ t => t
  | .fileLink t => t
  | _ => []

/-- Two heaps with the same symlinks (same ids are links, same targets):
what `findTarget`'s measure argument needs preserved across the lazy
materializations performed by traversal. -/
def LinksPreserved (st st' : State) : Prop :=
  ∀ i, isLinkInstance st' i = isLinkInstance st i ∧ targetOf st' i = targetOf st i

end VFS

namespace Scn

/-!
Concrete scenario states used by the counterexample and witness theorems.
All are built through the model's public operations (plus direct allocation
for symlink entries, which stands for `addSymlink`).
-/

open VPath VFS

/-- A fresh case-sensitive filesystem with empty current directory. -/
def st0 : State := (createFileSystem emptyState (str "") true).1

/-- Its id. -/
def fs0 : Nat := (createFileSystem emptyState (str "") true).2

/-- `addFile("/a/b.ts", "X")`. -/
def addA : Res (Option Nat) := fsAddFile 8 st0 fs0 (str "/a/b.ts") (some (.inl (str "X")))

def stA : State := addA.stateD

/-- The directory entry `/a`, materialized before the freeze. -/
def dirARes : Res (Option Nat) := traversePath 8 stA fs0 (str "/a")

def dirA : Nat := idOf dirARes

/-- Freeze the filesystem (after `/a` exists and is materialized). -/
def stFrozen : State := (makeReadOnly dirARes.stateD fs0).stateD

/-- The file `/a/b.ts` looked up after the freeze. -/
def fileARes : Res (Option Nat) := traversePath 8 stFrozen fs0 (str "/a/b.ts")

/-- Clone of the filesystem holding `/a/b.ts = "X"`. -/
def cloneRes : Res Nat := fsClone stA fs0

def stClone : State := match cloneRes with
  | .ok st _ => st
  | _ => emptyState

def fsC : Nat := match cloneRes with
  | .ok _ v => v
  | _ => 0

/-- Reading the clone's file before any mutation. -/
def cloneReadRes : Res (Option Nat) := traversePath 8 stClone fsC (str "/a/b.ts")

/-- The original file, looked up in the post-clone state. -/
def origFileRes : Res (Option Nat) := traversePath 8 stClone fs0 (str "/a/b.ts")

/-- Mutate the original file's content from "X" to "Y" after cloning. -/
def stMut : State :=
  (setFileContentPlain origFileRes.stateD (idOf origFileRes) (some (str "Y"))).stateD

/-- Reading the clone's file after the original was mutated. -/
def cloneReadMutRes : Res (Option Nat) := traversePath 8 stMut fsC (str "/a/b.ts")

/-- `addFile("/q/", "X")`: basename is empty, so a file named `""` is created. -/
def addQ : Res (Option Nat) := fsAddFile 8 stA fs0 (str "/q/") (some (.inl (str "X")))

def stQ : State := addQ.stateD

/-- Base state for the symlink scenarios: `/t/x.ts = "X"`. -/
def addT : Res (Option Nat) := fsAddFile 8 st0 fs0 (str "/t/x.ts") (some (.inl (str "X")))

def stT : State := addT.stateD

/-- The target directory `/t`. -/
def dirTRes : Res (Option Nat) := traversePath 8 stT fs0 (str "/t")

def dirT : Nat := idOf dirTRes

/-- The file `/t/x.ts`. -/
def fileT : Nat := idOf (traversePath 8 dirTRes.stateD fs0 (str "/t/x.ts"))

/-- The top-level directory named `"/"` (the quirky root-component child). -/
def slashRes : Res (Option Nat) := traversePath 8 dirTRes.stateD fs0 (str "/")

def slashDir : Nat := idOf slashRes

/-- Allocate a directory symlink `l` with target `/t` under `"/"`. -/
def linkAlloc : State × Nat := alloc slashRes.stateD
  { name := str "l", parent := slashDir, fileSystem := fs0,
    readOnly := false, data := .dirLink none (str "/t") }

def linkL : Nat := linkAlloc.2

def stL : State := (pushEntry linkAlloc.1 slashDir linkL).stateD

/-- Also a directory symlink `k` whose target path `/t/x.ts` names a file. -/
def linkKAlloc : State × Nat := alloc stL
  { name := str "k", parent := slashDir, fileSystem := fs0,
    readOnly := false, data := .dirLink none (str "/t/x.ts") }

def linkK : Nat := linkKAlloc.2

def stK : State := (pushEntry linkKAlloc.1 slashDir linkK).stateD

/-- And a self-referential directory symlink `c` with target `/c`. -/
def linkCAlloc : State × Nat := alloc stK
  { name := str "c", parent := slashDir, fileSystem := fs0,
    readOnly := false, data := .dirLink none (str "/c") }

def linkC : Nat := linkCAlloc.2

def stC : State := (pushEntry linkCAlloc.1 slashDir linkC).stateD

end Scn

namespace VPath

/-- A "clean" path component: nonempty, not `.` or `..`, slash-free.
Components of this shape are fixed points of `getNormalizedParts`. -/
def goodPart (x : Str) : Bool :=
  !x.isEmpty && x ≠ str "." && x ≠ str ".." && !x.contains '/'

/-- A root segment as matched by the lazy `.*?\/` fragment: slash-free and
free of line terminators. -/
def segOK (x : Str) : Bool :=
  x.all (fun c => !(c = '/') && !isLineTerm c)

/-- Shape of the output of the normalization loop: a run of `..` components
followed by clean components. -/
def ddShape (l : List Str) : Prop :=
  ∃ k clean, l = List.replicate k (str "..") ++ clean ∧ ∀ x ∈ clean, goodPart x = true

/-- Normal-form suffix after the recognized root: empty, or a nonempty shaped
component list joined with slashes, with an optional trailing slash. -/
def suffixNF (s : Str) : Prop :=
  s = [] ∨ ∃ ps T, ddShape ps ∧ ps ≠ [] ∧ (T = [] ∨ T = ['/']) ∧ s = joinSlash ps ++ T

end VPath

namespace VFS

open VPath

/-- Symlink-free heaps. -/
def LinkFree (st : State) : Prop :=
  ∀ n ∈ st.heap, nodeIsLink n = false

instance : DecidablePred LinkFree := fun st =>
  List.decidableBAll _ st.heap

/-- A directory node whose child list has been materialized (files, links
and filesystem roots count as materialized). -/
def nodeMaterialized (n : Node) : Bool :=
  match n.data with
  | .dir none _ _ => false
  | _ => true

/-- Every directory of the heap is materialized, so listings and lookups
never mutate the state. -/
def Materialized (st : State) : Prop :=
  ∀ n ∈ st.heap, nodeMaterialized n = true

instance : DecidablePred Materialized := fun st =>
  List.decidableBAll _ st.heap

/-- No entry of the heap is frozen. -/
def NotReadOnly (st : State) : Prop :=
  ∀ n ∈ st.heap, n.readOnly = false

instance : DecidablePred NotReadOnly := fun st =>
  List.decidableBAll _ st.heap

/-- Well-ordered heap at one id: children of a container have strictly
larger ids, all in range; likewise a filesystem's root.  Every state built
through the public operations has this shape, since children are always
allocated after (hence above) their container. -/
def heapOrderedAt (st : State) (i : Nat) : Bool :=
  match st.heap[i]? with
  | some n =>
    match n.data with
    | .dir (some l) _ _ => l.all (fun c => decide (i < c) && decide (c < st.heap.length))
    | .dirLink (some l) _ => l.all (fun c => decide (i < c) && decide (c < st.heap.length))
    | .fsRoot _ _ (some r) => decide (i < r) && decide (r < st.heap.length)
    | _ => true
  | none => true

/-- Well-ordered heap: see `heapOrderedAt`. -/
def HeapOrdered (st : State) : Prop :=
  ∀ i < st.heap.length, heapOrderedAt st i = true

instance : DecidablePred HeapOrdered := fun _ =>
  Nat.decidableBallLT _ _

/-- The value-level view of a (symlink-free) filesystem tree: the
observable outcome of listings and content reads. -/
inductive VTree where
  | dir (name : Str) (children : List VTree)
  | file (name : Str) (content : Option Str)

/-- Replace the root name of a semantic tree (a shadow clone keeps its own
name while proxying the original's structure). -/
def VTree.withName : VTree → Str → VTree
  | .dir _ cs, nm => .dir nm cs
  | .file _ c, nm => .file nm c

/-- The semantic tree denoted by a node: materialized children as they
are, an unmaterialized shadow clone proxies its original (under its own
name), an unmaterialized source-free container denotes the empty
directory.  Resolver-backed and symlink nodes are outside this view
(`none`), as is fuel exhaustion. -/
def treeOf : Nat → State → Nat → Option VTree
  | 0, _, _ => none
  | fuel + 1, st, i =>
    match st.heap[i]? with
    | some n =>
      match n.data with
      | .dir (some l) _ _ => (l.mapM (treeOf fuel st)).map (.dir n.name)
      | .dir none (some _) _ => none
      | .dir none none (some s) => (treeOf fuel st s).map (fun t => t.withName n.name)
      | .dir none none none => some (.dir n.name [])
      | .file (some c) _ _ => some (.file n.name (some c))
      | .file none (some _) _ => none
      | .file none none (some s) => (treeOf fuel st s).map (fun t => t.withName n.name)
      | .file none none none => some (.file n.name none)
      | .dirLink _ _ => none
      | .fileLink _ => none
      | .fsRoot _ _ _ => none
    | none => none

/-- The semantic tree of a whole filesystem (its root`s tree; a filesystem
whose root is not yet created denotes the empty root directory). -/
def fsTreeOf (fuel : Nat) (st : State) (fs : Nat) : Option VTree :=
  match st.heap[fs]? with
  | some n =>
    match n.data with
    | .fsRoot _ _ (some r) => treeOf fuel st r
    | .fsRoot _ _ none => some (.dir [] [])
    | _ => none
  | none => none

/-- Original-side node check for the clone separation invariant: fully
materialized, source-free, symlink-free, all outgoing ids below `L`. -/
def origNodeOK (L : Nat) (n : Node) : Bool :=
  match n.data with
  | .fsRoot _ _ r => r.all (fun rr => decide (rr < L))
  | .dir es rv sh =>
    (match es with
     | some l => rv.isNone && sh.isNone && l.all (fun c => decide (c < L))
     | none => false)
  | .file _ rv sh => rv.isNone && sh.isNone
  | .dirLink _ _ => false
  | .fileLink _ => false

/-- Clone-side node check: no resolver, no symlinks, children (and the
root pointer) on the clone side, shadows pointing into the original side. -/
def cloneNodeOK (L : Nat) (n : Node) : Bool :=
  match n.data with
  | .fsRoot _ _ r => r.all (fun rr => decide (L ≤ rr))
  | .dir es rv sh =>
    rv.isNone &&
    (match es, sh with
     | some l, none => l.all (fun c => decide (L ≤ c))
     | none, some s => decide (s < L)
     | none, none => true
     | some _, some _ => false)
  | .file _ rv sh => rv.isNone && (sh.all (fun ss => decide (ss < L)))
  | .dirLink _ _ => false
  | .fileLink _ => false

/-- The separation invariant after `clone()`: ids below `L` form the
fully materialized original, ids at or above `L` form the clone side,
whose shadows point into the original and whose child lists stay on the
clone side. -/
def sepAt (st : State) (L : Nat) (i : Nat) : Bool :=
  match st.heap[i]? with
  | some n => if i < L then origNodeOK L n else cloneNodeOK L n
  | none => true

/-- See `sepAt`. -/
def Sep (st : State) (L : Nat) : Prop :=
  L ≤ st.heap.length ∧ ∀ i < st.heap.length, sepAt st L i = true

instance : Decidable (Sep st L) :=
  And.decidable

end VFS

namespace VFS

open VPath

/-- `VirtualFileSystemEntry.path` (lines 48-53): the entry's own name when
its parent is the `VirtualFileSystem` itself, otherwise the parent's path
combined with the name. -/
def pathOf : Nat → State → Nat → Option Str
  | 0, _, _ => none
  | fuel + 1, st, i =>
    match st.heap[i]? with
    | some n =>
      match st.heap[n.parent]? with
      | some np =>
        match np.data with
        | .fsRoot _ _ _ => some n.name
        | _ => (pathOf fuel st n.parent).map (fun pp => combine pp [n.name])
      | none => none
    | none => none

/-- `entry instanceof VirtualFileSymlink`. -/
def isFileLinkNode (st : State) (e : Nat) : Bool :=
  match st.heap[e]? with
  | some n =>
    match n.data with
    | .fileLink _ => true
    | _ => false
  | none => false

/-- `entry instanceof VirtualDirectorySymlink`. -/
def isDirLinkNode (st : State) (e : Nat) : Bool :=
  match st.heap[e]? with
  | some n =>
    match n.data with
    | .dirLink _ _ => true
    | _ => false
  | none => false

/-- The result filter closing `addSymlink` (lines 406-414): with a
`VirtualFile` target keep the entry only when it is a file symlink, with a
`VirtualDirectory` target only when it is a directory symlink, otherwise
any symlink. -/
def symlinkFilter (st : State) (target e : Nat) : Option Nat :=
  if isFileInstance st target then
    if isFileLinkNode st e then some e else none
  else if isDirInstance st target then
    if isDirLinkNode st e then some e else none
  else if isFileLinkNode st e || isDirLinkNode st e then some e else none

/-- `VirtualDirectory.addSymlink(name, target)` (lines 378-415), with the
target given as an entry (the non-string overloads, where `targetEntry` is
the argument itself): `writePreamble` on the receiver, find-or-create in
the receiver's OWN entry list — a fresh symlink node carrying the target
entry's full path — then the overload filter.  `VirtualDirectorySymlink`
does not override it, so invoked on a directory symlink it checks the
symlink's own frozen flag and pushes into the symlink's own entries
instead of delegating to the resolved target. -/
def dirAddSymlinkEntry (fuel : Nat) (st : State) (d : Nat) (name : Str)
    (target : Nat) : Res (Option Nat) :=
  match st.heap[d]? with
  | some n =>
    if n.readOnly then .frozen
    else
      match lookupEntry fuel st d name with
      | .ok st1 (some e) => .ok st1 (symlinkFilter st1 target e)
      | .ok st1 none =>
        if isFileInstance st1 target then
          match pathOf fuel st1 target with
          | some tp =>
            let (st2, c) := alloc st1 { name := name, parent := d, fileSystem := n.fileSystem, readOnly := false, data := .fileLink tp }
            match pushEntry st2 d c with
            | .ok st3 _ => .ok st3 (symlinkFilter st3 target c)
            | .frozen => .frozen
            | .stuck => .stuck
            | .outOfFuel => .outOfFuel
          | none => .outOfFuel
        else if isDirInstance st1 target then
          match pathOf fuel st1 target with
          | some tp =>
            let (st2, c) := alloc st1 { name := name, parent := d, fileSystem := n.fileSystem, readOnly := false, data := .dirLink none tp }
            match pushEntry st2 d c with
            | .ok st3 _ => .ok st3 (symlinkFilter st3 target c)
            | .frozen => .frozen
            | .stuck => .stuck
            | .outOfFuel => .outOfFuel
          | none => .outOfFuel
        else .ok st1 none
      | .frozen => .frozen
      | .stuck => .stuck
      | .outOfFuel => .outOfFuel
  | none => .stuck

end VFS

namespace Scn

open VPath VFS

/-- `addSymlink("s", <the file /t/x.ts>)` invoked on the directory symlink
`l` itself (as `fs.addSymlink` does when the penultimate component of the
given path names a directory symlink). -/
def addSymRes : Res (Option Nat) := dirAddSymlinkEntry 8 stL linkL (str "s") fileT

def stS : State := addSymRes.stateD

def symS : Nat := idOf addSymRes

/-- `stL` with the symlink `l` itself frozen (only its own `readOnly` flag
set); its target `/t` stays mutable. -/
def stLfr : State := setNode stL linkL
  { name := str "l", parent := slashDir, fileSystem := fs0,
    readOnly := true, data := .dirLink none (str "/t") }

end Scn

namespace VFS

open VPath

/-- `isFileInstance` and `isDirInstance` are mutually exclusive. -/
theorem not_dir_of_file {st : State} {i : Nat} (h : isFileInstance st i = true) :
    isDirInstance st i = false := by
  unfold isFileInstance at h
  unfold isDirInstance
  cases hn : st.heap[i]? with
  | none => rfl
  | some n =>
    rw [hn] at h
    cases hd : n.data <;> simp only [hd] at h ⊢ <;> simp_all

/-- Walking a component list that was consumed entirely through
directory-kind entries composes with walking the remainder. -/
theorem traverseFold_append (fuel : Nat) (cs1 : List Str) :
    ∀ st d cs2 st1 d1, traverseFold fuel st d cs1 = .ok st1 (some d1) →
      isDirInstance st1 d1 = true →
      traverseFold fuel st d (cs1 ++ cs2) = traverseFold fuel st1 d1 cs2 := by
  induction cs1 with
  | nil =>
    intro st d cs2 st1 d1 h _
    cases h
    rfl
  | cons c cs ih =>
    intro st d cs2 st1 d1 h hdir
    rw [List.cons_append]
    simp only [traverseFold] at h ⊢
    cases hl : lookupEntry fuel st d c with
    | ok stx e? =>
      rw [hl] at h
      cases e? with
      | some e =>
        simp only at h ⊢
        cases hd : isDirInstance stx e with
        | true =>
          rw [hd] at h
          simp only [if_true] at h ⊢
          exact ih stx e cs2 st1 d1 h hdir
        | false =>
          rw [hd] at h
          simp only [Bool.false_eq_true, if_false] at h ⊢
          cases hf : isFileInstance stx e with
          | true =>
            rw [hf] at h
            simp only [if_true] at h
            cases h
            simp_all
          | false =>
            rw [hf] at h
            simp only [Bool.false_eq_true, if_false] at h
            cases h
      | none =>
        simp only at h
        cases h
    | frozen => rw [hl] at h; simp at h
    | stuck => rw [hl] at h; simp at h
    | outOfFuel => rw [hl] at h; simp at h

end VFS

namespace Thm

open VPath VFS Scn

/-- C3: the claim states `relative("/a/b", "/a/c/d", false)` returns
`"../c/d"`.  The code instead throws `Error("Path not absolute: from")`,
because `isAbsolute` tests `getRootLength(...) === 0` (so it reports
absolute paths as not absolute); and even past that guard, `format` would
concatenate the leading `".."` component without a separator, producing
`"..c/d"`. -/
theorem c3_relative_throws_on_absolute_inputs :
    relative (str "/a/b") (str "/a/c/d") false = .error "Path not absolute: from"
      ∧ format [str "..", str "c", str "d"] = str "..c/d" :=
  ⟨rfl, rfl⟩

/-- C5: the claim states `relative` raises exactly when an input is not
absolute.  The code has this inverted: both inputs absolute ⇒ it throws
"Path not absolute: from"; both inputs relative ⇒ it proceeds and returns
a value. -/
theorem c5_relative_guard_inverted :
    relative (str "/a/b") (str "/a/c/d") false = .error "Path not absolute: from"
      ∧ relative (str "a") (str "b") false = .ok (str "..b") :=
  ⟨rfl, rfl⟩

/-- C6: the claim states `isAbsolute(p)` is true iff the root prefix has
nonzero length.  The code returns `getRootLength(...) === 0`, so `"/"`
(root length 1) is reported non-absolute and `"a"` (root length 0) is
reported absolute. -/
theorem c6_isAbsolute_tests_equality_with_zero :
    getRootLength (normalizeSlashes (str "/")) = 1
      ∧ isAbsolute (str "/") = false
      ∧ getRootLength (normalizeSlashes (str "a")) = 0
      ∧ isAbsolute (str "a") = true := by
  refine ⟨rfl, rfl, rfl, rfl⟩

/-- C1: the claim states that freezing an entry makes every mutating
operation on it and on every descendant that existed at freeze time fail.
In the code `makeReadOnly` only sets the entry's own flag (it never calls
`makeReadOnlyCore`, which exists in every subclass precisely to recurse),
so after freezing the filesystem that already holds the materialized
directory `/a`: a mutator on the filesystem itself fails with the frozen
error, but the directory's own flag is still false and adding a file
directly to it succeeds; read-only operations do still return the
pre-freeze value. -/
theorem c1_freeze_does_not_reach_existing_descendants :
    (fsAddFile 8 stFrozen fs0 (str "/c.ts") (some (.inl (str "Z")))).isFrozenErr = true
      ∧ readOnlyOf stFrozen dirA = some false
      ∧ ((dirAddFile 8 stFrozen dirA (str "g.ts") (some (.inl (str "Z")))).val?).isSome = true
      ∧ (fileContent 8 stFrozen (idOf fileARes)).val? = some (some (str "X")) := by
  refine ⟨by decide, by decide, by decide, by decide⟩

/-- C2 counterexample: the claim states a mutation performed on the
original never changes what is observable on the clone.  With `/a/b.ts`
containing "X": right after `clone()` the clone's file reads "X", but if
the original's content is set to "Y" before the clone's file is first
read, the clone's file reads "Y" — the copy-on-write shadow proxies the
original's current state until materialization. -/
theorem c2_counterexample_shadow_sees_later_mutation :
    (fileContent 8 cloneReadRes.stateD (idOf cloneReadRes)).val? = some (some (str "X"))
      ∧ (fileContent 8 cloneReadMutRes.stateD (idOf cloneReadMutRes)).val? = some (some (str "Y")) := by
  refine ⟨by decide, by decide⟩

/-- C8 counterexample: the claim quantifies over every path where
`addFile(p, "X")` succeeds.  For `p = "/q/"` the basename is empty, so
`addFile` succeeds — it creates and returns a file named `""` inside
`/q` — yet `traversePath("/q/")` parses to components `["/", "q"]` and
returns the directory `/q`, not that file. -/
theorem c8_counterexample_trailing_slash :
    (addQ.val?).isSome = true
      ∧ isFileInstance stQ (idOf addQ) = true
      ∧ isDirInstance stQ (idOf (traversePath 8 stQ fs0 (str "/q/"))) = true
      ∧ idOf (traversePath 8 stQ fs0 (str "/q/")) ≠ idOf addQ := by
  refine ⟨by decide, by decide, by decide, by decide⟩

/-- C4 counterexample: the claim states every listing and every mutation
operation on a symlink delegates to the resolved target.
`VirtualDirectorySymlink` does not override `getFileSystemEntries`, so
listing the symlink `l` (target `/t`, which contains `x.ts`) yields the
symlink's own empty entry list while the target's listing is nonempty; and
it does not override `addSymlink` either, so `addSymlink("s", /t/x.ts)`
invoked on `l` pushes the fresh symlink into `l`'s OWN entry list — the
new node's parent is `l`, a lookup of `"s"` on `l` finds it while the same
lookup on the target `/t` finds nothing — and with `l` itself frozen the
call fails with the frozen error although the target stays mutable. -/
theorem c4_counterexample_listing_and_addSymlink_not_delegated :
    ((getFileSystemEntries 8 stL linkL).val? = some []
      ∧ (getFileSystemEntries 8 stL dirT).val? = some [fileT]
      ∧ (isBrokenDirLink 8 stL linkL).val? = some false)
    ∧ (addSymRes.val? = some (some symS)
      ∧ (stS.heap[symS]?).map Node.parent = some linkL
      ∧ isLinkInstance stS symS = true
      ∧ targetOf stS symS = str "/t/x.ts"
      ∧ (lookupEntry 8 stS linkL (str "s")).val? = some (some symS)
      ∧ (lookupEntry 8 stS dirT (str "s")).val? = some none)
    ∧ ((dirAddSymlinkEntry 8 stLfr linkL (str "s") fileT).isFrozenErr = true
      ∧ readOnlyOf stLfr dirT = some false) := by
  exact ⟨⟨by decide, by decide, by decide⟩,
    ⟨by decide, by decide, by decide, by decide, by decide, by decide⟩,
    ⟨by decide, by decide⟩⟩

/-- C7 counterexample: the claim states `isBroken` is true exactly when
resolution yields no entry.  For the directory symlink `k` whose target
path `/t/x.ts` names a file, `findTarget` yields that file entry, yet
`isBroken` is true because the entry is not a directory. -/
theorem c7_counterexample_isBroken_despite_entry :
    (findTarget 8 stK fs0 (str "/t/x.ts") []).val? = some (some fileT)
      ∧ (isBrokenDirLink 8 stK linkK).val? = some true := by
  refine ⟨by decide, by decide⟩

end Thm

namespace Thm

open VPath VFS Scn

/-- C10: if the components of a path, walked from the root, reach a
file-kind entry at a non-final component, `traversePath` returns that file
entry immediately, ignoring the remaining components, rather than
returning no entry. -/
theorem c10_traversePath_returns_file_at_nonfinal_component
    (fuel : Nat) (st stR st1 st2 : State) (fs r d f : Nat)
    (p cwd : Str) (cse : Bool) (ro : Option Nat) (n : Node)
    (cs1 cs2 : List Str) (c : Str)
    (hfs : st.heap[fs]? = some n) (hdata : n.data = .fsRoot cwd cse ro)
    (hroot : getRoot st fs = .ok stR r)
    (hparse : parse (resolve cwd [p]) = cs1 ++ c :: cs2)
    (hwalk : traverseFold fuel stR r cs1 = .ok st1 (some d))
    (hdir : isDirInstance st1 d = true)
    (hlook : lookupEntry fuel st1 d c = .ok st2 (some f))
    (hfile : isFileInstance st2 f = true)
    (hnonfinal : cs2 ≠ []) :
    traversePath fuel st fs p = .ok st2 (some f) := by
  unfold traversePath
  rw [hfs]
  simp only
  rw [hdata]
  simp only
  rw [hroot]
  simp only
  rw [hparse]
  rw [traverseFold_append fuel cs1 stR r (c :: cs2) st1 d hwalk hdir]
  simp only [traverseFold]
  rw [hlook]
  simp only
  rw [not_dir_of_file hfile]
  simp only [Bool.false_eq_true, if_false]
  rw [hfile]
  simp only [if_true]

/-- Witness for C10 at the concrete filesystem holding `/a/b.ts`:
`traversePath("/a/b.ts/zzz/w")` returns the file `/a/b.ts`. -/
theorem c10_witness :
    traversePath 8 stA fs0 (str "/a/b.ts/zzz/w") = .ok stA (some 4) :=
  c10_traversePath_returns_file_at_nonfinal_component
    8 stA stA stA stA fs0 1 3 4 (str "/a/b.ts/zzz/w") [] true (some 1)
    ⟨[], 0, 0, false, .fsRoot [] true (some 1)⟩
    [str "/", str "a"] [str "zzz", str "w"] (str "b.ts")
    rfl rfl rfl (by decide) rfl (by decide) rfl (by decide) (by decide)

end Thm

namespace Thm

open VPath VFS Scn

/-- C4 (amended): exactly the operations the symlink classes override —
`addDirectory`, `addFile`, `removeDirectory`, `removeFile` on a directory
symlink, and the content getter and setter on a file symlink — delegate
to the entry obtained by resolving the symlink's target path: they behave
as the operation applied to the resolved target when it resolves, and as
a no-op returning an empty result (no entry / false / nothing), never an
error of its own, when it does not.  *Listing* a directory symlink does
not delegate (it returns the symlink's own, empty, entry list), and
neither does the inherited `addSymlink`, which checks the symlink's own
frozen flag and pushes into the symlink's own entry list; see the
counterexample for both. -/
theorem c4_symlink_content_and_mutation_delegate :
    (∀ fuel st s nm rs n es t, st.heap[s]? = some n → n.data = .dirLink es t →
      dirAddDirectory fuel st s nm rs =
        (match targetDirectory fuel st s with
          | .ok st1 (some td) => dirAddDirectoryPlain fuel st1 td nm rs
          | .ok st1 none => .ok st1 none
          | .frozen => .frozen
          | .stuck => .stuck
          | .outOfFuel => .outOfFuel))
    ∧ (∀ fuel st s nm c n es t, st.heap[s]? = some n → n.data = .dirLink es t →
      dirAddFile fuel st s nm c =
        (match targetDirectory fuel st s with
          | .ok st1 (some td) => dirAddFilePlain fuel st1 td nm c
          | .ok st1 none => .ok st1 none
          | .frozen => .frozen
          | .stuck => .stuck
          | .outOfFuel => .outOfFuel))
    ∧ (∀ fuel st s nm n es t, st.heap[s]? = some n → n.data = .dirLink es t →
      dirRemoveDirectory fuel st s nm =
        (match targetDirectory fuel st s with
          | .ok st1 (some td) => dirRemoveDirectoryPlain fuel st1 td nm
          | .ok st1 none => .ok st1 false
          | .frozen => .frozen
          | .stuck => .stuck
          | .outOfFuel => .outOfFuel))
    ∧ (∀ fuel st s nm n es t, st.heap[s]? = some n → n.data = .dirLink es t →
      dirRemoveFile fuel st s nm =
        (match targetDirectory fuel st s with
          | .ok st1 (some td) => dirRemoveFilePlain fuel st1 td nm
          | .ok st1 none => .ok st1 false
          | .frozen => .frozen
          | .stuck => .stuck
          | .outOfFuel => .outOfFuel))
    ∧ (∀ fuel st s n t, st.heap[s]? = some n → n.data = .fileLink t →
      fileContent fuel st s =
        (match targetFile fuel st s with
          | .ok st1 (some tf) => fileContentPlain fuel st1 tf
          | .ok st1 none => .ok st1 none
          | .frozen => .frozen
          | .stuck => .stuck
          | .outOfFuel => .outOfFuel))
    ∧ (∀ fuel st s v n t, st.heap[s]? = some n → n.data = .fileLink t →
      setFileContent fuel st s v =
        (match targetFile fuel st s with
          | .ok st1 (some tf) => setFileContentPlain st1 tf v
          | .ok st1 none => .ok st1 ()
          | .frozen => .frozen
          | .stuck => .stuck
          | .outOfFuel => .outOfFuel)) := by
  refine ⟨?_, ?_, ?_, ?_, ?_, ?_⟩
  · intro fuel st s nm rs n es t h1 h2
    unfold dirAddDirectory
    rw [h1]
    simp only
    rw [h2]
  · intro fuel st s nm c n es t h1 h2
    unfold dirAddFile
    rw [h1]
    simp only
    rw [h2]
  · intro fuel st s nm n es t h1 h2
    unfold dirRemoveDirectory
    rw [h1]
    simp only
    rw [h2]
  · intro fuel st s nm n es t h1 h2
    unfold dirRemoveFile
    rw [h1]
    simp only
    rw [h2]
  · intro fuel st s n t h1 h2
    unfold fileContent
    rw [h1]
    simp only
    rw [h2]
  · intro fuel st s v n t h1 h2
    unfold setFileContent
    rw [h1]
    simp only
    rw [h2]

/-- Witness for the amended C4 at the concrete symlink `l` (target `/t`):
adding a file through the symlink equals adding it at the resolved target. -/
theorem c4_witness :
    dirAddFile 8 stL linkL (str "y.ts") (some (.inl (str "Z"))) =
      (match targetDirectory 8 stL linkL with
        | .ok st1 (some td) => dirAddFilePlain 8 st1 td (str "y.ts") (some (.inl (str "Z")))
        | .ok st1 none => .ok st1 none
        | .frozen => .frozen
        | .stuck => .stuck
        | .outOfFuel => .outOfFuel) :=
  c4_symlink_content_and_mutation_delegate.2.1 8 stL linkL (str "y.ts")
    (some (.inl (str "Z")))
    ⟨str "l", slashDir, fs0, false, .dirLink none (str "/t")⟩
    none (str "/t") rfl rfl

end Thm

namespace VFS

open VPath

theorem mem_of_getElem? {l : List Node} {i : Nat} {n : Node} (h : l[i]? = some n) :
    n ∈ l := by
  obtain ⟨hlt, he⟩ := List.getElem?_eq_some.mp h
  exact he ▸ List.getElem_mem hlt

theorem getElem_setNode_ne (st : State) (i j : Nat) (n : Node) (h : i ≠ j) :
    (setNode st i n).heap[j]? = st.heap[j]? :=
  List.getElem?_set_ne h

theorem length_setNode (st : State) (i : Nat) (n : Node) :
    (setNode st i n).heap.length = st.heap.length :=
  List.length_set st.heap i n

theorem getElem_alloc (st : State) (n : Node) (i : Nat) :
    (alloc st n).1.heap[i]? =
      if i < st.heap.length then st.heap[i]?
      else if i = st.heap.length then some n else none := by
  show (st.heap ++ [n])[i]? = _
  rw [List.getElem?_append]
  rcases Nat.lt_trichotomy i st.heap.length with h | h | h
  · simp [h]
  · simp [h]
  · rcases Nat.exists_eq_add_of_lt h with ⟨k, hk⟩
    have hn1 : ¬ i < st.heap.length := by omega
    have hn2 : ¬ i = st.heap.length := by omega
    have h2 : i - st.heap.length = k + 1 := by omega
    rw [if_neg hn1, if_neg hn1, if_neg hn2, h2]
    simp

theorem isLinkInstance_eq_node (st : State) (i : Nat) :
    isLinkInstance st i = (match st.heap[i]? with
      | some n => nodeIsLink n
      | none => false) := by
  unfold isLinkInstance nodeIsLink
  cases st.heap[i]? with
  | none => rfl
  | some n => cases n.data <;> rfl

theorem targetOf_eq_node (st : State) (i : Nat) :
    targetOf st i = (match st.heap[i]? with
      | some n => nodeTarget n
      | none => []) := by
  unfold targetOf nodeTarget
  cases st.heap[i]? with
  | none => rfl
  | some n => cases n.data <;> rfl

/-- Replacing a node by one with the same link status and target preserves
all links. -/
theorem linksPreserved_setNode {st : State} {i : Nat} {m n : Node}
    (hm : st.heap[i]? = some m)
    (hl : nodeIsLink n = nodeIsLink m) (ht : nodeTarget n = nodeTarget m) :
    LinksPreserved st (setNode st i n) := by
  intro j
  rw [isLinkInstance_eq_node, isLinkInstance_eq_node, targetOf_eq_node, targetOf_eq_node]
  by_cases hji : i = j
  · subst hji
    have hlt : i < st.heap.length := (List.getElem?_eq_some.mp hm).1
    have : (setNode st i n).heap[i]? = some n := List.getElem?_set_self hlt
    rw [this, hm]
    exact ⟨hl, ht⟩
  · rw [getElem_setNode_ne st i j n hji]
    exact ⟨rfl, rfl⟩

/-- Allocating a non-link node preserves all links. -/
theorem linksPreserved_alloc {st : State} {n : Node} (hn : nodeIsLink n = false) :
    LinksPreserved st (alloc st n).1 := by
  intro j
  rw [isLinkInstance_eq_node, isLinkInstance_eq_node, targetOf_eq_node, targetOf_eq_node]
  rw [getElem_alloc]
  rcases Nat.lt_trichotomy j st.heap.length with h | h | h
  · rw [if_pos h]
    exact ⟨rfl, rfl⟩
  · have hn1 : ¬ j < st.heap.length := by omega
    rw [if_neg hn1, if_pos h]
    have hnone : st.heap[j]? = none := List.getElem?_eq_none (by omega)
    rw [hnone]
    cases hd : n.data <;> simp [nodeIsLink, nodeTarget, hd] at hn ⊢
  · have hn1 : ¬ j < st.heap.length := by omega
    have hn2 : ¬ j = st.heap.length := by omega
    rw [if_neg hn1, if_neg hn2]
    have hnone : st.heap[j]? = none := List.getElem?_eq_none (by omega)
    rw [hnone]
    exact ⟨rfl, rfl⟩

theorem linksPreserved_refl (st : State) : LinksPreserved st st :=
  fun _ => ⟨rfl, rfl⟩

theorem linksPreserved_trans {st1 st2 st3 : State}
    (h1 : LinksPreserved st1 st2) (h2 : LinksPreserved st2 st3) :
    LinksPreserved st1 st3 :=
  fun i => ⟨(h2 i).1.trans (h1 i).1, (h2 i).2.trans (h1 i).2⟩

end VFS

namespace VFS

open VPath

theorem isLinkInstance_false_of_ge (st : State) (i : Nat) (h : st.heap.length ≤ i) :
    isLinkInstance st i = false := by
  rw [isLinkInstance_eq_node, List.getElem?_eq_none h]

theorem filter_range_stable (p : Nat → Bool) (n m : Nat) (hnm : n ≤ m)
    (hp : ∀ i, n ≤ i → p i = false) :
    ((List.range m).filter p).length = ((List.range n).filter p).length := by
  induction m with
  | zero =>
    have : n = 0 := Nat.le_zero.mp hnm
    rw [this]
  | succ m ih =>
    rcases Nat.lt_or_ge m n with h | h
    · have : n = m + 1 := by omega
      rw [this]
    · rw [List.range_succ, List.filter_append]
      have : p m = false := hp m h
      simp [this, ih h]

theorem linkMeasure_eq_of_linksPreserved {st st' : State}
    (h : LinksPreserved st st') (visited : List Nat) :
    linkMeasure st' visited = linkMeasure st visited := by
  unfold linkMeasure
  have hpred : (fun i => isLinkInstance st' i && !visited.contains i) =
      (fun i => isLinkInstance st i && !visited.contains i) := by
    funext i
    rw [(h i).1]
  rw [hpred]
  rcases Nat.le_total st.heap.length st'.heap.length with hle | hle
  · exact filter_range_stable _ _ _ hle
      (fun i hi => by rw [isLinkInstance_false_of_ge st i hi, Bool.false_and])
  · exact (filter_range_stable _ _ _ hle
      (fun i hi => by
        rw [← (h i).1, isLinkInstance_false_of_ge st' i hi, Bool.false_and])).symm

theorem filter_length_cons_vis (p : Nat → Bool) (e : Nat) (vis : List Nat)
    (hp : p e = true) (hnot : e ∉ vis) :
    ∀ l : List Nat, e ∈ l → l.Nodup →
      (l.filter (fun i => p i && !((e :: vis).contains i))).length + 1 =
        (l.filter (fun i => p i && !vis.contains i)).length := by
  intro l
  induction l with
  | nil => intro h; cases h
  | cons a rest ih =>
    intro hmem hnd
    rw [List.filter_cons, List.filter_cons]
    by_cases hae : a = e
    · subst hae
      have h1 : (p a && !((a :: vis).contains a)) = false := by
        simp [List.contains_cons]
      have h2 : (p a && !vis.contains a) = true := by
        simp only [hp, Bool.true_and, Bool.not_eq_true']
        simpa using hnot
      rw [h1, h2]
      simp only [if_false, if_true, Bool.false_eq_true, List.length_cons]
      have hrest : a ∉ rest := (List.nodup_cons.mp hnd).1
      have : rest.filter (fun i => p i && !((a :: vis).contains i)) =
          rest.filter (fun i => p i && !vis.contains i) := by
        apply List.filter_congr
        intro x hx
        have hxa : x ≠ a := fun hcc => hrest (hcc ▸ hx)
        simp [List.contains_cons, hxa]
      rw [this]
    · have hsame : (p a && !((e :: vis).contains a)) = (p a && !vis.contains a) := by
        simp only [List.contains_cons]
        rw [show (a == e) = false from beq_eq_false_iff_ne.mpr hae]
        simp
      rw [hsame]
      have hmem' : e ∈ rest := by
        cases hmem with
        | head => exact absurd rfl hae
        | tail _ h => exact h
      have hnd' : rest.Nodup := (List.nodup_cons.mp hnd).2
      by_cases hpa : (p a && !vis.contains a) = true
      · rw [hpa]
        simp only [if_true, List.length_cons]
        rw [← ih hmem' hnd']
      · rw [Bool.not_eq_true] at hpa
        rw [hpa]
        simp only [Bool.false_eq_true, if_false]
        exact ih hmem' hnd'

theorem linkMeasure_cons {st : State} {e : Nat} {visited : List Nat}
    (hlink : isLinkInstance st e = true) (hnot : e ∉ visited) :
    linkMeasure st (e :: visited) + 1 = linkMeasure st visited := by
  unfold linkMeasure
  have helt : e < st.heap.length := by
    by_contra hc
    rw [isLinkInstance_false_of_ge st e (by omega)] at hlink
    cases hlink
  exact filter_length_cons_vis (fun i => isLinkInstance st i) e visited hlink hnot
    (List.range st.heap.length) (List.mem_range.mpr helt) (List.nodup_range _)

end VFS

namespace VFS

open VPath

theorem sourceFree_node {st : State} (h : SourceFree st) {d : Nat} {n : Node}
    (hd : st.heap[d]? = some n) : nodeSourceFree n = true :=
  h n (mem_of_getElem? hd)

theorem sourceFree_setNode {st : State} (h : SourceFree st) {i : Nat} {n : Node}
    (hn : nodeSourceFree n = true) : SourceFree (setNode st i n) := by
  intro m hm
  rcases List.mem_or_eq_of_mem_set hm with h1 | h1
  · exact h m h1
  · rwa [h1]

theorem sourceFree_alloc {st : State} (h : SourceFree st) {n : Node}
    (hn : nodeSourceFree n = true) : SourceFree (alloc st n).1 := by
  intro m hm
  rcases List.mem_append.mp hm with h1 | h1
  · exact h m h1
  · rw [List.mem_singleton.mp h1]
    exact hn

/-- On a source-free heap, `materialize` needs no recursion: one unit of
fuel suffices, the result is fuel-independent, and a successful run
preserves source-freeness and every symlink. -/
theorem materialize_sourceFree {st : State} (hsf : SourceFree st) (fuel : Nat)
    (hf : 1 ≤ fuel) (d : Nat) :
    (∀ g, 1 ≤ g → materialize g st d = materialize fuel st d) ∧
    (materialize fuel st d = .stuck ∨
      ∃ st' l, materialize fuel st d = .ok st' l ∧ SourceFree st' ∧
        LinksPreserved st st') := by
  obtain ⟨f, rfl⟩ : ∃ f, fuel = f + 1 := ⟨fuel - 1, by omega⟩
  have step : ∀ g, materialize (g + 1) st d = materialize (f + 1) st d ∧
      (materialize (f + 1) st d = .stuck ∨
        ∃ st' l, materialize (f + 1) st d = .ok st' l ∧ SourceFree st' ∧
          LinksPreserved st st') := by
    intro g
    cases hd : st.heap[d]? with
    | none =>
      constructor
      · simp only [materialize, hd]
      · left
        simp only [materialize, hd]
    | some n =>
      have hnode := sourceFree_node hsf hd
      cases hdata : n.data with
      | dir es rv sh =>
        cases es with
        | some l =>
          constructor
          · simp only [materialize, hd, hdata]
          · right
            refine ⟨st, l, ?_, hsf, linksPreserved_refl st⟩
            simp only [materialize, hd, hdata]
        | none =>
          have hrv : rv = none := by
            unfold nodeSourceFree at hnode
            rw [hdata] at hnode
            simp only [Bool.and_eq_true, Option.isNone_iff_eq_none] at hnode
            exact hnode.1
          have hsh : sh = none := by
            unfold nodeSourceFree at hnode
            rw [hdata] at hnode
            simp only [Bool.and_eq_true, Option.isNone_iff_eq_none] at hnode
            exact hnode.2
          subst hrv hsh
          constructor
          · simp only [materialize, hd, hdata]
          · right
            refine ⟨setNode st d { n with data := .dir (some []) none none }, [], ?_, ?_, ?_⟩
            · simp only [materialize, hd, hdata]
            · exact sourceFree_setNode hsf (by simp [nodeSourceFree])
            · refine linksPreserved_setNode hd ?_ ?_ <;>
                simp [nodeIsLink, nodeTarget, hdata]
      | dirLink es t =>
        cases es with
        | some l =>
          constructor
          · simp only [materialize, hd, hdata]
          · right
            refine ⟨st, l, ?_, hsf, linksPreserved_refl st⟩
            simp only [materialize, hd, hdata]
        | none =>
          constructor
          · simp only [materialize, hd, hdata]
          · right
            refine ⟨setNode st d { n with data := .dirLink (some []) t }, [], ?_, ?_, ?_⟩
            · simp only [materialize, hd, hdata]
            · exact sourceFree_setNode hsf (by simp [nodeSourceFree])
            · refine linksPreserved_setNode hd ?_ ?_ <;>
                simp [nodeIsLink, nodeTarget, hdata]
      | file c rv sh =>
        constructor
        · simp only [materialize, hd, hdata]
        · left
          simp only [materialize, hd, hdata]
      | fileLink t =>
        constructor
        · simp only [materialize, hd, hdata]
        · left
          simp only [materialize, hd, hdata]
      | fsRoot cw cs ro =>
        constructor
        · simp only [materialize, hd, hdata]
        · left
          simp only [materialize, hd, hdata]
  constructor
  · intro g hg
    obtain ⟨g', rfl⟩ : ∃ g', g = g' + 1 := ⟨g - 1, by omega⟩
    exact (step g').1
  · exact (step f).2

end VFS

namespace VFS

open VPath

theorem lookupEntry_sourceFree {st : State} (hsf : SourceFree st) (fuel : Nat)
    (hf : 1 ≤ fuel) (d : Nat) (name : Str) :
    (∀ g, 1 ≤ g → lookupEntry g st d name = lookupEntry fuel st d name) ∧
    (lookupEntry fuel st d name = .stuck ∨
      ∃ st' e?, lookupEntry fuel st d name = .ok st' e? ∧ SourceFree st' ∧
        LinksPreserved st st') := by
  obtain ⟨hindep, hshape⟩ := materialize_sourceFree hsf fuel hf d
  cases hflag : caseFlagOf st d with
  | none =>
    constructor
    · intro g hg
      simp only [lookupEntry, hflag]
    · left
      simp only [lookupEntry, hflag]
  | some flag =>
    constructor
    · intro g hg
      simp only [lookupEntry, hflag, hindep g hg]
    · rcases hshape with hstuck | ⟨st', l, hok, hsf', hlp⟩
      · left
        simp only [lookupEntry, hflag, hstuck]
      · right
        refine ⟨st', l.find? (fun e =>
          match st'.heap[e]? with
          | some ne => sameNameW flag ne.name name
          | none => false), ?_, hsf', hlp⟩
        simp only [lookupEntry, hflag, hok]

theorem traverseFold_sourceFree (fuel : Nat) (hf : 1 ≤ fuel) (cs : List Str) :
    ∀ st d, SourceFree st →
      (∀ g, 1 ≤ g → traverseFold g st d cs = traverseFold fuel st d cs) ∧
      (traverseFold fuel st d cs = .stuck ∨
        ∃ st' e?, traverseFold fuel st d cs = .ok st' e? ∧ SourceFree st' ∧
          LinksPreserved st st') := by
  induction cs with
  | nil =>
    intro st d hsf
    constructor
    · intro g hg
      rfl
    · right
      exact ⟨st, some d, rfl, hsf, linksPreserved_refl st⟩
  | cons c cs ih =>
    intro st d hsf
    obtain ⟨hindep, hshape⟩ := lookupEntry_sourceFree hsf fuel hf d c
    constructor
    · intro g hg
      simp only [traverseFold, hindep g hg]
      rcases hshape with hstuck | ⟨st', e?, hok, hsf', hlp⟩
      · rw [hstuck]
      · rw [hok]
        cases e? with
        | some e =>
          simp only
          cases hde : isDirInstance st' e with
          | true => simp only [if_true, (ih st' e hsf').1 g hg]
          | false => simp only [Bool.false_eq_true, if_false]
        | none => simp only
    · rcases hshape with hstuck | ⟨st', e?, hok, hsf', hlp⟩
      · left
        simp only [traverseFold, hstuck]
      · cases e? with
        | some e =>
          cases hde : isDirInstance st' e with
          | true =>
            obtain ⟨_, hshape2⟩ := ih st' e hsf'
            rcases hshape2 with hstuck2 | ⟨st2, e2, hok2, hsf2, hlp2⟩
            · left
              simp only [traverseFold, hok, hde, if_true, hstuck2]
            · right
              refine ⟨st2, e2, ?_, hsf2, linksPreserved_trans hlp hlp2⟩
              simp only [traverseFold, hok, hde, if_true, hok2]
          | false =>
            right
            cases hfe : isFileInstance st' e with
            | true =>
              refine ⟨st', some e, ?_, hsf', hlp⟩
              simp only [traverseFold, hok, hde, Bool.false_eq_true, if_false, hfe, if_true]
            | false =>
              refine ⟨st', none, ?_, hsf', hlp⟩
              simp only [traverseFold, hok, hde, hfe, Bool.false_eq_true, if_false]
        | none =>
          right
          refine ⟨st', none, ?_, hsf', hlp⟩
          simp only [traverseFold, hok]

theorem getRoot_sourceFree {st : State} (hsf : SourceFree st) (fs : Nat) :
    getRoot st fs = .stuck ∨
      ∃ st' r, getRoot st fs = .ok st' r ∧ SourceFree st' ∧ LinksPreserved st st' := by
  cases hd : st.heap[fs]? with
  | none =>
    left
    simp only [getRoot, hd]
  | some n =>
    cases hdata : n.data with
    | fsRoot cw cs ro =>
      cases ro with
      | some r =>
        right
        refine ⟨st, r, ?_, hsf, linksPreserved_refl st⟩
        simp only [getRoot, hd, hdata]
      | none =>
        right
        refine ⟨setNode (alloc st
            { name := [], parent := fs, fileSystem := fs, readOnly := n.readOnly,
              data := .dir none none none }).1 fs
            { n with data := .fsRoot cw cs (some (alloc st
              { name := [], parent := fs, fileSystem := fs, readOnly := n.readOnly,
                data := .dir none none none }).2) },
          (alloc st
            { name := [], parent := fs, fileSystem := fs, readOnly := n.readOnly,
              data := .dir none none none }).2, ?_, ?_, ?_⟩
        · simp only [getRoot, hd, hdata]
        · refine sourceFree_setNode (sourceFree_alloc hsf ?_) ?_
          · simp [nodeSourceFree]
          · simp [nodeSourceFree]
        · refine linksPreserved_trans (linksPreserved_alloc ?_)
            (@linksPreserved_setNode _ _ n _ ?_ ?_ ?_)
          · simp [nodeIsLink]
          · rw [getElem_alloc]
            have hlt : fs < st.heap.length := (List.getElem?_eq_some.mp hd).1
            rw [if_pos hlt]
            exact hd
          · simp [nodeIsLink, hdata]
          · simp [nodeTarget, hdata]
    | dir es rv sh =>
      left
      simp only [getRoot, hd, hdata]
    | dirLink es t =>
      left
      simp only [getRoot, hd, hdata]
    | file c rv sh =>
      left
      simp only [getRoot, hd, hdata]
    | fileLink t =>
      left
      simp only [getRoot, hd, hdata]

theorem traversePath_sourceFree {st : State} (hsf : SourceFree st) (fuel : Nat)
    (hf : 1 ≤ fuel) (fs : Nat) (path : Str) :
    (∀ g, 1 ≤ g → traversePath g st fs path = traversePath fuel st fs path) ∧
    (traversePath fuel st fs path = .stuck ∨
      ∃ st' e?, traversePath fuel st fs path = .ok st' e? ∧ SourceFree st' ∧
        LinksPreserved st st') := by
  cases hd : st.heap[fs]? with
  | none =>
    constructor
    · intro g hg
      simp only [traversePath, hd]
    · left
      simp only [traversePath, hd]
  | some n =>
    cases hdata : n.data with
    | fsRoot cw cs ro =>
      rcases getRoot_sourceFree hsf fs with hstuck | ⟨st1, r, hok, hsf1, hlp1⟩
      · constructor
        · intro g hg
          simp only [traversePath, hd, hdata, hstuck]
        · left
          simp only [traversePath, hd, hdata, hstuck]
      · obtain ⟨hindep, hshape⟩ :=
          traverseFold_sourceFree fuel hf (parse (resolve cw [path])) st1 r hsf1
        constructor
        · intro g hg
          simp only [traversePath, hd, hdata, hok, hindep g hg]
        · rcases hshape with hstuck2 | ⟨st2, e?, hok2, hsf2, hlp2⟩
          · left
            simp only [traversePath, hd, hdata, hok, hstuck2]
          · right
            refine ⟨st2, e?, ?_, hsf2, linksPreserved_trans hlp1 hlp2⟩
            simp only [traversePath, hd, hdata, hok, hok2]
    | dir es rv sh =>
      constructor
      · intro g hg
        simp only [traversePath, hd, hdata]
      · left
        simp only [traversePath, hd, hdata]
    | dirLink es t =>
      constructor
      · intro g hg
        simp only [traversePath, hd, hdata]
      · left
        simp only [traversePath, hd, hdata]
    | file c rv sh =>
      constructor
      · intro g hg
        simp only [traversePath, hd, hdata]
      · left
        simp only [traversePath, hd, hdata]
    | fileLink t =>
      constructor
      · intro g hg
        simp only [traversePath, hd, hdata]
      · left
        simp only [traversePath, hd, hdata]

end VFS

namespace VFS

open VPath

/-- `findTarget` terminates on source-free heaps: above an explicit fuel
bound driven by the number of unvisited symlinks, the result is
fuel-independent and never the fuel-exhaustion marker. -/
theorem findTarget_stable :
    ∀ (k : Nat) (st : State) (fs : Nat) (t : Str) (visited : List Nat),
      SourceFree st → linkMeasure st visited ≤ k →
      ∀ f g, k + 2 ≤ f → k + 2 ≤ g →
        findTarget f st fs t visited = findTarget g st fs t visited ∧
        (findTarget f st fs t visited).isOutOfFuel = false := by
  intro k
  induction k with
  | zero =>
    intro st fs t visited hsf hm f g hf hg
    obtain ⟨f', rfl⟩ : ∃ f', f = f' + 1 := ⟨f - 1, by omega⟩
    obtain ⟨g', rfl⟩ : ∃ g', g = g' + 1 := ⟨g - 1, by omega⟩
    obtain ⟨hindep, hshape⟩ := traversePath_sourceFree hsf f' (by omega) fs t
    have hgi : traversePath g' st fs t = traversePath f' st fs t := hindep g' (by omega)
    simp only [findTarget, hgi]
    rcases hshape with hstuck | ⟨st1, e?, hok, hsf1, hlp⟩
    · rw [hstuck]
      simp [Res.isOutOfFuel]
    · rw [hok]
      simp only
      cases e? with
      | none => simp [Res.isOutOfFuel]
      | some e =>
        simp only
        cases hle : isLinkInstance st1 e with
        | false =>
          simp only [Bool.false_eq_true, if_false]
          simp [Res.isOutOfFuel]
        | true =>
          simp only [if_true]
          by_cases hev : e ∈ visited
          · simp [hev, Res.isOutOfFuel]
          · exfalso
            have hle0 : isLinkInstance st e = true := by
              rw [← (hlp e).1]
              exact hle
            have := linkMeasure_cons hle0 hev
            omega
  | succ k ih =>
    intro st fs t visited hsf hm f g hf hg
    obtain ⟨f', rfl⟩ : ∃ f', f = f' + 1 := ⟨f - 1, by omega⟩
    obtain ⟨g', rfl⟩ : ∃ g', g = g' + 1 := ⟨g - 1, by omega⟩
    obtain ⟨hindep, hshape⟩ := traversePath_sourceFree hsf f' (by omega) fs t
    have hgi : traversePath g' st fs t = traversePath f' st fs t := hindep g' (by omega)
    simp only [findTarget, hgi]
    rcases hshape with hstuck | ⟨st1, e?, hok, hsf1, hlp⟩
    · rw [hstuck]
      simp [Res.isOutOfFuel]
    · rw [hok]
      simp only
      cases e? with
      | none => simp [Res.isOutOfFuel]
      | some e =>
        simp only
        cases hle : isLinkInstance st1 e with
        | false =>
          simp only [Bool.false_eq_true, if_false]
          simp [Res.isOutOfFuel]
        | true =>
          simp only [if_true]
          by_cases hev : e ∈ visited
          · simp [hev, Res.isOutOfFuel]
          · rw [if_neg hev, if_neg hev]
            have hle0 : isLinkInstance st e = true := by
              rw [← (hlp e).1]
              exact hle
            have hdec := linkMeasure_cons hle0 hev
            have hm1 : linkMeasure st1 (e :: visited) ≤ k := by
              rw [linkMeasure_eq_of_linksPreserved hlp]
              omega
            exact ih st1 fs (targetOf st1 e) (e :: visited) hsf1 hm1 f' g'
              (by omega) (by omega)

end VFS

namespace Thm

open VPath VFS Scn

/-- C7 (amended): target resolution terminates on every symlink chain,
including cyclic ones — on source-free heaps its result is independent of
the fuel above an explicit bound driven by the number of unvisited
symlinks, and never the fuel-exhaustion marker; a successful resolution
never yields a symlink entry, so a chain that never leaves the symlinks —
in particular a cycle — yields no entry (witnessed concretely on the
cyclic chain); and `isBroken` is true exactly when resolution yields no
entry OF THE MATCHING KIND: the resolved entry must additionally be a
directory (for a directory symlink) or a file (for a file symlink);
resolution can yield an entry of the wrong kind with `isBroken` still
true (see the counterexample). -/
theorem c7_findTarget_terminates_and_isBroken_kind :
    (∀ (st : State) (fs : Nat) (t : Str) (visited : List Nat),
      SourceFree st →
      ∀ f g, linkMeasure st visited + 2 ≤ f → linkMeasure st visited + 2 ≤ g →
        findTarget f st fs t visited = findTarget g st fs t visited ∧
        (findTarget f st fs t visited).isOutOfFuel = false)
    ∧ (∀ fuel st s n es t, st.heap[s]? = some n → n.data = .dirLink es t →
        isBrokenDirLink fuel st s =
          (match findTarget fuel st n.fileSystem t [] with
           | .ok st1 (some e) => .ok st1 (!isDirInstance st1 e)
           | .ok st1 none => .ok st1 true
           | .frozen => .frozen
           | .stuck => .stuck
           | .outOfFuel => .outOfFuel))
    ∧ (∀ fuel st s n t, st.heap[s]? = some n → n.data = .fileLink t →
        isBrokenFileLink fuel st s =
          (match findTarget fuel st n.fileSystem t [] with
           | .ok st1 (some e) => .ok st1 (!isFileInstance st1 e)
           | .ok st1 none => .ok st1 true
           | .frozen => .frozen
           | .stuck => .stuck
           | .outOfFuel => .outOfFuel))
    ∧ (∀ fuel st fs t visited st1 e,
        findTarget fuel st fs t visited = .ok st1 (some e) →
        isLinkInstance st1 e = false) := by
  refine ⟨?_, ?_, ?_, ?_⟩
  · intro st fs t visited hsf f g hf hg
    exact findTarget_stable (linkMeasure st visited) st fs t visited hsf le_rfl f g hf hg
  · intro fuel st s n es t h1 h2
    unfold isBrokenDirLink targetDirectory
    rw [h1]
    simp only
    rw [h2]
    cases hft : findTarget fuel st n.fileSystem t [] with
    | ok st1 e? =>
      simp only [hft]
      cases e? with
      | some e =>
        simp only
        cases isDirInstance st1 e <;> simp
      | none => simp
    | frozen => simp [hft]
    | stuck => simp [hft]
    | outOfFuel => simp [hft]
  · intro fuel st s n t h1 h2
    unfold isBrokenFileLink targetFile
    rw [h1]
    simp only
    rw [h2]
    cases hft : findTarget fuel st n.fileSystem t [] with
    | ok st1 e? =>
      simp only [hft]
      cases e? with
      | some e =>
        simp only
        cases isFileInstance st1 e <;> simp
      | none => simp
    | frozen => simp [hft]
    | stuck => simp [hft]
    | outOfFuel => simp [hft]
  · intro fuel
    induction fuel with
    | zero =>
      intro st fs t visited st1 e h
      exact Res.noConfusion
        (show (Res.outOfFuel : Res (Option Nat)) = .ok st1 (some e) from h)
    | succ f ih =>
      intro st fs t visited st1 e h
      have h2 : (match traversePath f st fs t with
        | .ok s1 e? =>
          match e? with
          | some e0 =>
            if isLinkInstance s1 e0 = true then
              if e0 ∈ visited then Res.ok s1 (none : Option Nat)
              else findTarget f s1 fs (targetOf s1 e0) (e0 :: visited)
            else Res.ok s1 (some e0)
          | none => Res.ok s1 (none : Option Nat)
        | .frozen => .frozen
        | .stuck => .stuck
        | .outOfFuel => .outOfFuel) = Res.ok st1 (some e) := h
      cases htp : traversePath f st fs t with
      | ok s1 e? =>
        rw [htp] at h2
        cases e? with
        | some e0 =>
          have h3 : (if isLinkInstance s1 e0 = true then
              if e0 ∈ visited then Res.ok s1 (none : Option Nat)
              else findTarget f s1 fs (targetOf s1 e0) (e0 :: visited)
            else Res.ok s1 (some e0)) = Res.ok st1 (some e) := h2
          by_cases hl : isLinkInstance s1 e0 = true
          · rw [if_pos hl] at h3
            by_cases hv : e0 ∈ visited
            · rw [if_pos hv] at h3
              obtain ⟨h4, h5⟩ := Res.ok.inj h3
              exact Option.noConfusion h5
            · rw [if_neg hv] at h3
              exact ih s1 fs (targetOf s1 e0) (e0 :: visited) st1 e h3
          · rw [if_neg hl] at h3
            obtain ⟨h4, h5⟩ := Res.ok.inj h3
            subst h4
            injection h5 with h6
            subst h6
            exact Bool.eq_false_iff.mpr hl
        | none =>
          have h3 : Res.ok s1 (none : Option Nat) = Res.ok st1 (some e) := h2
          obtain ⟨h4, h5⟩ := Res.ok.inj h3
          exact Option.noConfusion h5
      | frozen =>
        rw [htp] at h2
        exact Res.noConfusion h2
      | stuck =>
        rw [htp] at h2
        exact Res.noConfusion h2
      | outOfFuel =>
        rw [htp] at h2
        exact Res.noConfusion h2

/-- Witness for the amended C7 on the concrete symlink scenario: resolution
of the cyclic chain `c -> /c` is fuel-stable, in fuel, and yields no entry;
and the clean chain `/t` resolves to the directory `/t`, which the
never-a-symlink conjunct confirms is not itself a symlink. -/
theorem c7_witness :
    (findTarget 8 stC fs0 (str "/c") [] = findTarget 5 stC fs0 (str "/c") []
      ∧ (findTarget 8 stC fs0 (str "/c") []).isOutOfFuel = false)
    ∧ findTarget 8 stC fs0 (str "/c") [] = .ok stC none
    ∧ isLinkInstance stC dirT = false :=
  ⟨c7_findTarget_terminates_and_isBroken_kind.1 stC fs0 (str "/c") [] (by decide)
    8 5 (by decide) (by decide),
   rfl,
   c7_findTarget_terminates_and_isBroken_kind.2.2.2 8 stC fs0 (str "/t") [] stC dirT rfl⟩

end Thm

namespace VPath

/-- `normalizeSlashes` leaves no backslash behind. -/
theorem normalizeSlashes_no_bs (p : Str) : ∀ c ∈ normalizeSlashes p, c ≠ '\\' := by
  intro c hc
  unfold normalizeSlashes at hc
  obtain ⟨a, _, ha⟩ := List.mem_map.mp hc
  by_cases h : a = '\\'
  · rw [h] at ha
    simp at ha
    intro hcc
    rw [← ha] at hcc
    cases hcc
  · rw [if_neg h] at ha
    rw [← ha]
    exact h

/-- `normalizeSlashes` fixes backslash-free strings. -/
theorem normalizeSlashes_eq_self {x : Str} (h : ∀ c ∈ x, c ≠ '\\') :
    normalizeSlashes x = x := by
  unfold normalizeSlashes
  conv_rhs => rw [← List.map_id x]
  apply List.map_congr_left
  intro a ha
  rw [if_neg (h a ha)]
  rfl

theorem normalizeSlashes_idem (p : Str) :
    normalizeSlashes (normalizeSlashes p) = normalizeSlashes p :=
  normalizeSlashes_eq_self (normalizeSlashes_no_bs p)

/-- `splitSlash` never yields the empty list. -/
theorem splitSlash_ne_nil (x : Str) : splitSlash x ≠ [] := by
  cases x with
  | nil => simp [splitSlash]
  | cons c cs =>
    unfold splitSlash
    cases splitSlash cs with
    | nil => simp
    | cons p ps =>
      by_cases h : c = '/' <;> simp [h]

/-- Every piece of `splitSlash` is slash-free. -/
theorem splitSlash_pieces_noSlash (x : Str) :
    ∀ p ∈ splitSlash x, ∀ c ∈ p, c ≠ '/' := by
  induction x with
  | nil =>
    intro p hp c hc
    simp [splitSlash] at hp
    rw [hp] at hc
    cases hc
  | cons a as ih =>
    intro p hp c hc
    unfold splitSlash at hp
    cases hsp : splitSlash as with
    | nil => exact absurd hsp (splitSlash_ne_nil as)
    | cons q qs =>
      rw [hsp] at hp
      have hp2 : p ∈ (if a = '/' then [] :: q :: qs else (a :: q) :: qs) := hp
      by_cases ha : a = '/'
      · rw [if_pos ha] at hp2
        rcases List.mem_cons.mp hp2 with hp2 | hp2
        · rw [hp2] at hc
          cases hc
        · exact ih p (by rw [hsp]; exact hp2) c hc
      · rw [if_neg ha] at hp2
        rcases List.mem_cons.mp hp2 with hp2 | hp2
        · rw [hp2] at hc
          rcases List.mem_cons.mp hc with hc | hc
          · rw [hc]; exact ha
          · exact ih q (by rw [hsp]; exact List.mem_cons_self q qs) c hc
        · exact ih p (by rw [hsp]; exact List.mem_cons_of_mem q hp2) c hc

/-- Every character of every piece of `splitSlash` occurs in the input. -/
theorem splitSlash_pieces_chars (x : Str) :
    ∀ p ∈ splitSlash x, ∀ c ∈ p, c ∈ x := by
  induction x with
  | nil =>
    intro p hp c hc
    simp [splitSlash] at hp
    rw [hp] at hc
    cases hc
  | cons a as ih =>
    intro p hp c hc
    unfold splitSlash at hp
    cases hsp : splitSlash as with
    | nil => exact absurd hsp (splitSlash_ne_nil as)
    | cons q qs =>
      rw [hsp] at hp
      have hp2 : p ∈ (if a = '/' then [] :: q :: qs else (a :: q) :: qs) := hp
      by_cases ha : a = '/'
      · rw [if_pos ha] at hp2
        rcases List.mem_cons.mp hp2 with hp2 | hp2
        · rw [hp2] at hc
          cases hc
        · exact List.mem_cons_of_mem a (ih p (by rw [hsp]; exact hp2) c hc)
      · rw [if_neg ha] at hp2
        rcases List.mem_cons.mp hp2 with hp2 | hp2
        · rw [hp2] at hc
          rcases List.mem_cons.mp hc with hc | hc
          · rw [hc]; exact List.mem_cons_self a as
          · exact List.mem_cons_of_mem a
              (ih q (by rw [hsp]; exact List.mem_cons_self q qs) c hc)
        · exact List.mem_cons_of_mem a
            (ih p (by rw [hsp]; exact List.mem_cons_of_mem q hp2) c hc)

/-- Split of a slash-free string is a single piece. -/
theorem splitSlash_noSlash {x : Str} (h : ∀ c ∈ x, c ≠ '/') :
    splitSlash x = [x] := by
  induction x with
  | nil => rfl
  | cons a as ih =>
    unfold splitSlash
    have has : splitSlash as = [as] :=
      ih (fun c hc => h c (List.mem_cons_of_mem a hc))
    rw [has]
    show (if a = '/' then [] :: as :: ([] : List Str) else (a :: as) :: []) = [a :: as]
    rw [if_neg (h a (List.mem_cons_self a as))]

/-- Splitting a slash-free prefix followed by a slash peels one piece. -/
theorem splitSlash_seg_append {x : Str} (h : ∀ c ∈ x, c ≠ '/') (ys : Str) :
    splitSlash (x ++ '/' :: ys) = x :: splitSlash ys := by
  induction x with
  | nil =>
    simp only [List.nil_append]
    show (match splitSlash ys with
      | [] => [[('/' : Char)]]
      | p :: ps => if ('/' : Char) = '/' then [] :: p :: ps else ('/' :: p) :: ps) =
        [] :: splitSlash ys
    cases hsp : splitSlash ys with
    | nil => exact absurd hsp (splitSlash_ne_nil ys)
    | cons q qs =>
      show (if ('/' : Char) = '/' then [] :: q :: qs else ('/' :: q) :: qs) = [] :: q :: qs
      rw [if_pos rfl]
  | cons a as ih =>
    have has := ih (fun c hc => h c (List.mem_cons_of_mem a hc))
    rw [List.cons_append]
    show (match splitSlash (as ++ '/' :: ys) with
      | [] => [[a]]
      | p :: ps => if a = '/' then [] :: p :: ps else (a :: p) :: ps) =
        (a :: as) :: splitSlash ys
    rw [has]
    show (if a = '/' then [] :: as :: splitSlash ys else (a :: as) :: splitSlash ys) =
      (a :: as) :: splitSlash ys
    rw [if_neg (h a (List.mem_cons_self a as))]

/-- `splitSlash` inverts `joinSlash` on nonempty lists of slash-free parts. -/
theorem splitSlash_joinSlash {ps : List Str} (hne : ps ≠ [])
    (h : ∀ p ∈ ps, ∀ c ∈ p, c ≠ '/') :
    splitSlash (joinSlash ps) = ps := by
  induction ps with
  | nil => exact absurd rfl hne
  | cons p ps ih =>
    cases ps with
    | nil =>
      show splitSlash p = [p]
      exact splitSlash_noSlash (h p (List.mem_cons_self p []))
    | cons q qs =>
      show splitSlash (p ++ '/' :: joinSlash (q :: qs)) = _
      rw [splitSlash_seg_append (h p (List.mem_cons_self p _))]
      rw [ih (by simp) (fun x hx c hc => h x (List.mem_cons_of_mem p hx) c hc)]

/-- As above, with a trailing slash producing a final empty piece. -/
theorem splitSlash_joinSlash_slash {ps : List Str} (hne : ps ≠ [])
    (h : ∀ p ∈ ps, ∀ c ∈ p, c ≠ '/') :
    splitSlash (joinSlash ps ++ ['/']) = ps ++ [[]] := by
  induction ps with
  | nil => exact absurd rfl hne
  | cons p ps ih =>
    cases ps with
    | nil =>
      show splitSlash (p ++ '/' :: []) = _
      rw [splitSlash_seg_append (h p (List.mem_cons_self p []))]
      rfl
    | cons q qs =>
      show splitSlash ((p ++ '/' :: joinSlash (q :: qs)) ++ ['/']) = _
      rw [List.append_assoc, List.cons_append]
      rw [splitSlash_seg_append (h p (List.mem_cons_self p _))]
      rw [ih (by simp) (fun x hx c hc => h x (List.mem_cons_of_mem p hx) c hc)]
      rfl

end VPath

namespace VPath

/-- Characters of `joinSlash` come from the parts or are the separator. -/
theorem joinSlash_chars (ps : List Str) :
    ∀ c ∈ joinSlash ps, c = '/' ∨ ∃ p ∈ ps, c ∈ p := by
  induction ps with
  | nil =>
    intro c hc
    cases hc
  | cons p ps ih =>
    intro c hc
    cases ps with
    | nil =>
      right
      exact ⟨p, List.mem_cons_self p [], hc⟩
    | cons q qs =>
      rcases List.mem_append.mp hc with hc | hc
      · right
        exact ⟨p, List.mem_cons_self p _, hc⟩
      · rcases List.mem_cons.mp hc with hc | hc
        · left
          exact hc
        · rcases ih c hc with hc2 | ⟨x, hx, hcx⟩
          · left
            exact hc2
          · right
            exact ⟨x, List.mem_cons_of_mem p hx, hcx⟩

/-- Elements surviving `normPartsAux` come from the accumulator or input. -/
theorem normPartsAux_mem : ∀ (l acc : List Str), ∀ x ∈ normPartsAux acc l,
    x ∈ acc ∨ x ∈ l := by
  intro l
  induction l with
  | nil =>
    intro acc x hx
    left
    unfold normPartsAux at hx
    exact List.mem_reverse.mp hx
  | cons p ps ih =>
    intro acc x hx
    unfold normPartsAux at hx
    by_cases h1 : p = str "."
    · rw [if_pos h1] at hx
      rcases ih acc x hx with h | h
      · left; exact h
      · right; exact List.mem_cons_of_mem p h
    · rw [if_neg h1] at hx
      by_cases h2 : (p = str ".." && !acc.isEmpty && acc.head? ≠ some (str "..")) = true
      · rw [if_pos h2] at hx
        rcases ih acc.tail x hx with h | h
        · left; exact List.mem_of_mem_tail h
        · right; exact List.mem_cons_of_mem p h
      · rw [if_neg h2] at hx
        by_cases h3 : p.isEmpty
        · rw [if_pos h3] at hx
          rcases ih acc x hx with h | h
          · left; exact h
          · right; exact List.mem_cons_of_mem p h
        · rw [if_neg h3] at hx
          rcases ih (p :: acc) x hx with h | h
          · rcases List.mem_cons.mp h with h | h
            · right; rw [h]; exact List.mem_cons_self p ps
            · left; exact h
          · right; exact List.mem_cons_of_mem p h

/-- A clean component list (optionally with one trailing empty piece) is a
fixed point of the normalization loop, whatever sits in the accumulator. -/
theorem normPartsAux_clean (tr : Bool) :
    ∀ (cs acc : List Str), (∀ x ∈ cs, goodPart x = true) →
      normPartsAux acc (cs ++ if tr then [[]] else []) = acc.reverse ++ cs := by
  intro cs
  induction cs with
  | nil =>
    intro acc _
    cases tr with
    | false => simp [normPartsAux]
    | true =>
      show normPartsAux acc [[]] = acc.reverse ++ []
      unfold normPartsAux
      rw [if_neg (by decide : ¬ ([] : Str) = str ".")]
      rw [if_neg (by simp [str])]
      rw [if_pos (by decide)]
      simp [normPartsAux]
  | cons c cs ih =>
    intro acc hcs
    have hc := hcs c (List.mem_cons_self c cs)
    unfold goodPart at hc
    simp only [Bool.and_eq_true, Bool.not_eq_true', decide_eq_true_eq] at hc
    obtain ⟨⟨⟨hne, hdot⟩, hdd⟩, hslash⟩ := hc
    rw [List.cons_append]
    unfold normPartsAux
    rw [if_neg (by simpa using hdot)]
    rw [if_neg (by simp [hdd])]
    rw [if_neg (by simpa [List.isEmpty_iff] using hne)]
    rw [ih (c :: acc) (fun x hx => hcs x (List.mem_cons_of_mem c hx))]
    simp

/-- A leading run of `..` followed by clean components (optionally with a
trailing empty piece) is likewise fixed, over an all-`..` accumulator. -/
theorem normPartsAux_dd_run (tr : Bool) :
    ∀ (k : Nat) (cs acc : List Str), (∀ x ∈ acc, x = str "..") →
      (∀ x ∈ cs, goodPart x = true) →
      normPartsAux acc (List.replicate k (str "..") ++ (cs ++ if tr then [[]] else [])) =
        acc.reverse ++ List.replicate k (str "..") ++ cs := by
  intro k
  induction k with
  | zero =>
    intro cs acc hacc hcs
    simp only [List.replicate_zero, List.nil_append]
    rw [normPartsAux_clean tr cs acc hcs]
    simp
  | succ k ih =>
    intro cs acc hacc hcs
    rw [List.replicate_succ, List.cons_append]
    unfold normPartsAux
    rw [if_neg (by decide)]
    have hpop : (str ".." = str ".." && !acc.isEmpty && acc.head? ≠ some (str "..")) = false := by
      cases acc with
      | nil => simp
      | cons a rest =>
        have := hacc a (List.mem_cons_self a rest)
        simp [this]
    rw [hpop]
    simp only [Bool.false_eq_true, if_false]
    rw [if_neg (by decide)]
    rw [ih cs (str ".." :: acc)
      (fun x hx => by
        rcases List.mem_cons.mp hx with h | h
        · exact h
        · exact hacc x h) hcs]
    simp [List.replicate_succ]

end VPath

namespace VPath

/-- An all-equal list reversed is a `replicate`. -/
theorem reverse_all_eq {l : List Str} {a : Str} (h : ∀ x ∈ l, x = a) :
    l.reverse = List.replicate l.length a := by
  have : l = List.replicate l.length a := List.eq_replicate_of_mem h
  rw [this]
  simp [List.reverse_replicate]

/-- The output of the normalization loop is a leading run of `..` followed
by clean components, provided the input pieces are slash-free and the
accumulator is (reversed) of that shape. -/
theorem normPartsAux_shape :
    ∀ (l : List Str), (∀ p ∈ l, ∀ c ∈ p, c ≠ '/') →
      ∀ (cs0 dds0 : List Str),
      (∀ x ∈ cs0, goodPart x = true) → (∀ x ∈ dds0, x = str "..") →
      ∃ k cs, normPartsAux (cs0 ++ dds0) l = List.replicate k (str "..") ++ cs ∧
        ∀ x ∈ cs, goodPart x = true := by
  intro l
  induction l with
  | nil =>
    intro _ cs0 dds0 hcs0 hdds0
    refine ⟨dds0.length, cs0.reverse, ?_, ?_⟩
    · show (cs0 ++ dds0).reverse = _
      rw [List.reverse_append, reverse_all_eq hdds0]
    · intro x hx
      exact hcs0 x (List.mem_reverse.mp hx)
  | cons p ps ih =>
    intro hns cs0 dds0 hcs0 hdds0
    have hpns : ∀ c ∈ p, c ≠ '/' := hns p (List.mem_cons_self p ps)
    have hns' : ∀ q ∈ ps, ∀ c ∈ q, c ≠ '/' :=
      fun q hq => hns q (List.mem_cons_of_mem p hq)
    unfold normPartsAux
    by_cases h1 : p = str "."
    · rw [if_pos h1]
      exact ih hns' cs0 dds0 hcs0 hdds0
    · rw [if_neg h1]
      by_cases h2 : (p = str ".." && !(cs0 ++ dds0).isEmpty &&
          (cs0 ++ dds0).head? ≠ some (str "..")) = true
      · rw [if_pos h2]
        simp only [Bool.and_eq_true, decide_eq_true_eq] at h2
        obtain ⟨⟨hpd, hane⟩, hahd⟩ := h2
        cases cs0 with
        | nil =>
          exfalso
          cases dds0 with
          | nil => simp at hane
          | cons a rest =>
            apply hahd
            simp only [List.nil_append, List.head?_cons]
            rw [hdds0 a (List.mem_cons_self a rest)]
        | cons c0 cs0' =>
          have : (c0 :: cs0' ++ dds0).tail = cs0' ++ dds0 := by simp
          rw [this]
          exact ih hns' cs0' dds0
            (fun x hx => hcs0 x (List.mem_cons_of_mem c0 hx)) hdds0
      · rw [if_neg h2]
        by_cases h3 : p.isEmpty
        · rw [if_pos h3]
          exact ih hns' cs0 dds0 hcs0 hdds0
        · rw [if_neg h3]
          by_cases hpd : p = str ".."
          · have hcs0nil : cs0 = [] := by
              by_contra hne
              apply h2
              simp only [Bool.and_eq_true, decide_eq_true_eq]
              cases cs0 with
              | nil => exact absurd rfl hne
              | cons c0 cs0' =>
                refine ⟨⟨hpd, by simp⟩, ?_⟩
                simp only [List.cons_append, List.head?_cons, ne_eq, Option.some.injEq]
                have hgood := hcs0 c0 (List.mem_cons_self c0 cs0')
                unfold goodPart at hgood
                simp only [Bool.and_eq_true, Bool.not_eq_true', decide_eq_true_eq] at hgood
                intro hc
                exact hgood.1.2 hc
            subst hcs0nil
            have : p :: ([] ++ dds0) = [] ++ (p :: dds0) := by simp
            rw [this]
            exact ih hns' [] (p :: dds0) (by intro x hx; cases hx)
              (fun x hx => by
                rcases List.mem_cons.mp hx with h | h
                · rw [h]; exact hpd
                · exact hdds0 x h)
          · have hgoodp : goodPart p = true := by
              unfold goodPart
              simp only [Bool.and_eq_true, Bool.not_eq_true', decide_eq_true_eq]
              refine ⟨⟨⟨by simpa [List.isEmpty_iff] using h3, ?_⟩, ?_⟩, ?_⟩
              · simp [h1]
              · simp [hpd]
              · rw [List.contains_eq_any_beq]
                simp only [List.any_eq_false, Bool.not_eq_true]
                intro c hc
                rw [beq_eq_false_iff_ne]
                exact fun hcc => hpns c hc hcc.symm
            have : p :: (cs0 ++ dds0) = (p :: cs0) ++ dds0 := by simp
            rw [this]
            exact ih hns' (p :: cs0) dds0
              (fun x hx => by
                rcases List.mem_cons.mp hx with h | h
                · rw [h]; exact hgoodp
                · exact hcs0 x h) hdds0

end VPath

namespace VPath

theorem segOK_cons {c : Char} {u : Str} :
    segOK (c :: u) = (!(c = '/' : Bool) && !isLineTerm c && segOK u) := by
  unfold segOK
  rw [List.all_cons]

theorem lazyDotSlash_cons_skip {c : Char} {w : Str} (hc : ¬ c = '/')
    (hnl : isLineTerm c = false) :
    lazyDotSlash (c :: w) = (lazyDotSlash w).map (· + 1) := by
  show (if c = '/' then some 1
    else if isLineTerm c then none
    else (lazyDotSlash w).map (· + 1)) = (lazyDotSlash w).map (· + 1)
  rw [if_neg hc, if_neg (by simp [hnl])]

theorem lazyDotSlash_seg_append {u : Str} (h : segOK u = true) (v : Str) :
    lazyDotSlash (u ++ v) = (lazyDotSlash v).map (· + u.length) := by
  induction u with
  | nil =>
    simp only [List.nil_append, List.length_nil]
    cases lazyDotSlash v <;> simp
  | cons c u ih =>
    rw [segOK_cons] at h
    simp only [Bool.and_eq_true, Bool.not_eq_true', decide_eq_false_iff_not] at h
    obtain ⟨⟨hc, hnl⟩, hu⟩ := h
    rw [List.cons_append, lazyDotSlash_cons_skip hc hnl, ih hu, Option.map_map,
      List.length_cons]
    cases lazyDotSlash v with
    | none => rfl
    | some k =>
      simp [Function.comp]

theorem lazyDotSlash_seg_slash {u : Str} (h : segOK u = true) (v : Str) :
    lazyDotSlash (u ++ '/' :: v) = some (u.length + 1) := by
  rw [lazyDotSlash_seg_append h]
  have : lazyDotSlash ('/' :: v) = some 1 := by
    unfold lazyDotSlash
    rw [if_pos rfl]
  rw [this]
  simp [Nat.add_comm]

theorem lazyDotSlash_noSlash {u : Str} (h : ∀ c ∈ u, c ≠ '/') :
    lazyDotSlash u = none := by
  induction u with
  | nil => rfl
  | cons c u ih =>
    unfold lazyDotSlash
    rw [if_neg (h c (List.mem_cons_self c u))]
    by_cases hnl : isLineTerm c
    · rw [if_pos hnl]
    · rw [if_neg hnl]
      rw [ih (fun x hx => h x (List.mem_cons_of_mem c hx))]
      rfl

theorem lazyDotSlash_blocked {u : Str} (hns : ∀ c ∈ u, c ≠ '/')
    (hnl : u.any isLineTerm = true) (v : Str) :
    lazyDotSlash (u ++ v) = none := by
  induction u with
  | nil => cases hnl
  | cons c u ih =>
    rw [List.cons_append]
    unfold lazyDotSlash
    rw [if_neg (hns c (List.mem_cons_self c u))]
    by_cases hc : isLineTerm c
    · rw [if_pos hc]
    · rw [if_neg hc]
      rw [List.any_cons] at hnl
      have : u.any isLineTerm = true := by
        cases h2 : isLineTerm c with
        | true => exact absurd h2 hc
        | false =>
          rw [h2] at hnl
          simpa using hnl
      rw [ih (fun x hx => hns x (List.mem_cons_of_mem c hx)) this]
      rfl

theorem segOK_of_noSlash_noNL {u : Str} (hns : ∀ c ∈ u, c ≠ '/')
    (hnl : u.any isLineTerm = false) : segOK u = true := by
  unfold segOK
  rw [List.all_eq_true]
  intro c hc
  have h1 : decide (c = '/') = false := decide_eq_false (hns c hc)
  have h2 : isLineTerm c = false := by
    rw [List.any_eq_false] at hnl
    simpa using hnl c hc
  rw [h1, h2]
  rfl

/-- The three ways the lazy fragment can consume a joined component list
with optional trailing slash. -/
theorem lazyDotSlash_join_cases (p : Str) (ps : List Str) (T : Str)
    (hpn : ∀ c ∈ p, c ≠ '/')
    (hT : T = [] ∨ T = ['/']) :
    (p.any isLineTerm = true ∧ lazyDotSlash (joinSlash (p :: ps) ++ T) = none) ∨
    (p.any isLineTerm = false ∧ ps = [] ∧ T = [] ∧
      lazyDotSlash (joinSlash (p :: ps) ++ T) = none) ∨
    (∃ R, joinSlash (p :: ps) ++ T = p ++ '/' :: R ∧
      lazyDotSlash (joinSlash (p :: ps) ++ T) = some (p.length + 1) ∧
      ((ps ≠ [] ∧ R = joinSlash ps ++ T) ∨ (ps = [] ∧ T = ['/'] ∧ R = []))) := by
  cases hnl : p.any isLineTerm with
  | true =>
    left
    constructor
    · rfl
    · cases ps with
      | nil =>
        show lazyDotSlash (p ++ T) = none
        exact lazyDotSlash_blocked hpn hnl T
      | cons q qs =>
        show lazyDotSlash ((p ++ '/' :: joinSlash (q :: qs)) ++ T) = none
        rw [List.append_assoc]
        exact lazyDotSlash_blocked hpn hnl _
  | false =>
    have hseg : segOK p = true := segOK_of_noSlash_noNL hpn hnl
    cases ps with
    | nil =>
      rcases hT with hT | hT
      · right; left
        subst hT
        refine ⟨rfl, rfl, rfl, ?_⟩
        show lazyDotSlash (p ++ []) = none
        rw [List.append_nil]
        exact lazyDotSlash_noSlash hpn
      · right; right
        subst hT
        refine ⟨[], ?_, ?_, Or.inr ⟨rfl, rfl, rfl⟩⟩
        · show p ++ ['/'] = p ++ '/' :: []
          rfl
        · show lazyDotSlash (p ++ ['/']) = some (p.length + 1)
          exact lazyDotSlash_seg_slash hseg []
    | cons q qs =>
      right; right
      refine ⟨joinSlash (q :: qs) ++ T, ?_, ?_, Or.inl ⟨by simp, rfl⟩⟩
      · show (p ++ '/' :: joinSlash (q :: qs)) ++ T = p ++ '/' :: (joinSlash (q :: qs) ++ T)
        simp
      · show lazyDotSlash ((p ++ '/' :: joinSlash (q :: qs)) ++ T) = some (p.length + 1)
        rw [List.append_assoc, List.cons_append]
        exact lazyDotSlash_seg_slash hseg _

end VPath

namespace VPath

/-- Unpacking `goodPart`. -/
theorem goodPart_props {x : Str} (h : goodPart x = true) :
    x ≠ [] ∧ x ≠ str "." ∧ x ≠ str ".." ∧ ∀ c ∈ x, c ≠ '/' := by
  unfold goodPart at h
  simp only [Bool.and_eq_true, Bool.not_eq_true', decide_eq_true_eq] at h
  obtain ⟨⟨⟨hne, hdot⟩, hdd⟩, hsl⟩ := h
  refine ⟨by simpa [List.isEmpty_iff] using hne, hdot, hdd, ?_⟩
  intro c hc hcc
  rw [hcc] at hc
  rw [List.contains_eq_any_beq] at hsl
  simp only [List.any_eq_false, Bool.not_eq_true] at hsl
  have := hsl '/' hc
  simp at this

/-- Every component of a shaped list is nonempty and slash-free. -/
theorem ddShape_comp {l : List Str} (h : ddShape l) :
    ∀ x ∈ l, x ≠ [] ∧ ∀ c ∈ x, c ≠ '/' := by
  obtain ⟨k, clean, hl, hclean⟩ := h
  intro x hx
  rw [hl] at hx
  rcases List.mem_append.mp hx with hx | hx
  · have := List.eq_of_mem_replicate hx
    subst this
    exact ⟨by decide, by decide⟩
  · have := goodPart_props (hclean x hx)
    exact ⟨this.1, this.2.2.2⟩

/-- The tail of a shaped list is shaped. -/
theorem ddShape_tail {p : Str} {ps : List Str} (h : ddShape (p :: ps)) :
    ddShape ps := by
  obtain ⟨k, clean, hl, hclean⟩ := h
  cases k with
  | zero =>
    cases clean with
    | nil => cases hl
    | cons c cs =>
      simp only [List.replicate_zero, List.nil_append, List.cons.injEq] at hl
      exact ⟨0, cs, by simp [hl.2], fun x hx => hclean x (List.mem_cons_of_mem c hx)⟩
  | succ k =>
    rw [List.replicate_succ, List.cons_append, List.cons.injEq] at hl
    exact ⟨k, clean, hl.2, hclean⟩

/-- Inversion of the lazy fragment: a successful match peels a clean segment
followed by a slash. -/
theorem lazyDotSlash_inv : ∀ {u : Str} {i : Nat}, lazyDotSlash u = some i →
    ∃ s, segOK s = true ∧ i = s.length + 1 ∧ u = s ++ '/' :: u.drop i := by
  intro u
  induction u with
  | nil => intro i h; cases h
  | cons c cs ih =>
    intro i h
    by_cases hc : c = '/'
    · subst hc
      have h1 : lazyDotSlash ('/' :: cs) = some 1 := by
        unfold lazyDotSlash
        rw [if_pos rfl]
      rw [h1] at h
      have hi : (1 : Nat) = i := by injection h
      subst hi
      exact ⟨[], rfl, rfl, rfl⟩
    · by_cases hnl : isLineTerm c
      · exfalso
        unfold lazyDotSlash at h
        rw [if_neg hc, if_pos hnl] at h
        cases h
      · have hnl' : isLineTerm c = false := by simpa using hnl
        rw [lazyDotSlash_cons_skip hc hnl'] at h
        cases hcs : lazyDotSlash cs with
        | none => rw [hcs] at h; cases h
        | some j =>
          rw [hcs] at h
          simp only [Option.map_some'] at h
          have hij : j + 1 = i := by injection h
          obtain ⟨s, hs1, hs2, hs3⟩ := ih hcs
          refine ⟨c :: s, ?_, by simp only [List.length_cons]; omega, ?_⟩
          · rw [segOK_cons]
            simp [hc, hnl', hs1]
          · subst hij
            show c :: cs = (c :: s) ++ '/' :: (c :: cs).drop (j + 1)
            rw [List.cons_append, List.drop_succ_cons]
            congr 1

end VPath

namespace VPath

/-- Unfolding of `normalize` with the let-bindings expanded. -/
theorem normalize_eq (p : Str) :
    normalize p =
      (if !(getNormalizedParts (normalizeSlashes p) (getRootLength (normalizeSlashes p))).isEmpty
       then
         (if (normalizeSlashes p).getLast? = some '/'
          then (normalizeSlashes p).take (getRootLength (normalizeSlashes p)) ++
            joinSlash (getNormalizedParts (normalizeSlashes p)
              (getRootLength (normalizeSlashes p))) ++ ['/']
          else (normalizeSlashes p).take (getRootLength (normalizeSlashes p)) ++
            joinSlash (getNormalizedParts (normalizeSlashes p)
              (getRootLength (normalizeSlashes p))))
       else (normalizeSlashes p).take (getRootLength (normalizeSlashes p))) := rfl

/-- A path headed by a slash takes the slash alternative of the root regex. -/
theorem getRootLength_slash (x : Str) :
    getRootLength ('/' :: x) = slashRoot ('/' :: x) := by
  unfold getRootLength
  split
  · rfl
  · rename_i ch rest2 hex heq
    exact absurd (List.head_eq_of_cons_eq heq).symm hex
  · rename_i hex1 hex2
    exact absurd rfl (hex1 x)

/-- The drive-letter alternative of the root regex. -/
theorem getRootLength_drive {c : Char} {rest : Str} (hc : isAsciiLetter c = true) :
    getRootLength (c :: ':' :: rest) = 2 + (if rest.head? = some '/' then 1 else 0) := by
  have hcs : ¬ c = '/' := by
    intro h
    subst h
    exact absurd hc (by decide)
  unfold getRootLength
  split
  · rename_i tail heq
    exact absurd (List.head_eq_of_cons_eq heq) hcs
  · rename_i c2 rest2 hex heq
    have h1 : c = c2 := List.head_eq_of_cons_eq heq
    have h3 : rest = rest2 :=
      List.tail_eq_of_cons_eq (List.tail_eq_of_cons_eq heq)
    subst h1
    subst h3
    rw [if_pos hc]
  · rename_i hex1 hex2
    exact absurd rfl (hex2 c rest)

/-- A path that is neither slash-headed nor of drive shape takes the scheme
alternative. -/
theorem getRootLength_eq_scheme {a : Char} {t : Str} (ha : ¬ a = '/')
    (hnd : ∀ c rest, a :: t = c :: ':' :: rest → isAsciiLetter c = false) :
    getRootLength (a :: t) = schemeRoot (a :: t) := by
  unfold getRootLength
  split
  · rename_i tail heq
    exact absurd (List.head_eq_of_cons_eq heq) ha
  · rename_i c2 rest2 hex heq
    rw [if_neg (by simp [hnd c2 rest2 heq])]
  · rfl

end VPath

namespace VPath

/-- A slash-headed path whose second character is not a slash has root 1. -/
theorem slashRoot_not_double {x : Str} (h : x.head? ≠ some '/') :
    slashRoot ('/' :: x) = 1 := by
  unfold slashRoot
  split
  · rename_i rest heq
    exact absurd (by rw [List.tail_eq_of_cons_eq heq]; rfl) h
  · rfl

/-- Evaluation of `slashRoot` on a double-slash-headed path. -/
theorem slashRoot_double (x : Str) :
    slashRoot ('/' :: '/' :: x) =
      2 + (match lazyDotSlash x with
        | none => 0
        | some i => i + (match lazyDotSlash (x.drop i) with
          | none => 0
          | some j => j)) := by
  unfold slashRoot
  split
  · rename_i rest heq
    have hx : x = rest := List.tail_eq_of_cons_eq (List.tail_eq_of_cons_eq heq)
    subst hx
    rfl
  · rename_i hex
    exact absurd rfl (hex x)

theorem slashRoot_double_none {x : Str} (h : lazyDotSlash x = none) :
    slashRoot ('/' :: '/' :: x) = 2 := by
  rw [slashRoot_double, h]
  rfl

theorem slashRoot_double_one {x : Str} {i : Nat} (hi : lazyDotSlash x = some i)
    (hj : lazyDotSlash (x.drop i) = none) :
    slashRoot ('/' :: '/' :: x) = 2 + i := by
  rw [slashRoot_double, hi]
  show 2 + (i + (match lazyDotSlash (x.drop i) with
    | none => 0
    | some j => j)) = 2 + i
  rw [hj]
  rfl

theorem slashRoot_double_two {x : Str} {i j : Nat} (hi : lazyDotSlash x = some i)
    (hj : lazyDotSlash (x.drop i) = some j) :
    slashRoot ('/' :: '/' :: x) = 2 + (i + j) := by
  rw [slashRoot_double, hi]
  show 2 + (i + (match lazyDotSlash (x.drop i) with
    | none => 0
    | some j => j)) = 2 + (i + j)
  rw [hj]

/-- Unfolding of `schemeRoot` with the let-bindings expanded. -/
theorem schemeRoot_eq (p : Str) :
    schemeRoot p =
      (if (p.takeWhile isWordChar).isEmpty then 0
       else match p.drop (p.takeWhile isWordChar).length with
         | ':' :: '/' :: '/' :: rest =>
           (p.takeWhile isWordChar).length + 3 + (rest.takeWhile (· ≠ '/')).length +
             (if (rest.drop (rest.takeWhile (· ≠ '/')).length).isEmpty then 0 else 1)
         | _ => 0) := rfl

/-- Inversion of a successful scheme-root match. -/
theorem schemeRoot_inv {p : Str} (h : schemeRoot p ≠ 0) :
    ∃ rest, (p.takeWhile isWordChar) ≠ [] ∧
      p.drop (p.takeWhile isWordChar).length = ':' :: '/' :: '/' :: rest ∧
      schemeRoot p = (p.takeWhile isWordChar).length + 3 +
        (rest.takeWhile (· ≠ '/')).length +
        (if (rest.drop (rest.takeWhile (· ≠ '/')).length).isEmpty then 0 else 1) := by
  rw [schemeRoot_eq] at h
  by_cases hw : (p.takeWhile isWordChar).isEmpty
  · rw [if_pos hw] at h
    exact absurd rfl h
  · rw [if_neg hw] at h
    split at h
    · rename_i rest heq
      refine ⟨rest, by simpa [List.isEmpty_iff] using hw, heq, ?_⟩
      rw [schemeRoot_eq, if_neg hw, heq]
      rfl
    · exact absurd rfl h

/-- `takeWhile` over a satisfying prefix followed by a failing character. -/
theorem takeWhile_all_append {P : Char → Bool} {w : Str} (hw : ∀ c ∈ w, P c = true)
    {c : Char} (hc : P c = false) (t : Str) :
    ((w ++ c :: t).takeWhile P) = w := by
  induction w with
  | nil => simp [List.takeWhile_cons, hc]
  | cons a as ih =>
    rw [List.cons_append, List.takeWhile_cons, hw a (List.mem_cons_self a as)]
    simp only [if_true]
    rw [ih (fun x hx => hw x (List.mem_cons_of_mem a hx))]

/-- Dropping the `takeWhile` prefix is `dropWhile`. -/
theorem drop_takeWhile_length (P : Char → Bool) (l : Str) :
    l.drop (l.takeWhile P).length = l.dropWhile P := by
  induction l with
  | nil => rfl
  | cons c cs ih =>
    by_cases h : P c
    · simp [List.takeWhile_cons, List.dropWhile_cons, h, ih]
    · simp [List.takeWhile_cons, List.dropWhile_cons, h]

/-- The head of `dropWhile`, when any, fails the predicate. -/
theorem dropWhile_head_false (P : Char → Bool) (l : Str) :
    l.dropWhile P = [] ∨ ∃ c t, l.dropWhile P = c :: t ∧ P c = false := by
  induction l with
  | nil => left; rfl
  | cons c cs ih =>
    by_cases h : P c
    · rw [List.dropWhile_cons, if_pos h]
      exact ih
    · right
      exact ⟨c, cs, by rw [List.dropWhile_cons, if_neg h], by simpa using h⟩

theorem wordChar_ne_slash {c : Char} (h : isWordChar c = true) : c ≠ '/' := by
  intro he
  subst he
  exact absurd h (by decide)

theorem wordChar_ne_colon {c : Char} (h : isWordChar c = true) : c ≠ ':' := by
  intro he
  subst he
  exact absurd h (by decide)

/-- The characters of the `takeWhile` prefix satisfy the predicate. -/
theorem mem_takeWhile_sat {P : Char → Bool} {l : Str} :
    ∀ c ∈ l.takeWhile P, P c = true := by
  induction l with
  | nil => intro c hc; cases hc
  | cons a as ih =>
    intro c hc
    rw [List.takeWhile_cons] at hc
    by_cases h : P a
    · rw [if_pos h] at hc
      rcases List.mem_cons.mp hc with hc | hc
      · subst hc; exact h
      · exact ih c hc
    · rw [if_neg h] at hc
      cases hc

end VPath

namespace VPath

/-- A joined nonheadless component list is nonempty. -/
theorem joinSlash_cons_ne_nil {p : Str} (h : p ≠ []) (ps : List Str) :
    joinSlash (p :: ps) ≠ [] := by
  cases ps with
  | nil => exact h
  | cons q qs =>
    show p ++ '/' :: joinSlash (q :: qs) ≠ []
    simp

/-- The head of a joined component list is the head of its first component. -/
theorem joinSlash_cons_append_head {p1 : Str} (h : p1 ≠ []) (ps : List Str) (T : Str) :
    (joinSlash (p1 :: ps) ++ T).head? = p1.head? := by
  cases p1 with
  | nil => exact absurd rfl h
  | cons c cs =>
    cases ps with
    | nil =>
      show (((c :: cs) : Str) ++ T).head? = _
      rfl
    | cons q qs =>
      show ((((c :: cs) : Str) ++ '/' :: joinSlash (q :: qs)) ++ T).head? = _
      rfl

/-- The last character of a joined list of nonempty slash-free components is
not a slash. -/
theorem joinSlash_getLast {ps : List Str} (hne : ps ≠ [])
    (h : ∀ p ∈ ps, p ≠ [] ∧ ∀ c ∈ p, c ≠ '/') :
    ∃ c, (joinSlash ps).getLast? = some c ∧ c ≠ '/' := by
  induction ps with
  | nil => exact absurd rfl hne
  | cons p ps ih =>
    cases ps with
    | nil =>
      show ∃ c, p.getLast? = some c ∧ c ≠ '/'
      obtain ⟨hpne, hpns⟩ := h p (List.mem_cons_self p [])
      cases hl : p.getLast? with
      | none => exact absurd (List.getLast?_eq_none_iff.mp hl) hpne
      | some c => exact ⟨c, rfl, hpns c (List.mem_of_getLast?_eq_some hl)⟩
    | cons q qs =>
      obtain ⟨c, hc1, hc2⟩ :=
        ih (by simp) (fun x hx => h x (List.mem_cons_of_mem p hx))
      refine ⟨c, ?_, hc2⟩
      show (p ++ '/' :: joinSlash (q :: qs)).getLast? = some c
      rw [List.getLast?_append_cons]
      have hjne : joinSlash (q :: qs) ≠ [] :=
        joinSlash_cons_ne_nil (h q (List.mem_cons_of_mem p (List.mem_cons_self q qs))).1 qs
      calc (('/' :: joinSlash (q :: qs)) : Str).getLast?
          = ((['/'] : Str) ++ joinSlash (q :: qs)).getLast? := rfl
        _ = (joinSlash (q :: qs)).getLast? := List.getLast?_append_of_ne_nil ['/'] hjne
        _ = some c := hc1

/-- `normalize` is the identity on a string whose suffix past its own root
is in normal form. -/
theorem normalize_fix {q : Str} (hb : normalizeSlashes q = q)
    (h : suffixNF (q.drop (getRootLength q))) : normalize q = q := by
  rw [normalize_eq q, hb]
  rcases h with h | ⟨ps, T, hshape, hpsne, hT, hsx⟩
  · have hq : q.take (getRootLength q) = q :=
      List.take_of_length_le (List.drop_eq_nil_iff.mp h)
    unfold getNormalizedParts
    rw [h]
    rw [show normPartsAux [] (splitSlash ([] : Str)) = [] from rfl]
    rw [if_neg (by decide)]
    exact hq
  · obtain ⟨k, clean, hps, hclean⟩ := hshape
    have hcomp := ddShape_comp ⟨k, clean, hps, hclean⟩
    have hnsl : ∀ p ∈ ps, ∀ c ∈ p, c ≠ '/' := fun p hp => (hcomp p hp).2
    have hparts : getNormalizedParts q (getRootLength q) = ps := by
      unfold getNormalizedParts
      rw [hsx]
      rcases hT with hT | hT
      · subst hT
        rw [List.append_nil, splitSlash_joinSlash hpsne hnsl, hps]
        have := normPartsAux_dd_run false k clean [] (by intro x hx; cases hx) hclean
        simpa using this
      · subst hT
        rw [splitSlash_joinSlash_slash hpsne hnsl, hps, List.append_assoc]
        have := normPartsAux_dd_run true k clean [] (by intro x hx; cases hx) hclean
        simpa using this
    rw [hparts]
    rw [if_pos (by
      cases ps with
      | nil => exact absurd rfl hpsne
      | cons a l => rfl)]
    rcases hT with hT | hT
    · subst hT
      rw [List.append_nil] at hsx
      have hq2 : q = q.take (getRootLength q) ++ joinSlash ps := by
        rw [← hsx]
        exact (List.take_append_drop _ q).symm
      obtain ⟨c, hc1, hc2⟩ := joinSlash_getLast hpsne hcomp
      have hlast : q.getLast? = some c := by
        conv_lhs => rw [hq2]
        cases ps with
        | nil => exact absurd rfl hpsne
        | cons p0 ps0 =>
          rw [List.getLast?_append_of_ne_nil _
            (joinSlash_cons_ne_nil (hcomp p0 (List.mem_cons_self p0 ps0)).1 ps0)]
          exact hc1
      rw [if_neg (by rw [hlast]; simp [hc2])]
      rw [← hsx]
      exact List.take_append_drop _ q
    · subst hT
      have hq2 : q = q.take (getRootLength q) ++ (joinSlash ps ++ ['/']) := by
        rw [← hsx]
        exact (List.take_append_drop _ q).symm
      have hlast : q.getLast? = some '/' := by
        conv_lhs => rw [hq2]
        rw [← List.append_assoc, List.getLast?_concat]
      rw [if_pos hlast, List.append_assoc, ← hsx]
      exact List.take_append_drop _ q

end VPath

namespace VPath

/-- The output of `normalize` contains no backslashes. -/
theorem normalize_no_bs (p : Str) : ∀ c ∈ normalize p, c ≠ '\\' := by
  have hroot : ∀ d ∈ (normalizeSlashes p).take (getRootLength (normalizeSlashes p)),
      d ≠ '\\' :=
    fun d hd => normalizeSlashes_no_bs p d (List.take_subset _ _ hd)
  have hjoin : ∀ d ∈ joinSlash (getNormalizedParts (normalizeSlashes p)
      (getRootLength (normalizeSlashes p))), d ≠ '\\' := by
    intro d hd
    rcases joinSlash_chars _ d hd with hd2 | ⟨x, hx, hdx⟩
    · subst hd2; decide
    · rcases normPartsAux_mem _ _ x hx with hx2 | hx2
      · cases hx2
      · exact normalizeSlashes_no_bs p d
          (List.drop_subset _ _ (splitSlash_pieces_chars _ x hx2 d hdx))
  intro c hc
  rw [normalize_eq p] at hc
  split at hc
  · split at hc
    · rcases List.mem_append.mp hc with hc2 | hc2
      · rcases List.mem_append.mp hc2 with hc3 | hc3
        · exact hroot c hc3
        · exact hjoin c hc3
      · have : c = '/' := by simpa using hc2
        subst this
        decide
    · rcases List.mem_append.mp hc with hc2 | hc2
      · exact hroot c hc2
      · exact hjoin c hc2
  · exact hroot c hc

end VPath

namespace VPath

theorem take_seg {s u : Str} : (s ++ '/' :: u).take (s.length + 1) = s ++ ['/'] := by
  have h : s ++ '/' :: u = (s ++ ['/']) ++ u := by simp
  rw [h]
  exact List.take_left' (by simp)

theorem drop_seg {s u : Str} : (s ++ '/' :: u).drop (s.length + 1) = u := by
  have h : s ++ '/' :: u = (s ++ ['/']) ++ u := by simp
  rw [h]
  exact List.drop_left' (by simp)

/-- A normal-form suffix does not start with a slash. -/
theorem suffixNF_head {S : Str} (h : suffixNF S) : S.head? ≠ some '/' := by
  rcases h with h | ⟨ps, T, hdd, hne, hT, hS⟩
  · subst h; simp
  · cases ps with
    | nil => exact absurd rfl hne
    | cons p1 ps' =>
      obtain ⟨hp1ne, hp1ns⟩ := ddShape_comp hdd p1 (List.mem_cons_self p1 ps')
      rw [hS, joinSlash_cons_append_head hp1ne]
      cases p1 with
      | nil => exact absurd rfl hp1ne
      | cons c cs =>
        simp only [List.head?_cons, ne_eq, Option.some.injEq]
        exact hp1ns c (List.mem_cons_self c cs)

/-- One step of the lazy fragment over a normal-form suffix: either no match,
or a match whose remainder is again a normal-form suffix. -/
theorem suffixNF_step {S : Str} (h : suffixNF S) :
    lazyDotSlash S = none ∨
      ∃ i, lazyDotSlash S = some i ∧ suffixNF (S.drop i) := by
  rcases h with h | ⟨ps, T, hdd, hne, hT, hS⟩
  · subst h
    left
    rfl
  · cases ps with
    | nil => exact absurd rfl hne
    | cons p1 ps' =>
      obtain ⟨hp1ne, hp1ns⟩ := ddShape_comp hdd p1 (List.mem_cons_self p1 ps')
      subst hS
      rcases lazyDotSlash_join_cases p1 ps' T hp1ns hT with
        ⟨_, hnone⟩ | ⟨_, _, _, hnone⟩ | ⟨R, hRS, hsome, hR⟩
      · left; exact hnone
      · left; exact hnone
      · right
        refine ⟨p1.length + 1, hsome, ?_⟩
        rw [hRS, drop_seg]
        rcases hR with ⟨hps'ne, hR⟩ | ⟨_, _, hR⟩
        · subst hR
          exact Or.inr ⟨ps', T, ddShape_tail hdd, hps'ne, hT, rfl⟩
        · subst hR
          exact Or.inl rfl

/-- The double lazy fragment of the slash root over a normal-form suffix:
termination point and normal-form remainder. -/
theorem suffixNF_dbl {S : Str} (h : suffixNF S) :
    ∃ M, slashRoot ('/' :: '/' :: S) = 2 + M ∧ suffixNF (S.drop M) := by
  rcases suffixNF_step h with h0 | ⟨i, hi, hrest⟩
  · exact ⟨0, slashRoot_double_none h0, by rw [List.drop_zero]; exact h⟩
  · rcases suffixNF_step hrest with h0 | ⟨j, hj, hrest2⟩
    · exact ⟨i, slashRoot_double_one hi h0, hrest⟩
    · refine ⟨i + j, slashRoot_double_two hi hj, ?_⟩
      rw [← List.drop_drop]
      exact hrest2

/-- Case split mirroring the alternation order of `getRootLength`. -/
theorem getRootLength_cases (p : Str) :
    (∃ x, p = '/' :: x) ∨
    (∃ c rest, p = c :: ':' :: rest ∧ isAsciiLetter c = true ∧
      getRootLength p = 2 + (if rest.head? = some '/' then 1 else 0)) ∨
    (getRootLength p = schemeRoot p ∧ p.head? ≠ some '/' ∧
      ∀ c rest, p = c :: ':' :: rest → isAsciiLetter c = false) := by
  cases p with
  | nil =>
    right; right
    exact ⟨rfl, by simp, fun c rest h => by cases h⟩
  | cons a t =>
    by_cases ha : a = '/'
    · subst ha
      exact Or.inl ⟨t, rfl⟩
    · cases t with
      | nil =>
        right; right
        refine ⟨getRootLength_eq_scheme ha ?_, by simpa using ha, ?_⟩
        · intro c rest h
          cases List.tail_eq_of_cons_eq h
        · intro c rest h
          cases List.tail_eq_of_cons_eq h
      | cons b t2 =>
        by_cases hb : b = ':'
        · subst hb
          by_cases hl : isAsciiLetter a
          · exact Or.inr (Or.inl ⟨a, t2, rfl, hl, getRootLength_drive hl⟩)
          · right; right
            have hlf : isAsciiLetter a = false := by
              cases hv : isAsciiLetter a with
              | true => exact absurd hv hl
              | false => rfl
            refine ⟨getRootLength_eq_scheme ha ?_, by simpa using ha, ?_⟩
            · intro c rest h
              rw [← List.head_eq_of_cons_eq h]
              exact hlf
            · intro c rest h
              rw [← List.head_eq_of_cons_eq h]
              exact hlf
        · right; right
          refine ⟨getRootLength_eq_scheme ha ?_, by simpa using ha, ?_⟩
          · intro c rest h
            exact absurd (List.head_eq_of_cons_eq (List.tail_eq_of_cons_eq h)) hb
          · intro c rest h
            exact absurd (List.head_eq_of_cons_eq (List.tail_eq_of_cons_eq h)) hb

end VPath

namespace VPath

theorem take_append_add (l1 l2 : Str) (n : Nat) :
    (l1 ++ l2).take (l1.length + n) = l1 ++ l2.take n := by
  induction l1 with
  | nil => simp
  | cons a as ih =>
    show (a :: (as ++ l2)).take (as.length + 1 + n) = a :: (as ++ l2.take n)
    have h : as.length + 1 + n = (as.length + n) + 1 := by omega
    rw [h, List.take_succ_cons, ih]

theorem drop_append_add (l1 l2 : Str) (n : Nat) :
    (l1 ++ l2).drop (l1.length + n) = l2.drop n := by
  induction l1 with
  | nil => simp
  | cons a as ih =>
    show (a :: (as ++ l2)).drop (as.length + 1 + n) = l2.drop n
    have h : as.length + 1 + n = (as.length + n) + 1 := by omega
    rw [h, List.drop_succ_cons, ih]

theorem take_seg_add {s u : Str} (n : Nat) :
    (s ++ '/' :: u).take (s.length + 1 + n) = s ++ '/' :: u.take n := by
  have h : s ++ '/' :: u = (s ++ ['/']) ++ u := by simp
  rw [h]
  have hl : s.length + 1 + n = (s ++ ['/']).length + n := by simp
  rw [hl, take_append_add]
  simp

theorem drop_seg_add {s u : Str} (n : Nat) :
    (s ++ '/' :: u).drop (s.length + 1 + n) = u.drop n := by
  have h : s ++ '/' :: u = (s ++ ['/']) ++ u := by simp
  rw [h]
  have hl : s.length + 1 + n = (s ++ ['/']).length + n := by simp
  rw [hl, drop_append_add]

end VPath

namespace VPath

theorem normalize_nf {p : Str} (hr : getRootLength (normalizeSlashes p) ≠ 0) :
    suffixNF ((normalize p).drop (getRootLength (normalize p))) := by
  have hdd : ddShape (getNormalizedParts (normalizeSlashes p)
      (getRootLength (normalizeSlashes p))) := by
    obtain ⟨k, cs, hshape, hcsgood⟩ :=
      normPartsAux_shape _ (splitSlash_pieces_noSlash
        ((normalizeSlashes p).drop (getRootLength (normalizeSlashes p)))) [] []
        (fun x hx => absurd hx (List.not_mem_nil x))
        (fun x hx => absurd hx (List.not_mem_nil x))
    exact ⟨k, cs, hshape, hcsgood⟩
  obtain ⟨S, hS, hq, hnil⟩ : ∃ S, suffixNF S ∧
      normalize p = (normalizeSlashes p).take (getRootLength (normalizeSlashes p)) ++ S ∧
      ((normalizeSlashes p).drop (getRootLength (normalizeSlashes p)) = [] → S = []) := by
    by_cases hp0 : getNormalizedParts (normalizeSlashes p)
        (getRootLength (normalizeSlashes p)) = []
    · refine ⟨[], Or.inl rfl, ?_, fun _ => rfl⟩
      rw [normalize_eq p, hp0, if_neg (by decide), List.append_nil]
    · have hpe : (!(getNormalizedParts (normalizeSlashes p)
          (getRootLength (normalizeSlashes p))).isEmpty) = true := by
        cases hgp : getNormalizedParts (normalizeSlashes p)
            (getRootLength (normalizeSlashes p)) with
        | nil => exact absurd hgp hp0
        | cons a l => rfl
      have hnil2 : (normalizeSlashes p).drop (getRootLength (normalizeSlashes p)) = [] →
          False := by
        intro hdrop
        apply hp0
        unfold getNormalizedParts
        rw [hdrop]
        rfl
      by_cases hl : (normalizeSlashes p).getLast? = some '/'
      · refine ⟨joinSlash (getNormalizedParts (normalizeSlashes p)
            (getRootLength (normalizeSlashes p))) ++ ['/'],
          Or.inr ⟨_, ['/'], hdd, hp0, Or.inr rfl, rfl⟩, ?_,
          fun hdrop => False.elim (hnil2 hdrop)⟩
        rw [normalize_eq p, if_pos hpe, if_pos hl, List.append_assoc]
      · refine ⟨joinSlash (getNormalizedParts (normalizeSlashes p)
            (getRootLength (normalizeSlashes p))),
          Or.inr ⟨_, [], hdd, hp0, Or.inl rfl, by rw [List.append_nil]⟩, ?_,
          fun hdrop => False.elim (hnil2 hdrop)⟩
        rw [normalize_eq p, if_pos hpe, if_neg hl]
  rw [hq]
  rcases getRootLength_cases (normalizeSlashes p) with ⟨x, hx⟩ |
    ⟨c, rest, hpe, hlet, hrl⟩ | ⟨hrl, hh, hnd⟩
  · -- slash-headed
    cases x with
    | nil =>
      rw [hx]
      show suffixNF (('/' :: S).drop (getRootLength ('/' :: S)))
      rw [getRootLength_slash, slashRoot_not_double (suffixNF_head hS)]
      exact hS
    | cons x0 xs =>
      by_cases hx0 : x0 = '/'
      · subst hx0
        rw [hx]
        cases hi : lazyDotSlash xs with
        | none =>
          have hr2 : getRootLength ('/' :: '/' :: xs) = 2 := by
            rw [getRootLength_slash]
            exact slashRoot_double_none hi
          rw [hr2]
          show suffixNF (('/' :: '/' :: S).drop (getRootLength ('/' :: '/' :: S)))
          rw [getRootLength_slash]
          obtain ⟨M, hM, hMS⟩ := suffixNF_dbl hS
          rw [hM]
          have hdq : (('/' :: '/' :: S) : Str).drop (2 + M) = S.drop M := by
            rw [Nat.add_comm, List.drop_succ_cons, List.drop_succ_cons]
          rw [hdq]
          exact hMS
        | some i =>
          obtain ⟨s1, hseg1, hilen, hxs⟩ := lazyDotSlash_inv hi
          cases hj : lazyDotSlash (xs.drop i) with
          | none =>
            have hr2 : getRootLength ('/' :: '/' :: xs) = 2 + i := by
              rw [getRootLength_slash]
              exact slashRoot_double_one hi hj
            rw [hr2]
            have htake : (('/' :: '/' :: xs) : Str).take (2 + i) = '/' :: '/' :: (s1 ++ ['/']) := by
              rw [Nat.add_comm, List.take_succ_cons, List.take_succ_cons]
              conv_lhs => rw [hxs]
              rw [hilen, take_seg]
            rw [htake]
            have hq2 : (('/' :: '/' :: (s1 ++ ['/'])) : Str) ++ S
                = '/' :: '/' :: (s1 ++ '/' :: S) := by simp
            rw [hq2, getRootLength_slash]
            have hlazy1 : lazyDotSlash (s1 ++ '/' :: S) = some i := by
              rw [lazyDotSlash_seg_slash hseg1, ← hilen]
            have hdropX : (s1 ++ '/' :: S).drop i = S := by
              rw [hilen]
              exact drop_seg
            rcases suffixNF_step hS with h0 | ⟨i2, hi2, hrest⟩
            · rw [slashRoot_double_one hlazy1 (by rw [hdropX]; exact h0)]
              have hdq : (('/' :: '/' :: (s1 ++ '/' :: S)) : Str).drop (2 + i) = S := by
                rw [Nat.add_comm, List.drop_succ_cons, List.drop_succ_cons, hdropX]
              rw [hdq]
              exact hS
            · rw [slashRoot_double_two hlazy1 (by rw [hdropX]; exact hi2)]
              have hdq : (('/' :: '/' :: (s1 ++ '/' :: S)) : Str).drop (2 + (i + i2))
                  = S.drop i2 := by
                rw [Nat.add_comm, List.drop_succ_cons, List.drop_succ_cons,
                  ← List.drop_drop, hdropX]
              rw [hdq]
              exact hrest
          | some j =>
            obtain ⟨s2, hseg2, hjlen, hu⟩ := lazyDotSlash_inv hj
            have hr2 : getRootLength ('/' :: '/' :: xs) = 2 + (i + j) := by
              rw [getRootLength_slash]
              exact slashRoot_double_two hi hj
            rw [hr2]
            have htake : (('/' :: '/' :: xs) : Str).take (2 + (i + j))
                = '/' :: '/' :: (s1 ++ '/' :: (s2 ++ ['/'])) := by
              rw [Nat.add_comm, List.take_succ_cons, List.take_succ_cons]
              conv_lhs => rw [hxs]
              rw [hilen] at hu
              rw [hilen, take_seg_add]
              conv_lhs => rw [hu]
              rw [hjlen, take_seg]
            rw [htake]
            have hq2 : (('/' :: '/' :: (s1 ++ '/' :: (s2 ++ ['/']))) : Str) ++ S
                = '/' :: '/' :: (s1 ++ '/' :: (s2 ++ '/' :: S)) := by simp
            rw [hq2, getRootLength_slash]
            have hlazy1 : lazyDotSlash (s1 ++ '/' :: (s2 ++ '/' :: S)) = some i := by
              rw [lazyDotSlash_seg_slash hseg1, ← hilen]
            have hdrop1 : (s1 ++ '/' :: (s2 ++ '/' :: S)).drop i = s2 ++ '/' :: S := by
              rw [hilen]
              exact drop_seg
            have hlazy2 : lazyDotSlash ((s1 ++ '/' :: (s2 ++ '/' :: S)).drop i) = some j := by
              rw [hdrop1, lazyDotSlash_seg_slash hseg2, ← hjlen]
            rw [slashRoot_double_two hlazy1 hlazy2]
            have hdq : (('/' :: '/' :: (s1 ++ '/' :: (s2 ++ '/' :: S))) : Str).drop (2 + (i + j))
                = S := by
              rw [Nat.add_comm, List.drop_succ_cons, List.drop_succ_cons, hilen,
                drop_seg_add, hjlen, drop_seg]
            rw [hdq]
            exact hS
      · rw [hx]
        have hr1 : getRootLength ('/' :: x0 :: xs) = 1 := by
          rw [getRootLength_slash]
          exact slashRoot_not_double (by simpa using hx0)
        rw [hr1]
        show suffixNF (('/' :: S).drop (getRootLength ('/' :: S)))
        rw [getRootLength_slash, slashRoot_not_double (suffixNF_head hS)]
        exact hS
  · -- drive letter
    by_cases hrh : rest.head? = some '/'
    · rw [hpe]
      have hr3 : getRootLength (c :: ':' :: rest) = 3 := by
        rw [getRootLength_drive hlet, if_pos hrh]
      rw [hr3]
      cases rest with
      | nil => simp at hrh
      | cons r0 rs =>
        have hr0 : r0 = '/' := by simpa using hrh
        subst hr0
        show suffixNF ((c :: ':' :: '/' :: S).drop (getRootLength (c :: ':' :: '/' :: S)))
        rw [getRootLength_drive hlet,
          if_pos (show (('/' :: S) : Str).head? = some '/' from rfl)]
        show suffixNF S
        exact hS
    · rw [hpe]
      have hr2 : getRootLength (c :: ':' :: rest) = 2 := by
        rw [getRootLength_drive hlet, if_neg hrh]
      rw [hr2]
      show suffixNF ((c :: ':' :: S).drop (getRootLength (c :: ':' :: S)))
      rw [getRootLength_drive hlet, if_neg (suffixNF_head hS)]
      show suffixNF S
      exact hS
  · -- scheme
    have hsr : schemeRoot (normalizeSlashes p) ≠ 0 := by
      rw [← hrl]
      exact hr
    obtain ⟨rest, hwne, hdropw, hval⟩ := schemeRoot_inv hsr
    have hwsat0 : ∀ d ∈ (normalizeSlashes p).takeWhile isWordChar, isWordChar d = true :=
      fun d hd => mem_takeWhile_sat d hd
    have hwtake : (normalizeSlashes p).take
        ((normalizeSlashes p).takeWhile isWordChar).length
        = (normalizeSlashes p).takeWhile isWordChar :=
      (List.prefix_iff_eq_take.mp (List.takeWhile_prefix _)).symm
    have hp2 : normalizeSlashes p
        = (normalizeSlashes p).takeWhile isWordChar ++ ':' :: '/' :: '/' :: rest := by
      conv_lhs => rw [← List.take_append_drop
        ((normalizeSlashes p).takeWhile isWordChar).length (normalizeSlashes p)]
      rw [hdropw, hwtake]
    have hrdrop : rest.drop (rest.takeWhile (· ≠ '/')).length = rest.dropWhile (· ≠ '/') :=
      drop_takeWhile_length _ rest
    have hh1sat0 : ∀ d ∈ rest.takeWhile (· ≠ '/'), (fun c => decide (c ≠ '/')) d = true :=
      fun d hd => mem_takeWhile_sat d hd
    obtain ⟨w, hwdef⟩ : ∃ w, (normalizeSlashes p).takeWhile isWordChar = w := ⟨_, rfl⟩
    rw [hwdef] at hwne hval hp2 hwsat0
    obtain ⟨h1, h1def⟩ : ∃ h1, rest.takeWhile (· ≠ '/') = h1 := ⟨_, rfl⟩
    rw [h1def] at hval hrdrop hh1sat0
    rcases dropWhile_head_false (· ≠ '/') rest with hdw | ⟨c0, z, hdw, hc0⟩
    · -- the match consumes the entire string: drop is empty
      have htw_all : h1 = rest := by
        conv_rhs => rw [← List.takeWhile_append_dropWhile (· ≠ '/') rest]
        rw [h1def, hdw, List.append_nil]
      have hext : (rest.drop h1.length).isEmpty = true := by
        rw [hrdrop, hdw]
        rfl
      have hrfull : getRootLength (normalizeSlashes p) = (normalizeSlashes p).length := by
        rw [hrl, hval, if_pos hext]
        conv_rhs => rw [hp2]
        rw [htw_all]
        simp only [List.length_append, List.length_cons]
        omega
      have hS0 : S = [] := hnil (by rw [hrfull]; exact List.drop_length _)
      subst hS0
      rw [List.append_nil, hrfull, List.take_length, hrfull, List.drop_length]
      exact Or.inl rfl
    · -- a slash follows the host
      have hc0s : c0 = '/' := by simpa using hc0
      subst hc0s
      have hrest2 : rest = h1 ++ '/' :: z := by
        conv_lhs => rw [← List.takeWhile_append_dropWhile (· ≠ '/') rest]
        rw [h1def, hdw]
      have hext : (rest.drop h1.length).isEmpty = false := by
        rw [hrdrop, hdw]
        rfl
      have hrlen : getRootLength (normalizeSlashes p) = w.length + 3 + h1.length + 1 := by
        rw [hrl, hval, if_neg (by rw [hext]; exact Bool.false_ne_true)]
      have hkey : normalizeSlashes p = (w ++ ':' :: '/' :: '/' :: (h1 ++ ['/'])) ++ z := by
        rw [hp2, hrest2]
        simp
      rw [hrlen, hkey]
      have hroot : ((w ++ ':' :: '/' :: '/' :: (h1 ++ ['/'])) ++ z).take
          (w.length + 3 + h1.length + 1) = w ++ ':' :: '/' :: '/' :: (h1 ++ ['/']) :=
        List.take_left' (by
          simp only [List.length_append, List.length_cons, List.length_nil]
          omega)
      rw [hroot]
      have hq2 : (w ++ ':' :: '/' :: '/' :: (h1 ++ ['/'])) ++ S
          = w ++ ':' :: '/' :: '/' :: (h1 ++ '/' :: S) := by simp
      rw [hq2]
      obtain ⟨w0, w1, htw⟩ : ∃ w0 w1, w = w0 :: w1 := by
        cases w with
        | nil => exact absurd rfl hwne
        | cons a b => exact ⟨a, b, rfl⟩
      have hw0 : isWordChar w0 = true :=
        hwsat0 w0 (by rw [htw]; exact List.mem_cons_self w0 w1)
      have hw1sat : ∀ d ∈ w1, isWordChar d = true := fun d hd =>
        hwsat0 d (by rw [htw]; exact List.mem_cons_of_mem w0 hd)
      have hgr : getRootLength (w ++ ':' :: '/' :: '/' :: (h1 ++ '/' :: S))
          = schemeRoot (w ++ ':' :: '/' :: '/' :: (h1 ++ '/' :: S)) := by
        rw [htw]
        cases w1 with
        | nil =>
          have hlf : isAsciiLetter w0 = false := by
            apply hnd w0 ('/' :: '/' :: rest)
            rw [hp2, htw]
            rfl
          exact getRootLength_eq_scheme (wordChar_ne_slash hw0)
            (fun c2 rest2 he => by rw [← List.head_eq_of_cons_eq he]; exact hlf)
        | cons ww w2 =>
          exact getRootLength_eq_scheme (wordChar_ne_slash hw0)
            (fun c2 rest2 he =>
              absurd (List.head_eq_of_cons_eq (List.tail_eq_of_cons_eq he))
                (wordChar_ne_colon (hw1sat ww (List.mem_cons_self ww w2))))
      rw [hgr]
      have hqtw : ((w ++ ':' :: '/' :: '/' :: (h1 ++ '/' :: S))).takeWhile isWordChar = w :=
        takeWhile_all_append hwsat0 (by decide) _
      have hsrq : schemeRoot (w ++ ':' :: '/' :: '/' :: (h1 ++ '/' :: S))
          = w.length + 3 + h1.length + 1 := by
        rw [schemeRoot_eq, hqtw]
        rw [if_neg (by simpa [List.isEmpty_iff] using hwne)]
        rw [List.drop_left]
        show w.length + 3 + ((h1 ++ '/' :: S).takeWhile (· ≠ '/')).length +
          (if ((h1 ++ '/' :: S).drop
              ((h1 ++ '/' :: S).takeWhile (· ≠ '/')).length).isEmpty then 0 else 1)
          = w.length + 3 + h1.length + 1
        rw [takeWhile_all_append hh1sat0 (by decide) S]
        rw [List.drop_left]
        rfl
      rw [hsrq]
      have hdq : (w ++ ':' :: '/' :: '/' :: (h1 ++ '/' :: S)).drop
          (w.length + 3 + h1.length + 1) = S := by
        rw [show w ++ ':' :: '/' :: '/' :: (h1 ++ '/' :: S)
            = (w ++ ':' :: '/' :: '/' :: (h1 ++ ['/'])) ++ S from by simp]
        exact List.drop_left' (by
          simp only [List.length_append, List.length_cons, List.length_nil]
          omega)
      rw [hdq]
      exact hS

end VPath

namespace Thm

open VPath

/-- C9: for every absolute path `p` — one whose recognized root prefix after
separator normalization has nonzero length — `normalize` is idempotent:
`normalize (normalize p) = normalize p`. -/
theorem c9_normalize_idempotent_on_absolute (p : Str)
    (h : getRootLength (normalizeSlashes p) ≠ 0) :
    normalize (normalize p) = normalize p :=
  normalize_fix (normalizeSlashes_eq_self (normalize_no_bs p)) (normalize_nf h)

/-- Witness: the idempotence theorem applied at the concrete absolute path
`/a/../b//c`. -/
theorem c9_witness :
    getRootLength (normalizeSlashes (str "/a/../b//c")) ≠ 0 ∧
    normalize (normalize (str "/a/../b//c")) = normalize (str "/a/../b//c") :=
  ⟨by decide, c9_normalize_idempotent_on_absolute _ (by decide)⟩

end Thm

namespace VFS

open VPath

/-- `materialize` on a materialized directory returns its entries without
touching the state. -/
theorem materialize_some {st : State} {d : Nat} {n : Node} {l : List Nat}
    {rv : Option Resolver} {sv : Option Nat} (fuel : Nat)
    (hd : st.heap[d]? = some n) (hnd : n.data = .dir (some l) rv sv) :
    materialize (fuel + 1) st d = .ok st l := by
  obtain ⟨nm, par, fsi, ro, data⟩ := n
  simp only at hnd
  subst hnd
  unfold materialize
  rw [hd]

/-- Inversion: on a materialized, symlink-free heap a successful
`materialize` left the state unchanged and returned the stored entries. -/
theorem materialize_mat_ok {st st1 : State} {d : Nat} {l : List Nat} {fuel : Nat}
    (hm : Materialized st) (hlf : LinkFree st)
    (h : materialize fuel st d = .ok st1 l) :
    st1 = st ∧ ∃ n rv sv, st.heap[d]? = some n ∧ n.data = .dir (some l) rv sv := by
  cases fuel with
  | zero => exact Res.noConfusion h
  | succ fuel =>
    cases hd : st.heap[d]? with
    | none =>
      unfold materialize at h
      rw [hd] at h
      exact Res.noConfusion h
    | some n =>
      obtain ⟨nm, par, fsi, ro, data⟩ := n
      cases data with
      | dir es rv sv =>
        cases es with
        | some l2 =>
          unfold materialize at h
          rw [hd] at h
          obtain ⟨h1, h2⟩ := Res.ok.inj h
          subst h1
          subst h2
          exact ⟨rfl,
            { name := nm, parent := par, fileSystem := fsi, readOnly := ro,
              data := .dir (some l2) rv sv }, rv, sv, rfl, rfl⟩
        | none =>
          have := hm _ (mem_of_getElem? hd)
          simp [nodeMaterialized] at this
      | dirLink es t =>
        have := hlf _ (mem_of_getElem? hd)
        simp [nodeIsLink] at this
      | fileLink t =>
        have := hlf _ (mem_of_getElem? hd)
        simp [nodeIsLink] at this
      | file c r s =>
        unfold materialize at h
        rw [hd] at h
        exact Res.noConfusion h
      | fsRoot a b c =>
        unfold materialize at h
        rw [hd] at h
        exact Res.noConfusion h

/-- Inversion of a successful `lookupEntry` on a materialized symlink-free
heap: the state is unchanged and the result is the first matching child. -/
theorem lookupEntry_mat_ok {st st1 : State} {d : Nat} {name : Str} {e? : Option Nat}
    {fuel : Nat} (hm : Materialized st) (hlf : LinkFree st)
    (h : lookupEntry fuel st d name = .ok st1 e?) :
    st1 = st ∧ ∃ flag n l rv sv, caseFlagOf st d = some flag ∧
      st.heap[d]? = some n ∧ n.data = .dir (some l) rv sv ∧
      e? = l.find? (fun e => match st.heap[e]? with
        | some ne => sameNameW flag ne.name name
        | none => false) := by
  unfold lookupEntry at h
  cases hflag : caseFlagOf st d with
  | none =>
    rw [hflag] at h
    exact Res.noConfusion h
  | some flag =>
    rw [hflag] at h
    cases hmat : materialize fuel st d with
    | ok stx lx =>
      rw [hmat] at h
      obtain ⟨hst, n, rv, sv, hd, hnd⟩ := materialize_mat_ok hm hlf hmat
      subst hst
      obtain ⟨h1, h2⟩ := Res.ok.inj h
      exact ⟨h1.symm, flag, n, lx, rv, sv, rfl, hd, hnd, h2.symm⟩
    | frozen => rw [hmat] at h; exact Res.noConfusion h
    | stuck => rw [hmat] at h; exact Res.noConfusion h
    | outOfFuel => rw [hmat] at h; exact Res.noConfusion h

/-- Direct evaluation of `lookupEntry` on a materialized directory. -/
theorem lookupEntry_compute {st : State} {d : Nat} {n : Node} {l : List Nat}
    {rv : Option Resolver} {sv : Option Nat} {flag : Bool} (fuel : Nat) (name : Str)
    (hflag : caseFlagOf st d = some flag)
    (hd : st.heap[d]? = some n) (hnd : n.data = .dir (some l) rv sv) :
    lookupEntry (fuel + 1) st d name = .ok st (l.find? (fun e =>
      match st.heap[e]? with
      | some ne => sameNameW flag ne.name name
      | none => false)) := by
  unfold lookupEntry
  rw [hflag, materialize_some fuel hd hnd]

/-- `sameName` is reflexive. -/
theorem sameNameW_refl (flag : Bool) (a : Str) : sameNameW flag a a = true := by
  unfold sameNameW compareStrings
  simp

/-- `find?` only depends on the pointwise values of its predicate. -/
theorem find?_congr {α : Type} {p q : α → Bool} : ∀ {l : List α},
    (∀ x ∈ l, p x = q x) → l.find? p = l.find? q := by
  intro l
  induction l with
  | nil => intro _; rfl
  | cons a as ih =>
    intro h
    rw [List.find?_cons, List.find?_cons, h a (List.mem_cons_self a as),
      ih (fun x hx => h x (List.mem_cons_of_mem a hx))]

/-- Reading an untouched node after an allocation plus one `setNode`. -/
theorem getElem_allocSet_old {st : State} {nf n2 : Node} {dt i : Nat}
    (hi : i < st.heap.length) (hne : i ≠ dt) :
    (setNode (alloc st nf).1 dt n2).heap[i]? = st.heap[i]? := by
  rw [show (setNode (alloc st nf).1 dt n2).heap[i]? = (alloc st nf).1.heap[i]? from
    getElem_setNode_ne _ dt i n2 (fun hc => hne hc.symm)]
  rw [getElem_alloc, if_pos hi]

/-- Reading the updated node. -/
theorem getElem_allocSet_dt {st : State} {nf n2 : Node} {dt : Nat}
    (hdt : dt < st.heap.length) :
    (setNode (alloc st nf).1 dt n2).heap[dt]? = some n2 := by
  apply List.getElem?_set_self
  show dt < (st.heap ++ [nf]).length
  rw [List.length_append]
  omega

/-- Reading the freshly allocated node. -/
theorem getElem_allocSet_new {st : State} {nf n2 : Node} {dt : Nat}
    (hdt : dt < st.heap.length) :
    (setNode (alloc st nf).1 dt n2).heap[st.heap.length]? = some nf := by
  rw [show (setNode (alloc st nf).1 dt n2).heap[st.heap.length]?
      = (alloc st nf).1.heap[st.heap.length]? from
    getElem_setNode_ne _ dt st.heap.length n2 (by omega)]
  rw [getElem_alloc, if_neg (by omega), if_pos rfl]

/-- Reading past the new length. -/
theorem getElem_allocSet_none {st : State} {nf n2 : Node} {dt i : Nat}
    (hi : st.heap.length < i) :
    (setNode (alloc st nf).1 dt n2).heap[i]? = none := by
  apply List.getElem?_eq_none
  rw [length_setNode]
  show (st.heap ++ [nf]).length ≤ i
  rw [List.length_append]
  simp only [List.length_cons, List.length_nil]
  omega

/-- Appending a child to a directory and allocating one node does not change
the case-sensitivity flag seen by any pre-existing node. -/
theorem caseFlagOf_stable {st : State} {nf nd : Node} {dt : Nat} {l2 : List Nat}
    {rv : Option Resolver} {sv : Option Nat} {fid : Nat}
    (hd : st.heap[dt]? = some nd) (hnd : nd.data = .dir (some l2) rv sv)
    (hnf : ∀ a b c, nf.data ≠ .fsRoot a b c)
    {r : Nat} (hr : r < st.heap.length) :
    caseFlagOf (setNode (alloc st nf).1 dt
        { nd with data := .dir (some (l2 ++ [fid])) rv sv }) r
      = caseFlagOf st r := by
  have hdt_lt : dt < st.heap.length := (List.getElem?_eq_some.mp hd).1
  obtain ⟨nm, par, fsi, ro, data⟩ := nd
  simp only at hnd
  subst hnd
  have hinner : ∀ f : Nat,
      (match (setNode (alloc st nf).1 dt
          { name := nm, parent := par, fileSystem := fsi, readOnly := ro,
            data := .dir (some (l2 ++ [fid])) rv sv }).heap[f]? with
        | some m =>
          (match m.data with
          | .fsRoot _ cs _ => some cs
          | _ => none : Option Bool)
        | none => none)
      = (match st.heap[f]? with
        | some m =>
          (match m.data with
          | .fsRoot _ cs _ => some cs
          | _ => none : Option Bool)
        | none => (none : Option Bool)) := by
    intro f
    rcases Nat.lt_trichotomy f st.heap.length with hf | hf | hf
    · by_cases hfd : f = dt
      · subst hfd
        rw [getElem_allocSet_dt hdt_lt, hd]
      · rw [getElem_allocSet_old hf hfd]
    · subst hf
      rw [getElem_allocSet_new hdt_lt, List.getElem?_eq_none (Nat.le_refl _)]
      show (match nf.data with
        | NodeData.fsRoot _ cs _ => some cs
        | _ => none) = none
      cases hnf2 : nf.data with
      | fsRoot a b c => exact absurd hnf2 (hnf a b c)
      | dir a b c => rfl
      | dirLink a b => rfl
      | file a b c => rfl
      | fileLink a => rfl
    · rw [getElem_allocSet_none hf, List.getElem?_eq_none (by omega)]
  unfold caseFlagOf
  by_cases hrd : r = dt
  · subst hrd
    rw [getElem_allocSet_dt hdt_lt, hd]
    exact hinner fsi
  · rw [getElem_allocSet_old hr hrd]
    cases hrn : st.heap[r]? with
    | none => rfl
    | some m => exact hinner m.fileSystem

/-- Children of an ordered directory are in range and above it. -/
theorem hho_entry {st : State} {r : Nat} {n : Node} {lr : List Nat}
    {rv : Option Resolver} {sv : Option Nat} (hho : HeapOrdered st)
    (hr : r < st.heap.length) (hn : st.heap[r]? = some n)
    (hnd : n.data = .dir (some lr) rv sv) :
    ∀ x ∈ lr, r < x ∧ x < st.heap.length := by
  intro x hx
  obtain ⟨nm, par, fsi, ro, data⟩ := n
  simp only at hnd
  subst hnd
  have h0 := hho r hr
  unfold heapOrderedAt at h0
  rw [hn] at h0
  have h1 : (lr.all fun c => decide (r < c) && decide (c < st.heap.length)) = true := h0
  rw [List.all_eq_true] at h1
  have h2 := h1 x hx
  simp only [Bool.and_eq_true, decide_eq_true_eq] at h2
  exact h2

/-- Kind checks of pre-existing nodes survive the child append. -/
theorem isDirInstance_stable {st : State} {nf nd : Node} {dt : Nat} {l2 : List Nat}
    {rv : Option Resolver} {sv : Option Nat} {fid : Nat}
    (hd : st.heap[dt]? = some nd) (hnd : nd.data = .dir (some l2) rv sv)
    {i : Nat} (hi : i < st.heap.length) :
    isDirInstance (setNode (alloc st nf).1 dt
      { nd with data := .dir (some (l2 ++ [fid])) rv sv }) i = isDirInstance st i := by
  have hdt_lt : dt < st.heap.length := (List.getElem?_eq_some.mp hd).1
  obtain ⟨nm, par, fsi, ro, data⟩ := nd
  simp only at hnd
  subst hnd
  unfold isDirInstance
  by_cases hid : i = dt
  · subst hid
    rw [getElem_allocSet_dt hdt_lt, hd]
  · rw [getElem_allocSet_old hi hid]

theorem isFileInstance_stable {st : State} {nf nd : Node} {dt : Nat} {l2 : List Nat}
    {rv : Option Resolver} {sv : Option Nat} {fid : Nat}
    (hd : st.heap[dt]? = some nd) (hnd : nd.data = .dir (some l2) rv sv)
    {i : Nat} (hi : i < st.heap.length) :
    isFileInstance (setNode (alloc st nf).1 dt
      { nd with data := .dir (some (l2 ++ [fid])) rv sv }) i = isFileInstance st i := by
  have hdt_lt : dt < st.heap.length := (List.getElem?_eq_some.mp hd).1
  obtain ⟨nm, par, fsi, ro, data⟩ := nd
  simp only at hnd
  subst hnd
  unfold isFileInstance
  by_cases hid : i = dt
  · subst hid
    rw [getElem_allocSet_dt hdt_lt, hd]
  · rw [getElem_allocSet_old hi hid]

/-- The name-match predicate of a lookup is unchanged on pre-existing ids. -/
theorem lookupPred_stable {st : State} {nf nd : Node} {dt : Nat} {l2 : List Nat}
    {rv : Option Resolver} {sv : Option Nat} {fid : Nat} {flag : Bool} {c : Str}
    (hd : st.heap[dt]? = some nd) (hnd : nd.data = .dir (some l2) rv sv)
    {x : Nat} (hx : x < st.heap.length) :
    (match (setNode (alloc st nf).1 dt
        { nd with data := .dir (some (l2 ++ [fid])) rv sv }).heap[x]? with
      | some ne => sameNameW flag ne.name c
      | none => false)
    = (match st.heap[x]? with
      | some ne => sameNameW flag ne.name c
      | none => false) := by
  have hdt_lt : dt < st.heap.length := (List.getElem?_eq_some.mp hd).1
  obtain ⟨nm, par, fsi, ro, data⟩ := nd
  simp only at hnd
  subst hnd
  by_cases hid : x = dt
  · subst hid
    rw [getElem_allocSet_dt hdt_lt, hd]
  · rw [getElem_allocSet_old hx hid]

/-- A pure directory traversal survives appending one fresh child id to a
directory and allocating one non-filesystem node. -/
theorem traverseFold_stable {st : State} {nf nd : Node} {dt : Nat} {l2 : List Nat}
    {rv : Option Resolver} {sv : Option Nat}
    (hm : Materialized st) (hlf : LinkFree st) (hho : HeapOrdered st)
    (hd : st.heap[dt]? = some nd) (hnd : nd.data = .dir (some l2) rv sv)
    (hnf : ∀ a b c, nf.data ≠ .fsRoot a b c)
    (fuel : Nat) :
    ∀ (cs : List Str) (r e : Nat), r < st.heap.length →
    traverseFold (fuel + 1) st r cs = .ok st (some e) →
    traverseFold (fuel + 1)
      (setNode (alloc st nf).1 dt
        { nd with data := .dir (some (l2 ++ [st.heap.length])) rv sv }) r cs
    = .ok (setNode (alloc st nf).1 dt
        { nd with data := .dir (some (l2 ++ [st.heap.length])) rv sv }) (some e) := by
  have hdt_lt : dt < st.heap.length := (List.getElem?_eq_some.mp hd).1
  intro cs
  induction cs with
  | nil =>
    intro r e hr h
    obtain ⟨h1, h2⟩ := Res.ok.inj h
    have h3 := Option.some.inj h2
    subst h3
    rfl
  | cons c cs ih =>
    intro r e hr h
    unfold traverseFold at h
    cases hlk : lookupEntry (fuel + 1) st r c with
    | ok st1 e? =>
      rw [hlk] at h
      obtain ⟨hst1, flag, n, lr, rvr, svr, hflag, hrn, hrnd, heq0⟩ :=
        lookupEntry_mat_ok hm hlf hlk
      rw [hst1] at h
      cases e? with
      | none =>
        obtain ⟨_, h2⟩ := Res.ok.inj h
        exact Option.noConfusion h2
      | some e1 =>
        have hfind := heq0.symm
        have he1mem : e1 ∈ lr := List.mem_of_find?_eq_some hfind
        have he1lt : e1 < st.heap.length := (hho_entry hho hr hrn hrnd e1 he1mem).2
        have hpredeq : ∀ x ∈ lr,
            (match (setNode (alloc st nf).1 dt
                { nd with data := .dir (some (l2 ++ [st.heap.length])) rv sv }).heap[x]? with
              | some ne => sameNameW flag ne.name c
              | none => false)
            = (match st.heap[x]? with
              | some ne => sameNameW flag ne.name c
              | none => false) :=
          fun x hx =>
            lookupPred_stable hd hnd (hho_entry hho hr hrn hrnd x hx).2
        have hflag2 : caseFlagOf (setNode (alloc st nf).1 dt
            { nd with data := .dir (some (l2 ++ [st.heap.length])) rv sv }) r = some flag := by
          rw [caseFlagOf_stable hd hnd hnf hr]
          exact hflag
        have hlk2 : lookupEntry (fuel + 1)
            (setNode (alloc st nf).1 dt
              { nd with data := .dir (some (l2 ++ [st.heap.length])) rv sv }) r c
            = .ok (setNode (alloc st nf).1 dt
              { nd with data := .dir (some (l2 ++ [st.heap.length])) rv sv }) (some e1) := by
          by_cases hrd : r = dt
          · subst hrd
            have hn_eq : n = nd := Option.some.inj (hrn.symm.trans hd)
            subst hn_eq
            have hdata := hrnd.symm.trans hnd
            obtain ⟨hl2, hrv, hsv⟩ := NodeData.dir.inj hdata
            have hlr : lr = l2 := Option.some.inj hl2
            subst hlr
            rw [lookupEntry_compute fuel c hflag2 (getElem_allocSet_dt hdt_lt) rfl]
            rw [List.find?_append]
            rw [find?_congr hpredeq, hfind]
            rfl
          · have hrn2 : (setNode (alloc st nf).1 dt
                { nd with data := .dir (some (l2 ++ [st.heap.length])) rv sv }).heap[r]?
                = some n := by
              rw [getElem_allocSet_old hr hrd]
              exact hrn
            rw [lookupEntry_compute fuel c hflag2 hrn2 hrnd]
            rw [find?_congr hpredeq, hfind]
        have hred : (if isDirInstance st e1 = true then traverseFold (fuel + 1) st e1 cs
            else if isFileInstance st e1 = true then Res.ok st (some e1)
            else Res.ok st none) = Res.ok st (some e) := h
        unfold traverseFold
        rw [hlk2]
        show (if isDirInstance (setNode (alloc st nf).1 dt
              { nd with data := .dir (some (l2 ++ [st.heap.length])) rv sv }) e1 = true
            then traverseFold (fuel + 1) (setNode (alloc st nf).1 dt
              { nd with data := .dir (some (l2 ++ [st.heap.length])) rv sv }) e1 cs
            else if isFileInstance (setNode (alloc st nf).1 dt
              { nd with data := .dir (some (l2 ++ [st.heap.length])) rv sv }) e1 = true
            then Res.ok (setNode (alloc st nf).1 dt
              { nd with data := .dir (some (l2 ++ [st.heap.length])) rv sv }) (some e1)
            else Res.ok (setNode (alloc st nf).1 dt
              { nd with data := .dir (some (l2 ++ [st.heap.length])) rv sv }) none)
          = Res.ok (setNode (alloc st nf).1 dt
              { nd with data := .dir (some (l2 ++ [st.heap.length])) rv sv }) (some e)
        cases hdir : isDirInstance st e1 with
        | true =>
          rw [hdir] at hred
          simp only [if_true] at hred
          rw [isDirInstance_stable hd hnd he1lt, hdir]
          simp only [if_true]
          exact ih e1 e he1lt hred
        | false =>
          rw [hdir] at hred
          simp only [Bool.false_eq_true, if_false] at hred
          rw [isDirInstance_stable hd hnd he1lt, hdir]
          simp only [Bool.false_eq_true, if_false]
          cases hfile : isFileInstance st e1 with
          | true =>
            rw [hfile] at hred
            simp only [if_true] at hred
            obtain ⟨_, h2⟩ := Res.ok.inj hred
            have h3 := Option.some.inj h2
            subst h3
            rw [isFileInstance_stable hd hnd he1lt, hfile]
            simp only [if_true]
          | false =>
            rw [hfile] at hred
            simp only [Bool.false_eq_true, if_false] at hred
            obtain ⟨_, h2⟩ := Res.ok.inj hred
            exact Option.noConfusion h2
    | frozen =>
      rw [hlk] at h
      exact Res.noConfusion h
    | stuck =>
      rw [hlk] at h
      exact Res.noConfusion h
    | outOfFuel =>
      rw [hlk] at h
      exact Res.noConfusion h

/-- On a materialized, symlink-free, unfrozen heap, `addDirectory` along a
path that a pure traversal walks entirely through directory entries finds
the same chain and changes nothing. -/
theorem addDirFold_of_traverseFold {st : State}
    (hm : Materialized st) (hlf : LinkFree st) (hho : HeapOrdered st)
    (hro : NotReadOnly st) (fuel : Nat) :
    ∀ (cs : List Str) (r e : Nat), r < st.heap.length →
    traverseFold (fuel + 1) st r cs = .ok st (some e) →
    isDirInstance st e = true →
    addDirFold (fuel + 1) st r cs none = .ok st (some e) := by
  intro cs
  induction cs with
  | nil =>
    intro r e hr h _
    obtain ⟨h1, h2⟩ := Res.ok.inj h
    have h3 := Option.some.inj h2
    subst h3
    rfl
  | cons c cs ih =>
    intro r e hr h hdir_e
    unfold traverseFold at h
    cases hlk : lookupEntry (fuel + 1) st r c with
    | ok st1 e? =>
      rw [hlk] at h
      obtain ⟨hst1, flag, n, lr, rvr, svr, hflag, hrn, hrnd, heq0⟩ :=
        lookupEntry_mat_ok hm hlf hlk
      rw [hst1] at h hlk
      cases e? with
      | none =>
        obtain ⟨_, h2⟩ := Res.ok.inj h
        exact Option.noConfusion h2
      | some e1 =>
        have he1mem : e1 ∈ lr := List.mem_of_find?_eq_some heq0.symm
        have he1lt : e1 < st.heap.length := (hho_entry hho hr hrn hrnd e1 he1mem).2
        have hred : (if isDirInstance st e1 = true then traverseFold (fuel + 1) st e1 cs
            else if isFileInstance st e1 = true then Res.ok st (some e1)
            else Res.ok st none) = Res.ok st (some e) := h
        obtain ⟨nm0, par0, fsi0, ro0, data0⟩ := n
        simp only at hrnd
        subst hrnd
        have hro0 : ro0 = false := by
          have := hro _ (mem_of_getElem? hrn)
          simpa using this
        subst hro0
        have hstep : dirAddDirectory (fuel + 1) st r c none
            = .ok st (if isDirInstance st e1 = true then some e1 else none) := by
          unfold dirAddDirectory
          rw [hrn]
          show dirAddDirectoryPlain (fuel + 1) st r c none = _
          unfold dirAddDirectoryPlain
          rw [hrn]
          show (match lookupEntry (fuel + 1) st r c with
            | .ok st1 (some e) =>
              Res.ok st1 (if isDirInstance st1 e = true then some e else none)
            | .ok st1 none =>
              match pushEntry ((alloc st1
                  { name := c, parent := r, fileSystem := fsi0,
                    readOnly := false, data := .dir none none none }).1) r
                  ((alloc st1
                  { name := c, parent := r, fileSystem := fsi0,
                    readOnly := false, data := .dir none none none }).2) with
              | .ok st3 _ => Res.ok st3 (some ((alloc st1
                  { name := c, parent := r, fileSystem := fsi0,
                    readOnly := false, data := .dir none none none }).2))
              | .frozen => Res.frozen
              | .stuck => Res.stuck
              | .outOfFuel => Res.outOfFuel
            | .frozen => Res.frozen
            | .stuck => Res.stuck
            | .outOfFuel => Res.outOfFuel) = _
          rw [hlk]
        rw [show addDirFold (fuel + 1) st r (c :: cs) none
            = (match dirAddDirectory (fuel + 1) st r c none with
              | .ok st1 (some d1) => addDirFold (fuel + 1) st1 d1 cs none
              | .ok st1 none => Res.ok st1 none
              | .frozen => Res.frozen
              | .stuck => Res.stuck
              | .outOfFuel => Res.outOfFuel) from rfl]
        rw [hstep]
        cases hdir : isDirInstance st e1 with
        | true =>
          rw [hdir] at hred
          simp only [if_true] at hred
          simp only [hdir, if_true]
          show addDirFold (fuel + 1) st e1 cs none = Res.ok st (some e)
          exact ih e1 e he1lt hred hdir_e
        | false =>
          rw [hdir] at hred
          simp only [Bool.false_eq_true, if_false] at hred
          cases hfile : isFileInstance st e1 with
          | true =>
            rw [hfile] at hred
            simp only [if_true] at hred
            obtain ⟨_, h2⟩ := Res.ok.inj hred
            have h3 := Option.some.inj h2
            subst h3
            rw [hdir_e] at hdir
            exact Bool.noConfusion hdir
          | false =>
            rw [hfile] at hred
            simp only [Bool.false_eq_true, if_false] at hred
            obtain ⟨_, h2⟩ := Res.ok.inj hred
            exact Option.noConfusion h2
    | frozen =>
      rw [hlk] at h
      exact Res.noConfusion h
    | stuck =>
      rw [hlk] at h
      exact Res.noConfusion h
    | outOfFuel =>
      rw [hlk] at h
      exact Res.noConfusion h

end VFS

namespace Thm

open VPath VFS Scn

/-- C8 (amended): on a non-frozen (`NotReadOnly`), symlink-free (`LinkFree`),
fully materialized (`Materialized`), well-ordered (`HeapOrdered`) filesystem
heap whose target parent directory is reached by a pure `traversePath` of the
resolved dirname, if no entry named `basename p` exists there (`addFile`
creates a NEW file) and the resolved path re-parses as the resolved dirname's
components followed by `basename p`, then `addFile(p, X)` succeeds returning a
fresh file id, and an immediately following `traversePath(p)` returns exactly
that File entry, whose `content` getter yields `X`.  (Unamended, the claim
fails, e.g. for a trailing-slash path: see the C8 counterexample.) -/
theorem c8_addFile_roundtrip_on_existing_parent {st : State} {fs r0 d : Nat} {nfs nd : Node} {cwd : Str} {csf : Bool}
    {l : List Nat} {rv : Option Resolver} {sv : Option Nat}
    {p X : Str} {fuel : Nat}
    (hm : Materialized st) (hlf : LinkFree st) (hho : HeapOrdered st)
    (hro : NotReadOnly st)
    (hfs : st.heap[fs]? = some nfs) (hnfs : nfs.data = .fsRoot cwd csf (some r0))
    (hd : st.heap[d]? = some nd) (hnd : nd.data = .dir (some l) rv sv)
    (htrav : traversePath (fuel + 1) st fs (dirname (resolve cwd [p])) = .ok st (some d))
    (hnew : lookupEntry (fuel + 1) st d (basename p) = .ok st none)
    (hre : parse (resolve cwd [p])
      = parse (resolve cwd [dirname (resolve cwd [p])]) ++ [basename p]) :
    ∃ st2 fid, st.heap.length ≤ fid ∧
      fsAddFile (fuel + 1) st fs p (some (.inl X)) = .ok st2 (some fid) ∧
      traversePath (fuel + 1) st2 fs p = .ok st2 (some fid) ∧
      isFileInstance st2 fid = true ∧
      fileContent (fuel + 1) st2 fid = .ok st2 (some X) := by
  have hfs_lt : fs < st.heap.length := (List.getElem?_eq_some.mp hfs).1
  have hd_lt : d < st.heap.length := (List.getElem?_eq_some.mp hd).1
  obtain ⟨fnm, fpar, ffsi, fro, fdata⟩ := nfs
  simp only at hnfs
  subst hnfs
  have hfro : fro = false := by
    have := hro _ (mem_of_getElem? hfs)
    simpa using this
  subst hfro
  obtain ⟨dnm, dpar, dfsi, dro, ddata⟩ := nd
  simp only at hnd
  subst hnd
  have hdro : dro = false := by
    have := hro _ (mem_of_getElem? hd)
    simpa using this
  subst hdro
  have hgetroot : getRoot st fs = .ok st r0 := by
    unfold getRoot
    rw [hfs]
  have hr0_lt : r0 < st.heap.length := by
    have h0 := hho fs hfs_lt
    unfold heapOrderedAt at h0
    rw [hfs] at h0
    have h1 : (decide (fs < r0) && decide (r0 < st.heap.length)) = true := h0
    simp only [Bool.and_eq_true, decide_eq_true_eq] at h1
    exact h1.2
  have hdir_d : isDirInstance st d = true := by
    unfold isDirInstance
    rw [hd]
  -- the pure parent traversal, as a fold from the root
  have htravF : traverseFold (fuel + 1) st r0
      (parse (resolve cwd [dirname (resolve cwd [p])])) = .ok st (some d) := by
    unfold traversePath at htrav
    rw [hfs] at htrav
    have h2 : (match getRoot st fs with
      | .ok st1 r => traverseFold (fuel + 1) st1 r
          (parse (resolve cwd [dirname (resolve cwd [p])]))
      | .frozen => Res.frozen
      | .stuck => Res.stuck
      | .outOfFuel => Res.outOfFuel) = Res.ok st (some d) := htrav
    rw [hgetroot] at h2
    exact h2
  have haddDir : fsAddDirectory (fuel + 1) st fs (dirname (resolve cwd [p])) none
      = .ok st (some d) := by
    unfold fsAddDirectory
    rw [hfs]
    show (match getRoot st fs with
      | .ok st1 r => addDirFold (fuel + 1) st1 r
          (parse (resolve cwd [dirname (resolve cwd [p])])) none
      | .frozen => Res.frozen
      | .stuck => Res.stuck
      | .outOfFuel => Res.outOfFuel) = Res.ok st (some d)
    rw [hgetroot]
    exact addDirFold_of_traverseFold hm hlf hho hro fuel _ r0 d hr0_lt htravF hdir_d
  have hdirAddFile : dirAddFile (fuel + 1) st d (basename p) (some (.inl X))
      = .ok (setNode (alloc st
          { name := basename p, parent := d, fileSystem := dfsi, readOnly := false,
            data := .file (some X) none none }).1 d
          { name := dnm, parent := dpar, fileSystem := dfsi, readOnly := false,
            data := .dir (some (l ++ [st.heap.length])) rv sv })
        (some st.heap.length) := by
    unfold dirAddFile
    rw [hd]
    show dirAddFilePlain (fuel + 1) st d (basename p) (some (.inl X)) = _
    unfold dirAddFilePlain
    rw [hd]
    show (match lookupEntry (fuel + 1) st d (basename p) with
      | .ok st1 (some e) => Res.ok st1 (if isFileInstance st1 e = true then some e else none)
      | .ok st1 none =>
        match pushEntry ((alloc st1
            { name := basename p, parent := d, fileSystem := dfsi, readOnly := false,
              data := .file (some X) none none }).1) d
            ((alloc st1
            { name := basename p, parent := d, fileSystem := dfsi, readOnly := false,
              data := .file (some X) none none }).2) with
        | .ok st3 _ => Res.ok st3 (some ((alloc st1
            { name := basename p, parent := d, fileSystem := dfsi, readOnly := false,
              data := .file (some X) none none }).2))
        | .frozen => Res.frozen
        | .stuck => Res.stuck
        | .outOfFuel => Res.outOfFuel
      | .frozen => Res.frozen
      | .stuck => Res.stuck
      | .outOfFuel => Res.outOfFuel) = _
    rw [hnew]
    have hgetd : (alloc st
        { name := basename p, parent := d, fileSystem := dfsi, readOnly := false,
          data := .file (some X) none none }).1.heap[d]?
        = st.heap[d]? := by
      rw [getElem_alloc, if_pos hd_lt]
    have hpush : pushEntry ((alloc st
        { name := basename p, parent := d, fileSystem := dfsi, readOnly := false,
          data := .file (some X) none none }).1) d st.heap.length
        = .ok (setNode (alloc st
          { name := basename p, parent := d, fileSystem := dfsi, readOnly := false,
            data := .file (some X) none none }).1 d
          { name := dnm, parent := dpar, fileSystem := dfsi, readOnly := false,
            data := .dir (some (l ++ [st.heap.length])) rv sv }) () := by
      unfold pushEntry
      rw [hgetd, hd]
    show (match pushEntry ((alloc st
        { name := basename p, parent := d, fileSystem := dfsi, readOnly := false,
          data := .file (some X) none none }).1) d st.heap.length with
      | .ok st3 _ => Res.ok st3 (some st.heap.length)
      | .frozen => Res.frozen
      | .stuck => Res.stuck
      | .outOfFuel => Res.outOfFuel) = _
    rw [hpush]
  have hfsAdd : fsAddFile (fuel + 1) st fs p (some (.inl X))
      = .ok (setNode (alloc st
          { name := basename p, parent := d, fileSystem := dfsi, readOnly := false,
            data := .file (some X) none none }).1 d
          { name := dnm, parent := dpar, fileSystem := dfsi, readOnly := false,
            data := .dir (some (l ++ [st.heap.length])) rv sv })
        (some st.heap.length) := by
    unfold fsAddFile
    rw [hfs]
    show (match fsAddDirectory (fuel + 1) st fs (dirname (resolve cwd [p])) none with
      | .ok st1 (some d1) => dirAddFile (fuel + 1) st1 d1 (basename p) (some (.inl X))
      | .ok st1 none => Res.ok st1 none
      | .frozen => Res.frozen
      | .stuck => Res.stuck
      | .outOfFuel => Res.outOfFuel) = _
    rw [haddDir]
    show dirAddFile (fuel + 1) st d (basename p) (some (.inl X)) = _
    exact hdirAddFile
  have hfsne : fs ≠ d := by
    intro hc
    subst hc
    rw [hfs] at hd
    have h0 := Option.some.inj hd
    exact NodeData.noConfusion (congrArg Node.data h0)
  have hnf : ∀ a b c,
      ({ name := basename p, parent := d, fileSystem := dfsi, readOnly := false,
         data := .file (some X) none none } : Node).data ≠ NodeData.fsRoot a b c := by
    intro a b c h
    exact NodeData.noConfusion h
  have hfs2 : (setNode (alloc st
      { name := basename p, parent := d, fileSystem := dfsi, readOnly := false,
        data := .file (some X) none none }).1 d
      { name := dnm, parent := dpar, fileSystem := dfsi, readOnly := false,
        data := .dir (some (l ++ [st.heap.length])) rv sv }).heap[fs]?
      = st.heap[fs]? := getElem_allocSet_old hfs_lt hfsne
  have hget2d : (setNode (alloc st
      { name := basename p, parent := d, fileSystem := dfsi, readOnly := false,
        data := .file (some X) none none }).1 d
      { name := dnm, parent := dpar, fileSystem := dfsi, readOnly := false,
        data := .dir (some (l ++ [st.heap.length])) rv sv }).heap[d]?
      = some { name := dnm, parent := dpar, fileSystem := dfsi, readOnly := false,
               data := .dir (some (l ++ [st.heap.length])) rv sv } :=
    getElem_allocSet_dt hd_lt
  have hget2new : (setNode (alloc st
      { name := basename p, parent := d, fileSystem := dfsi, readOnly := false,
        data := .file (some X) none none }).1 d
      { name := dnm, parent := dpar, fileSystem := dfsi, readOnly := false,
        data := .dir (some (l ++ [st.heap.length])) rv sv }).heap[st.heap.length]?
      = some { name := basename p, parent := d, fileSystem := dfsi, readOnly := false,
               data := .file (some X) none none } :=
    getElem_allocSet_new hd_lt
  obtain ⟨hst3, flag, n3, l3, rv3, sv3, hflagd, hd3, hnd3, hfindnone⟩ :=
    lookupEntry_mat_ok hm hlf hnew
  have hn3 : n3 =
      { name := dnm, parent := dpar, fileSystem := dfsi, readOnly := false,
        data := NodeData.dir (some l) rv sv } := Option.some.inj (hd3.symm.trans hd)
  subst hn3
  have hl3 : l3 = l := by
    have h0 : NodeData.dir (some l) rv sv = NodeData.dir (some l3) rv3 sv3 := hnd3
    obtain ⟨h1, h2, h3⟩ := NodeData.dir.inj h0
    exact (Option.some.inj h1).symm
  rw [hl3] at hfindnone
  have htrav2 := traverseFold_stable hm hlf hho hd rfl hnf fuel
    (parse (resolve cwd [dirname (resolve cwd [p])])) r0 d hr0_lt htravF
  have hflag2d : caseFlagOf (setNode (alloc st
      { name := basename p, parent := d, fileSystem := dfsi, readOnly := false,
        data := .file (some X) none none }).1 d
      { name := dnm, parent := dpar, fileSystem := dfsi, readOnly := false,
        data := .dir (some (l ++ [st.heap.length])) rv sv }) d = some flag := by
    rw [caseFlagOf_stable hd rfl hnf hd_lt]
    exact hflagd
  have hnone2 : l.find? (fun e =>
      match (setNode (alloc st
        { name := basename p, parent := d, fileSystem := dfsi, readOnly := false,
          data := .file (some X) none none }).1 d
        { name := dnm, parent := dpar, fileSystem := dfsi, readOnly := false,
          data := .dir (some (l ++ [st.heap.length])) rv sv }).heap[e]? with
      | some ne => sameNameW flag ne.name (basename p)
      | none => false) = none := by
    rw [find?_congr (fun x hx =>
      lookupPred_stable hd rfl (hho_entry hho hd_lt hd rfl x hx).2)]
    exact hfindnone.symm
  obtain ⟨ST2, hST2⟩ : ∃ S, setNode (alloc st
      { name := basename p, parent := d, fileSystem := dfsi, readOnly := false,
        data := .file (some X) none none }).1 d
      { name := dnm, parent := dpar, fileSystem := dfsi, readOnly := false,
        data := .dir (some (l ++ [st.heap.length])) rv sv } = S := ⟨_, rfl⟩
  rw [hST2] at hfsAdd hfs2 hget2d hget2new htrav2 hflag2d hnone2
  have hdir2 : isDirInstance ST2 d = true := by
    unfold isDirInstance
    rw [hget2d]
  have hdirfid : isDirInstance ST2 st.heap.length = false := by
    unfold isDirInstance
    rw [hget2new]
  have hfilefid : isFileInstance ST2 st.heap.length = true := by
    unfold isFileInstance
    rw [hget2new]
  have hlookup2 : lookupEntry (fuel + 1) ST2 d (basename p)
      = .ok ST2 (some st.heap.length) := by
    rw [lookupEntry_compute fuel (basename p) hflag2d hget2d rfl]
    rw [List.find?_append, hnone2]
    have hsingle : List.find? (fun e =>
        match ST2.heap[e]? with
        | some ne => sameNameW flag ne.name (basename p)
        | none => false) [st.heap.length] = some st.heap.length :=
      List.find?_cons_of_pos [] (show (match ST2.heap[st.heap.length]? with
        | some ne => sameNameW flag ne.name (basename p)
        | none => false) = true by rw [hget2new]; exact sameNameW_refl flag (basename p))
    rw [hsingle]
    rfl
  have hstep2 : traverseFold (fuel + 1) ST2 d [basename p]
      = .ok ST2 (some st.heap.length) := by
    unfold traverseFold
    rw [hlookup2]
    show (if isDirInstance ST2 st.heap.length = true
        then traverseFold (fuel + 1) ST2 st.heap.length []
        else if isFileInstance ST2 st.heap.length = true
        then Res.ok ST2 (some st.heap.length)
        else Res.ok ST2 none) = Res.ok ST2 (some st.heap.length)
    rw [hdirfid, hfilefid]
    simp only [Bool.false_eq_true, if_false, if_true]
  have hgetroot2 : getRoot ST2 fs = .ok ST2 r0 := by
    unfold getRoot
    rw [hfs2, hfs]
  have htravP2 : traversePath (fuel + 1) ST2 fs p = .ok ST2 (some st.heap.length) := by
    unfold traversePath
    rw [hfs2, hfs]
    show (match getRoot ST2 fs with
      | .ok st1 r => traverseFold (fuel + 1) st1 r (parse (resolve cwd [p]))
      | .frozen => Res.frozen
      | .stuck => Res.stuck
      | .outOfFuel => Res.outOfFuel) = Res.ok ST2 (some st.heap.length)
    rw [hgetroot2]
    show traverseFold (fuel + 1) ST2 r0 (parse (resolve cwd [p]))
      = Res.ok ST2 (some st.heap.length)
    rw [hre, traverseFold_append (fuel + 1) _ ST2 r0 _ ST2 d htrav2 hdir2]
    exact hstep2
  have hcont : fileContent (fuel + 1) ST2 st.heap.length = .ok ST2 (some X) := by
    unfold fileContent
    rw [hget2new]
    show fileContentPlain (fuel + 1) ST2 st.heap.length = _
    unfold fileContentPlain
    rw [hget2new]
  exact ⟨ST2, st.heap.length, Nat.le_refl _, hfsAdd, htravP2, hfilefid, hcont⟩

/-- Witness: the amended C8 theorem applied to the concrete filesystem
holding `/a/b.ts`, adding `/a/c.ts` with content `Y`. -/
theorem c8_roundtrip_witness :
    ∃ st2 fid, Scn.stA.heap.length ≤ fid ∧
      fsAddFile (7 + 1) Scn.stA Scn.fs0 (str "/a/c.ts")
        (some (.inl (str "Y"))) = .ok st2 (some fid) ∧
      traversePath (7 + 1) st2 Scn.fs0 (str "/a/c.ts") = .ok st2 (some fid) ∧
      isFileInstance st2 fid = true ∧
      fileContent (7 + 1) st2 fid = .ok st2 (some (str "Y")) :=
  c8_addFile_roundtrip_on_existing_parent
    (by decide) (by decide) (by decide) (by decide)
    (show Scn.stA.heap[Scn.fs0]? = some ⟨[], 0, 0, false, .fsRoot [] true (some 1)⟩
      from rfl)
    rfl
    (show Scn.stA.heap[3]? = some ⟨str "a", 2, 0, false, .dir (some [4]) none none⟩
      from rfl)
    rfl
    rfl
    rfl
    rfl

end Thm

namespace VFS

open VPath

/-- `mapM` over `Option` only depends on pointwise values. -/
theorem mapM_option_congr {α β : Type} {f g : α → Option β} : ∀ {l : List α},
    (∀ x ∈ l, f x = g x) → l.mapM f = l.mapM g := by
  intro l
  induction l with
  | nil => intro _; rfl
  | cons a as ih =>
    intro h
    simp only [List.mapM_cons, h a (List.mem_cons_self a as),
      ih (fun x hx => h x (List.mem_cons_of_mem a hx))]

/-- The semantic tree of an original-side node only depends on the
original-side heap: any extension agreeing below the length bound denotes
the same trees there. -/
theorem treeOf_frame {st st2 : State} (hsf : SourceFree st) (hho : HeapOrdered st)
    (hag : ∀ i, i < st.heap.length → st2.heap[i]? = st.heap[i]?) :
    ∀ (fuel i : Nat), i < st.heap.length → treeOf fuel st2 i = treeOf fuel st i := by
  intro fuel
  induction fuel with
  | zero =>
    intro i _
    rfl
  | succ fuel ih =>
    intro i hi
    unfold treeOf
    rw [hag i hi]
    cases hn : st.heap[i]? with
    | none => rfl
    | some n =>
      obtain ⟨nm, par, fsi, ro, data⟩ := n
      cases data with
      | dir es rv sv =>
        cases es with
        | some l =>
          show ((l.mapM (treeOf fuel st2)).map (VTree.dir nm))
            = ((l.mapM (treeOf fuel st)).map (VTree.dir nm))
          rw [mapM_option_congr (fun x hx => ih x (hho_entry hho hi hn rfl x hx).2)]
        | none =>
          cases rv with
          | some r => rfl
          | none =>
            cases sv with
            | some s =>
              have := hsf _ (mem_of_getElem? hn)
              simp [nodeSourceFree] at this
            | none => rfl
      | file c rv sv =>
        cases c with
        | some c => rfl
        | none =>
          cases rv with
          | some r => rfl
          | none =>
            cases sv with
            | some s =>
              have := hsf _ (mem_of_getElem? hn)
              simp [nodeSourceFree] at this
            | none => rfl
      | dirLink a b => rfl
      | fileLink a => rfl
      | fsRoot a b c => rfl

/-- The root name of a denoted tree is the node's own name, so renaming to
it is the identity. -/
theorem treeOf_withName {st : State} {i : Nat} {n : Node} {fuel : Nat} {t : VTree}
    (hn : st.heap[i]? = some n) (h : treeOf (fuel + 1) st i = some t) :
    t.withName n.name = t := by
  obtain ⟨nm, par, fsi, ro, data⟩ := n
  unfold treeOf at h
  rw [hn] at h
  show t.withName nm = t
  cases data with
  | dir es rv sv =>
    cases es with
    | some l =>
      have h2 : ((l.mapM (treeOf fuel st)).map (VTree.dir nm)) = some t := h
      cases hm : l.mapM (treeOf fuel st) with
      | none =>
        rw [hm] at h2
        exact Option.noConfusion h2
      | some cs =>
        rw [hm] at h2
        have h3 := Option.some.inj h2
        subst h3
        rfl
    | none =>
      cases rv with
      | some r => exact Option.noConfusion h
      | none =>
        cases sv with
        | some s =>
          have h2 : ((treeOf fuel st s).map (fun t0 => t0.withName nm)) = some t := h
          cases hm : treeOf fuel st s with
          | none =>
            rw [hm] at h2
            exact Option.noConfusion h2
          | some t0 =>
            rw [hm] at h2
            have h3 := Option.some.inj h2
            subst h3
            cases t0 <;> rfl
        | none =>
          have h3 := Option.some.inj h
          subst h3
          rfl
  | file c rv sv =>
    cases c with
    | some c =>
      have h3 := Option.some.inj h
      subst h3
      rfl
    | none =>
      cases rv with
      | some r => exact Option.noConfusion h
      | none =>
        cases sv with
        | some s =>
          have h2 : ((treeOf fuel st s).map (fun t0 => t0.withName nm)) = some t := h
          cases hm : treeOf fuel st s with
          | none =>
            rw [hm] at h2
            exact Option.noConfusion h2
          | some t0 =>
            rw [hm] at h2
            have h3 := Option.some.inj h2
            subst h3
            cases t0 <;> rfl
        | none =>
          have h3 := Option.some.inj h
          subst h3
          rfl
  | dirLink a b => exact Option.noConfusion h
  | fileLink a => exact Option.noConfusion h
  | fsRoot a b c => exact Option.noConfusion h

end VFS


namespace VFS

open VPath

/-- Evaluation of `fsClone` on a filesystem with a created root. -/
theorem fsClone_compute {st : State} {fs r0 : Nat} {nroot : Node}
    {cwd : Str} {csf : Bool}
    (hfs : st.heap[fs]? = some { name := [], parent := fs, fileSystem := fs, readOnly := false, data := .fsRoot cwd csf (some r0) })
    (hfs_lt : fs < st.heap.length) (hr0_lt : r0 < st.heap.length)
    (hr0 : st.heap[r0]? = some nroot) :
    fsClone st fs = .ok (setNode (alloc (setNode (alloc st { name := [], parent := 0, fileSystem := 0, readOnly := false, data := .fsRoot (normalizeSlashes cwd) csf none }).1 st.heap.length { name := [], parent := st.heap.length, fileSystem := st.heap.length, readOnly := false, data := .fsRoot (normalizeSlashes cwd) csf none }) { name := nroot.name, parent := st.heap.length, fileSystem := st.heap.length, readOnly := false, data := .dir none none (some r0) }).1 st.heap.length { name := [], parent := st.heap.length, fileSystem := st.heap.length, readOnly := false, data := .fsRoot (normalizeSlashes cwd) csf (some (st.heap.length + 1)) }) st.heap.length := by
  have hlenA : (alloc st { name := [], parent := 0, fileSystem := 0, readOnly := false, data := .fsRoot (normalizeSlashes cwd) csf none }).1.heap.length = st.heap.length + 1 := by
    show (st.heap ++ [({ name := [], parent := 0, fileSystem := 0, readOnly := false, data := .fsRoot (normalizeSlashes cwd) csf none } : Node)]).length = st.heap.length + 1
    rw [List.length_append]
    rfl
  have hlen1 : ((setNode (alloc st { name := [], parent := 0, fileSystem := 0, readOnly := false, data := .fsRoot (normalizeSlashes cwd) csf none }).1 st.heap.length { name := [], parent := st.heap.length, fileSystem := st.heap.length, readOnly := false, data := .fsRoot (normalizeSlashes cwd) csf none })).heap.length = st.heap.length + 1 := by
    rw [length_setNode]
    exact hlenA
  have hfs1 : ((setNode (alloc st { name := [], parent := 0, fileSystem := 0, readOnly := false, data := .fsRoot (normalizeSlashes cwd) csf none }).1 st.heap.length { name := [], parent := st.heap.length, fileSystem := st.heap.length, readOnly := false, data := .fsRoot (normalizeSlashes cwd) csf none })).heap[fs]? = st.heap[fs]? := by
    rw [getElem_setNode_ne _ _ _ _ (by omega)]
    rw [getElem_alloc, if_pos hfs_lt]
  have hgetroot1 : getRoot (setNode (alloc st { name := [], parent := 0, fileSystem := 0, readOnly := false, data := .fsRoot (normalizeSlashes cwd) csf none }).1 st.heap.length { name := [], parent := st.heap.length, fileSystem := st.heap.length, readOnly := false, data := .fsRoot (normalizeSlashes cwd) csf none }) fs = .ok (setNode (alloc st { name := [], parent := 0, fileSystem := 0, readOnly := false, data := .fsRoot (normalizeSlashes cwd) csf none }).1 st.heap.length { name := [], parent := st.heap.length, fileSystem := st.heap.length, readOnly := false, data := .fsRoot (normalizeSlashes cwd) csf none }) r0 := by
    unfold getRoot
    rw [hfs1, hfs]
  have hgetr0 : ((setNode (alloc st { name := [], parent := 0, fileSystem := 0, readOnly := false, data := .fsRoot (normalizeSlashes cwd) csf none }).1 st.heap.length { name := [], parent := st.heap.length, fileSystem := st.heap.length, readOnly := false, data := .fsRoot (normalizeSlashes cwd) csf none })).heap[r0]? = some nroot := by
    rw [getElem_setNode_ne _ _ _ _ (by omega)]
    rw [getElem_alloc, if_pos hr0_lt]
    exact hr0
  have hgetLfs : (alloc (setNode (alloc st { name := [], parent := 0, fileSystem := 0, readOnly := false, data := .fsRoot (normalizeSlashes cwd) csf none }).1 st.heap.length { name := [], parent := st.heap.length, fileSystem := st.heap.length, readOnly := false, data := .fsRoot (normalizeSlashes cwd) csf none }) { name := nroot.name, parent := st.heap.length, fileSystem := st.heap.length, readOnly := false, data := .dir none none (some r0) }).1.heap[st.heap.length]? = some { name := [], parent := st.heap.length, fileSystem := st.heap.length, readOnly := false, data := .fsRoot (normalizeSlashes cwd) csf none } := by
    rw [getElem_alloc, if_pos (by omega)]
    apply List.getElem?_set_self
    rw [hlenA]
    omega
  unfold fsClone
  rw [hfs]
  show (match getRoot (setNode (alloc st { name := [], parent := 0, fileSystem := 0, readOnly := false, data := .fsRoot (normalizeSlashes cwd) csf none }).1 st.heap.length { name := [], parent := st.heap.length, fileSystem := st.heap.length, readOnly := false, data := .fsRoot (normalizeSlashes cwd) csf none }) fs with
    | .ok st2 r =>
      match (alloc st2 { name := (match st2.heap[r]? with | some rn => rn.name | none => []), parent := st.heap.length, fileSystem := st.heap.length, readOnly := false, data := .dir none none (some r) }).1.heap[st.heap.length]? with
      | some n2 =>
        Res.ok (setNode (alloc st2 { name := (match st2.heap[r]? with | some rn => rn.name | none => []), parent := st.heap.length, fileSystem := st.heap.length, readOnly := false, data := .dir none none (some r) }).1 st.heap.length { name := n2.name, parent := n2.parent, fileSystem := n2.fileSystem, readOnly := n2.readOnly, data := .fsRoot (normalizeSlashes cwd) csf (some ((alloc st2 { name := (match st2.heap[r]? with | some rn => rn.name | none => []), parent := st.heap.length, fileSystem := st.heap.length, readOnly := false, data := .dir none none (some r) }).2)) }) st.heap.length
      | none => Res.stuck
    | .frozen => Res.frozen
    | .stuck => Res.stuck
    | .outOfFuel => Res.outOfFuel) = _
  rw [hgetroot1]
  show (match (alloc (setNode (alloc st { name := [], parent := 0, fileSystem := 0, readOnly := false, data := .fsRoot (normalizeSlashes cwd) csf none }).1 st.heap.length { name := [], parent := st.heap.length, fileSystem := st.heap.length, readOnly := false, data := .fsRoot (normalizeSlashes cwd) csf none }) { name := (match (setNode (alloc st { name := [], parent := 0, fileSystem := 0, readOnly := false, data := .fsRoot (normalizeSlashes cwd) csf none }).1 st.heap.length { name := [], parent := st.heap.length, fileSystem := st.heap.length, readOnly := false, data := .fsRoot (normalizeSlashes cwd) csf none }).heap[r0]? with | some rn => rn.name | none => []), parent := st.heap.length, fileSystem := st.heap.length, readOnly := false, data := .dir none none (some r0) }).1.heap[st.heap.length]? with
    | some n2 =>
      Res.ok (setNode (alloc (setNode (alloc st { name := [], parent := 0, fileSystem := 0, readOnly := false, data := .fsRoot (normalizeSlashes cwd) csf none }).1 st.heap.length { name := [], parent := st.heap.length, fileSystem := st.heap.length, readOnly := false, data := .fsRoot (normalizeSlashes cwd) csf none }) { name := (match (setNode (alloc st { name := [], parent := 0, fileSystem := 0, readOnly := false, data := .fsRoot (normalizeSlashes cwd) csf none }).1 st.heap.length { name := [], parent := st.heap.length, fileSystem := st.heap.length, readOnly := false, data := .fsRoot (normalizeSlashes cwd) csf none }).heap[r0]? with | some rn => rn.name | none => []), parent := st.heap.length, fileSystem := st.heap.length, readOnly := false, data := .dir none none (some r0) }).1 st.heap.length { name := n2.name, parent := n2.parent, fileSystem := n2.fileSystem, readOnly := n2.readOnly, data := .fsRoot (normalizeSlashes cwd) csf (some ((alloc (setNode (alloc st { name := [], parent := 0, fileSystem := 0, readOnly := false, data := .fsRoot (normalizeSlashes cwd) csf none }).1 st.heap.length { name := [], parent := st.heap.length, fileSystem := st.heap.length, readOnly := false, data := .fsRoot (normalizeSlashes cwd) csf none }) { name := (match (setNode (alloc st { name := [], parent := 0, fileSystem := 0, readOnly := false, data := .fsRoot (normalizeSlashes cwd) csf none }).1 st.heap.length { name := [], parent := st.heap.length, fileSystem := st.heap.length, readOnly := false, data := .fsRoot (normalizeSlashes cwd) csf none }).heap[r0]? with | some rn => rn.name | none => []), parent := st.heap.length, fileSystem := st.heap.length, readOnly := false, data := .dir none none (some r0) }).2)) }) st.heap.length
    | none => Res.stuck) = _
  rw [hgetr0, hgetLfs]
  show Res.ok (setNode (alloc (setNode (alloc st { name := [], parent := 0, fileSystem := 0, readOnly := false, data := .fsRoot (normalizeSlashes cwd) csf none }).1 st.heap.length { name := [], parent := st.heap.length, fileSystem := st.heap.length, readOnly := false, data := .fsRoot (normalizeSlashes cwd) csf none }) { name := nroot.name, parent := st.heap.length, fileSystem := st.heap.length, readOnly := false, data := .dir none none (some r0) }).1 st.heap.length { name := [], parent := st.heap.length, fileSystem := st.heap.length, readOnly := false, data := .fsRoot (normalizeSlashes cwd) csf (some ((alloc (setNode (alloc st { name := [], parent := 0, fileSystem := 0, readOnly := false, data := .fsRoot (normalizeSlashes cwd) csf none }).1 st.heap.length { name := [], parent := st.heap.length, fileSystem := st.heap.length, readOnly := false, data := .fsRoot (normalizeSlashes cwd) csf none }) { name := nroot.name, parent := st.heap.length, fileSystem := st.heap.length, readOnly := false, data := .dir none none (some r0) }).2)) }) st.heap.length = _
  rw [show ((alloc (setNode (alloc st { name := [], parent := 0, fileSystem := 0, readOnly := false, data := .fsRoot (normalizeSlashes cwd) csf none }).1 st.heap.length { name := [], parent := st.heap.length, fileSystem := st.heap.length, readOnly := false, data := .fsRoot (normalizeSlashes cwd) csf none }) { name := nroot.name, parent := st.heap.length, fileSystem := st.heap.length, readOnly := false, data := .dir none none (some r0) }).2) = st.heap.length + 1 from hlen1]

end VFS

namespace Thm

open VPath VFS Scn

/-- C2 (amended): cloning a filesystem whose heap is free of shadow references
(`SourceFree`) and well ordered (`HeapOrdered`) allocates only fresh ids at or
above the old heap length; ids below it are untouched; the clone's semantic
tree equals the original's; the original's semantic tree depends only on the
ids below the old length, so it is unchanged by ANY later state that leaves
those ids alone — in particular by writing the content of any clone-side plain
file.  (The unamended claim's converse direction — that mutating the original
never changes what is observable on the clone — is refuted by the C2
counterexample: before materialization the shadow proxies the original.) -/
theorem c2_clone_reads_original_and_confines_writes
    {st st2 : State} {fs fs2 r0 : Nat} {nroot : Node} {cwd : Str} {csf : Bool}
    (fuel : Nat)
    (hsf : SourceFree st) (hho : HeapOrdered st)
    (hfs : st.heap[fs]? = some { name := [], parent := fs, fileSystem := fs, readOnly := false, data := .fsRoot cwd csf (some r0) })
    (hr0 : st.heap[r0]? = some nroot)
    (hfs_lt : fs < st.heap.length) (hr0_lt : r0 < st.heap.length)
    (hclone : fsClone st fs = .ok st2 fs2) :
    st.heap.length ≤ fs2 ∧
    (∀ i, i < st.heap.length → st2.heap[i]? = st.heap[i]?) ∧
    fsTreeOf (fuel + 1) st2 fs2 = fsTreeOf fuel st fs ∧
    (∀ st3, (∀ i, i < st.heap.length → st3.heap[i]? = st.heap[i]?) →
      fsTreeOf fuel st3 fs = fsTreeOf fuel st fs) ∧
    (∀ f v nf c0 sv0, st.heap.length ≤ f → st2.heap[f]? = some nf →
      nf.data = .file c0 none sv0 → nf.readOnly = false →
      ∃ st3, setFileContent (fuel + 1) st2 f (some v) = .ok st3 () ∧
        fsTreeOf fuel st3 fs = fsTreeOf fuel st fs) := by
  have hcompute := fsClone_compute hfs hfs_lt hr0_lt hr0
  have hEq := hcompute.symm.trans hclone
  injection hEq with h1 h2
  subst h1
  subst h2
  have hlenA : (alloc st { name := [], parent := 0, fileSystem := 0, readOnly := false, data := .fsRoot (normalizeSlashes cwd) csf none }).1.heap.length = st.heap.length + 1 := by
    show (st.heap ++ [({ name := [], parent := 0, fileSystem := 0, readOnly := false, data := .fsRoot (normalizeSlashes cwd) csf none } : Node)]).length = st.heap.length + 1
    rw [List.length_append]
    rfl
  have hlen1 : ((setNode (alloc st { name := [], parent := 0, fileSystem := 0, readOnly := false, data := .fsRoot (normalizeSlashes cwd) csf none }).1 st.heap.length { name := [], parent := st.heap.length, fileSystem := st.heap.length, readOnly := false, data := .fsRoot (normalizeSlashes cwd) csf none })).heap.length = st.heap.length + 1 := by
    rw [length_setNode]
    exact hlenA
  have hlen2 : (alloc (setNode (alloc st { name := [], parent := 0, fileSystem := 0, readOnly := false, data := .fsRoot (normalizeSlashes cwd) csf none }).1 st.heap.length { name := [], parent := st.heap.length, fileSystem := st.heap.length, readOnly := false, data := .fsRoot (normalizeSlashes cwd) csf none }) { name := nroot.name, parent := st.heap.length, fileSystem := st.heap.length, readOnly := false, data := .dir none none (some r0) }).1.heap.length = st.heap.length + 2 := by
    show (((setNode (alloc st { name := [], parent := 0, fileSystem := 0, readOnly := false, data := .fsRoot (normalizeSlashes cwd) csf none }).1 st.heap.length { name := [], parent := st.heap.length, fileSystem := st.heap.length, readOnly := false, data := .fsRoot (normalizeSlashes cwd) csf none })).heap ++ [({ name := nroot.name, parent := st.heap.length, fileSystem := st.heap.length, readOnly := false, data := .dir none none (some r0) } : Node)]).length = st.heap.length + 2
    rw [List.length_append, hlen1]
    rfl
  have hag2 : ∀ i, i < st.heap.length → ((setNode (alloc (setNode (alloc st { name := [], parent := 0, fileSystem := 0, readOnly := false, data := .fsRoot (normalizeSlashes cwd) csf none }).1 st.heap.length { name := [], parent := st.heap.length, fileSystem := st.heap.length, readOnly := false, data := .fsRoot (normalizeSlashes cwd) csf none }) { name := nroot.name, parent := st.heap.length, fileSystem := st.heap.length, readOnly := false, data := .dir none none (some r0) }).1 st.heap.length { name := [], parent := st.heap.length, fileSystem := st.heap.length, readOnly := false, data := .fsRoot (normalizeSlashes cwd) csf (some (st.heap.length + 1)) })).heap[i]? = st.heap[i]? := by
    intro i hi
    rw [getElem_setNode_ne _ _ _ _ (by omega)]
    rw [getElem_alloc, if_pos (show i < ((setNode (alloc st { name := [], parent := 0, fileSystem := 0, readOnly := false, data := .fsRoot (normalizeSlashes cwd) csf none }).1 st.heap.length { name := [], parent := st.heap.length, fileSystem := st.heap.length, readOnly := false, data := .fsRoot (normalizeSlashes cwd) csf none })).heap.length by rw [hlen1]; omega)]
    rw [getElem_setNode_ne _ _ _ _ (by omega)]
    rw [getElem_alloc, if_pos hi]
  have hb : ∀ st3, (∀ i, i < st.heap.length → st3.heap[i]? = st.heap[i]?) →
      fsTreeOf fuel st3 fs = fsTreeOf fuel st fs := by
    intro st3 hag3
    unfold fsTreeOf
    rw [hag3 fs hfs_lt, hfs]
    show treeOf fuel st3 r0 = treeOf fuel st r0
    exact treeOf_frame hsf hho hag3 fuel r0 hr0_lt
  have hgetL2 : ((setNode (alloc (setNode (alloc st { name := [], parent := 0, fileSystem := 0, readOnly := false, data := .fsRoot (normalizeSlashes cwd) csf none }).1 st.heap.length { name := [], parent := st.heap.length, fileSystem := st.heap.length, readOnly := false, data := .fsRoot (normalizeSlashes cwd) csf none }) { name := nroot.name, parent := st.heap.length, fileSystem := st.heap.length, readOnly := false, data := .dir none none (some r0) }).1 st.heap.length { name := [], parent := st.heap.length, fileSystem := st.heap.length, readOnly := false, data := .fsRoot (normalizeSlashes cwd) csf (some (st.heap.length + 1)) })).heap[st.heap.length]? = some { name := [], parent := st.heap.length, fileSystem := st.heap.length, readOnly := false, data := .fsRoot (normalizeSlashes cwd) csf (some (st.heap.length + 1)) } := by
    apply List.getElem?_set_self
    rw [hlen2]
    omega
  have hgetRC : ((setNode (alloc (setNode (alloc st { name := [], parent := 0, fileSystem := 0, readOnly := false, data := .fsRoot (normalizeSlashes cwd) csf none }).1 st.heap.length { name := [], parent := st.heap.length, fileSystem := st.heap.length, readOnly := false, data := .fsRoot (normalizeSlashes cwd) csf none }) { name := nroot.name, parent := st.heap.length, fileSystem := st.heap.length, readOnly := false, data := .dir none none (some r0) }).1 st.heap.length { name := [], parent := st.heap.length, fileSystem := st.heap.length, readOnly := false, data := .fsRoot (normalizeSlashes cwd) csf (some (st.heap.length + 1)) })).heap[st.heap.length + 1]? = some { name := nroot.name, parent := st.heap.length, fileSystem := st.heap.length, readOnly := false, data := .dir none none (some r0) } := by
    rw [getElem_setNode_ne _ _ _ _ (by omega)]
    rw [getElem_alloc, if_neg (show ¬(st.heap.length + 1 < ((setNode (alloc st { name := [], parent := 0, fileSystem := 0, readOnly := false, data := .fsRoot (normalizeSlashes cwd) csf none }).1 st.heap.length { name := [], parent := st.heap.length, fileSystem := st.heap.length, readOnly := false, data := .fsRoot (normalizeSlashes cwd) csf none })).heap.length) by rw [hlen1]; omega)]
    rw [if_pos hlen1.symm]
  have hstep : treeOf (fuel + 1) ((setNode (alloc (setNode (alloc st { name := [], parent := 0, fileSystem := 0, readOnly := false, data := .fsRoot (normalizeSlashes cwd) csf none }).1 st.heap.length { name := [], parent := st.heap.length, fileSystem := st.heap.length, readOnly := false, data := .fsRoot (normalizeSlashes cwd) csf none }) { name := nroot.name, parent := st.heap.length, fileSystem := st.heap.length, readOnly := false, data := .dir none none (some r0) }).1 st.heap.length { name := [], parent := st.heap.length, fileSystem := st.heap.length, readOnly := false, data := .fsRoot (normalizeSlashes cwd) csf (some (st.heap.length + 1)) })) (st.heap.length + 1)
      = (treeOf fuel ((setNode (alloc (setNode (alloc st { name := [], parent := 0, fileSystem := 0, readOnly := false, data := .fsRoot (normalizeSlashes cwd) csf none }).1 st.heap.length { name := [], parent := st.heap.length, fileSystem := st.heap.length, readOnly := false, data := .fsRoot (normalizeSlashes cwd) csf none }) { name := nroot.name, parent := st.heap.length, fileSystem := st.heap.length, readOnly := false, data := .dir none none (some r0) }).1 st.heap.length { name := [], parent := st.heap.length, fileSystem := st.heap.length, readOnly := false, data := .fsRoot (normalizeSlashes cwd) csf (some (st.heap.length + 1)) })) r0).map (fun t => t.withName nroot.name) := by
    rw [treeOf, hgetRC]
  have hiii : fsTreeOf (fuel + 1) ((setNode (alloc (setNode (alloc st { name := [], parent := 0, fileSystem := 0, readOnly := false, data := .fsRoot (normalizeSlashes cwd) csf none }).1 st.heap.length { name := [], parent := st.heap.length, fileSystem := st.heap.length, readOnly := false, data := .fsRoot (normalizeSlashes cwd) csf none }) { name := nroot.name, parent := st.heap.length, fileSystem := st.heap.length, readOnly := false, data := .dir none none (some r0) }).1 st.heap.length { name := [], parent := st.heap.length, fileSystem := st.heap.length, readOnly := false, data := .fsRoot (normalizeSlashes cwd) csf (some (st.heap.length + 1)) })) st.heap.length = fsTreeOf fuel st fs := by
    unfold fsTreeOf
    rw [hgetL2, hfs]
    show treeOf (fuel + 1) ((setNode (alloc (setNode (alloc st { name := [], parent := 0, fileSystem := 0, readOnly := false, data := .fsRoot (normalizeSlashes cwd) csf none }).1 st.heap.length { name := [], parent := st.heap.length, fileSystem := st.heap.length, readOnly := false, data := .fsRoot (normalizeSlashes cwd) csf none }) { name := nroot.name, parent := st.heap.length, fileSystem := st.heap.length, readOnly := false, data := .dir none none (some r0) }).1 st.heap.length { name := [], parent := st.heap.length, fileSystem := st.heap.length, readOnly := false, data := .fsRoot (normalizeSlashes cwd) csf (some (st.heap.length + 1)) })) (st.heap.length + 1) = treeOf fuel st r0
    rw [hstep, treeOf_frame hsf hho hag2 fuel r0 hr0_lt]
    cases fuel with
    | zero => rfl
    | succ f2 =>
      cases ht : treeOf (f2 + 1) st r0 with
      | none => rfl
      | some t =>
        show some (t.withName nroot.name) = some t
        rw [treeOf_withName hr0 ht]
  refine ⟨Nat.le_refl _, hag2, hiii, hb, ?_⟩
  intro f v nf c0 sv0 hfL hgf hnf hnro
  obtain ⟨nm, par, fsi, ro, dat⟩ := nf
  simp only at hnf hnro
  subst hnf
  subst hnro
  have hcomp : setFileContent (fuel + 1) ((setNode (alloc (setNode (alloc st { name := [], parent := 0, fileSystem := 0, readOnly := false, data := .fsRoot (normalizeSlashes cwd) csf none }).1 st.heap.length { name := [], parent := st.heap.length, fileSystem := st.heap.length, readOnly := false, data := .fsRoot (normalizeSlashes cwd) csf none }) { name := nroot.name, parent := st.heap.length, fileSystem := st.heap.length, readOnly := false, data := .dir none none (some r0) }).1 st.heap.length { name := [], parent := st.heap.length, fileSystem := st.heap.length, readOnly := false, data := .fsRoot (normalizeSlashes cwd) csf (some (st.heap.length + 1)) })) f (some v)
      = .ok (setNode ((setNode (alloc (setNode (alloc st { name := [], parent := 0, fileSystem := 0, readOnly := false, data := .fsRoot (normalizeSlashes cwd) csf none }).1 st.heap.length { name := [], parent := st.heap.length, fileSystem := st.heap.length, readOnly := false, data := .fsRoot (normalizeSlashes cwd) csf none }) { name := nroot.name, parent := st.heap.length, fileSystem := st.heap.length, readOnly := false, data := .dir none none (some r0) }).1 st.heap.length { name := [], parent := st.heap.length, fileSystem := st.heap.length, readOnly := false, data := .fsRoot (normalizeSlashes cwd) csf (some (st.heap.length + 1)) })) f { name := nm, parent := par, fileSystem := fsi, readOnly := false, data := .file (some v) none sv0 }) () := by
    unfold setFileContent
    rw [hgf]
    show setFileContentPlain ((setNode (alloc (setNode (alloc st { name := [], parent := 0, fileSystem := 0, readOnly := false, data := .fsRoot (normalizeSlashes cwd) csf none }).1 st.heap.length { name := [], parent := st.heap.length, fileSystem := st.heap.length, readOnly := false, data := .fsRoot (normalizeSlashes cwd) csf none }) { name := nroot.name, parent := st.heap.length, fileSystem := st.heap.length, readOnly := false, data := .dir none none (some r0) }).1 st.heap.length { name := [], parent := st.heap.length, fileSystem := st.heap.length, readOnly := false, data := .fsRoot (normalizeSlashes cwd) csf (some (st.heap.length + 1)) })) f (some v) = _
    unfold setFileContentPlain
    rw [hgf]
    rfl
  refine ⟨_, hcomp, hb _ ?_⟩
  intro i hi
  rw [getElem_setNode_ne _ _ _ _ (by omega)]
  exact hag2 i hi

end Thm

namespace Thm

open VPath VFS Scn

/-- C2 amended theorem instantiated on the concrete clone scenario. -/
theorem c2_clone_witness :
    Scn.stA.heap.length ≤ Scn.fsC ∧
    (∀ i, i < Scn.stA.heap.length → Scn.stClone.heap[i]? = Scn.stA.heap[i]?) ∧
    fsTreeOf 8 Scn.stClone Scn.fsC = fsTreeOf 7 Scn.stA Scn.fs0 ∧
    (∀ st3, (∀ i, i < Scn.stA.heap.length → st3.heap[i]? = Scn.stA.heap[i]?) →
      fsTreeOf 7 st3 Scn.fs0 = fsTreeOf 7 Scn.stA Scn.fs0) ∧
    (∀ f v nf c0 sv0, Scn.stA.heap.length ≤ f → Scn.stClone.heap[f]? = some nf →
      nf.data = .file c0 none sv0 → nf.readOnly = false →
      ∃ st3, setFileContent 8 Scn.stClone f (some v) = .ok st3 () ∧
        fsTreeOf 7 st3 Scn.fs0 = fsTreeOf 7 Scn.stA Scn.fs0) :=
  c2_clone_reads_original_and_confines_writes 7 (by decide) (by decide)
    (show Scn.stA.heap[Scn.fs0]? = some ⟨[], Scn.fs0, Scn.fs0, false, .fsRoot [] true (some 1)⟩ from rfl)
    (show Scn.stA.heap[1]? = some ⟨[], 0, 0, false, .dir (some [2]) none none⟩ from rfl)
    (by decide) (by decide) rfl

end Thm
